import Mathlib

/-!
# Landing-page preference tracker

A shallow embedding of `src/js/landing-preferences.js` and theorems about it.

## How the JavaScript is read

* **Values.** Page identifiers, page names, categories and labels are strings; ratings,
  durations, scores and weights are integers, with exact arithmetic (JavaScript doubles are
  exact on integers below `2^53`); `feedback.liked` is a boolean or absent.  A stored state
  is a well-formed object: every field present and of its type.
* **Time.** Every `new Date()` / `Date.now()` of one call is the `now` argument of the
  modelled call; a `Timestamp` stands for the instant and for its ISO-8601 rendering.
* **Plain objects used as dictionaries.** `JSObject α` lists the own properties in the order
  `Object.entries` reports them: canonical array-index keys first, in ascending numeric
  order, then the other keys in creation order.  A read `o[k]` that finds no own property
  continues on `Object.prototype` (`inherited`): the accessor `__proto__`, the built-in
  methods (`constructor`, `toString`, ...) and, once `recordFeedback` has been called with
  the page identifier `__proto__`, the string property `lastUpdated`.  Adding a number to
  such an inherited value gives a string (`Scalar.text`), never a number.
* **Sharing.** `{ ...defaultPreferences }` is a shallow copy: the arrays and objects nested in
  the copy are the ones of the module-level `defaultPreferences`.  `Work.shared` records, per
  field, whether the working copy still holds the very object of the defaults; a mutation in
  place (`push`, property assignment) then shows in `World.defaults`, a reassignment
  (`prefs.x = prefs.x.slice(..)`) does not.
* **Storage.** `World.slot` is the content of `localStorage[STORAGE_KEY]` after
  `JSON.parse`; `World.writable` tells whether `setItem` succeeds.
* **Sorting.** `Array.prototype.sort` is stable.  With a comparator that never yields `NaN`
  the result is thereby determined; `sortDescending` computes it by insertion.  When a value
  is a string the comparator yields `NaN` and the language leaves the order to the engine;
  no theorem below depends on the order chosen then.
* **Built-in objects.** `updateStylePreferences` on a category that is not an own key of
  `stylePreferences` but a property of `Object.prototype` reads a property of a built-in
  object (`Object.prototype` itself, one of its functions, or the string `lastUpdated`) and,
  if that is not `undefined`, assigns to it: the property is overwritten, or the assignment
  raises a `TypeError` (the script is in strict mode).  `styleStep` follows this within
  the call, for the standard properties of ECMAScript 2023 and the source text of native
  functions as V8 prints it.
* **Model boundary.** A call that has overwritten a property of a built-in object ends in
  `Outcome.overwrote`, with the world it leaves; what later calls in that page read from
  built-in objects is not followed.
-/

namespace LandingPreferences

/-! ## Constants -/

/-- The `localStorage` key (source line 11). -/
def STORAGE_KEY : String := "landing_page_preferences"

/-- The schema version (source line 12). -/
def VERSION : String := "1.0.0"

/-- An instant, as milliseconds since the epoch; also stands for its `toISOString()` text,
which is never empty and never a numeric string. -/
structure Timestamp where
  ms : Int
deriving DecidableEq, Repr

/-! ## Plain objects -/

/-- Value of a decimal digit character. -/
def digitValue (c : Char) : Option Nat :=
  if '0' ≤ c ∧ c ≤ '9' then some (c.toNat - 48) else none

/-- Value of a string of decimal digits. -/
def decimalValue : List Char → Option Nat
  | [] => some 0
  | c :: cs =>
    match digitValue c, decimalValue cs with
    | some d, some r => some (d * 10 ^ cs.length + r)
    | _, _ => none

/-- The array index a property key denotes, if any: a canonical decimal numeral (no leading
zero, no sign) below `2^32 - 1`.  Such keys are enumerated before all others. -/
def arrayIndex? (k : String) : Option Nat :=
  match k.data with
  | [] => none
  | ['0'] => some 0
  | '0' :: _ => none
  | cs =>
    match decimalValue cs with
    | some n => if n < 4294967295 then some n else none
    | none => none

/-- Own enumerable string-keyed properties of a plain object, in `Object.entries` order. -/
abbrev JSObject (α : Type) := List (String × α)

/-- Own property lookup. -/
def JSObject.get? {α : Type} : JSObject α → String → Option α
  | [], _ => none
  | (k', v) :: rest, k => if k' = k then some v else JSObject.get? rest k

/-- Overwrite the value of an existing own property; its position is kept. -/
def JSObject.replace {α : Type} : JSObject α → String → α → JSObject α
  | [], _, _ => []
  | (k', v') :: rest, k, v =>
    if k' = k then (k, v) :: rest else (k', v') :: JSObject.replace rest k v

/-- Create an own property with array-index key `k` (of value `n`): it is enumerated after the
array-index keys below it and before everything else. -/
def JSObject.insertIndex {α : Type} (n : Nat) (k : String) (v : α) : JSObject α → JSObject α
  | [] => [(k, v)]
  | (k', v') :: rest =>
    match arrayIndex? k' with
    | some m =>
      if m < n then (k', v') :: JSObject.insertIndex n k v rest else (k, v) :: (k', v') :: rest
    | none => (k, v) :: (k', v') :: rest

/-- Write the own data property `k`: update it if present, create it otherwise. -/
def JSObject.put {α : Type} (o : JSObject α) (k : String) (v : α) : JSObject α :=
  match o.get? k with
  | some _ => o.replace k v
  | none =>
    match arrayIndex? k with
    | some n => o.insertIndex n k v
    | none => o ++ [(k, v)]

/-- The function-valued properties of `Object.prototype`. -/
def objectPrototypeMethods : List String :=
  ["constructor", "__defineGetter__", "__defineSetter__", "hasOwnProperty",
   "__lookupGetter__", "__lookupSetter__", "isPrototypeOf", "propertyIsEnumerable",
   "toString", "valueOf", "toLocaleString"]

/-- What a read `o[k]` yields on a plain object without own property `k`. -/
inductive Inherited where
  /-- The key `__proto__`: the getter yields `Object.prototype`, the setter ignores primitives. -/
  | protoAccessor
  /-- A built-in method of `Object.prototype`. -/
  | method (name : String)
  /-- The string `Object.prototype.lastUpdated`, written by `recordFeedback("__proto__", ..)`. -/
  | lastUpdated (t : Timestamp)
deriving DecidableEq, Repr

/-- Lookup on `Object.prototype`; `protoLastUpdated` is its `lastUpdated` property, if set. -/
def inherited (protoLastUpdated : Option Timestamp) (k : String) : Option Inherited :=
  if k = "__proto__" then some .protoAccessor
  else if k ∈ objectPrototypeMethods then some (.method k)
  else if k = "lastUpdated" then protoLastUpdated.map .lastUpdated
  else none

/-- Where a string that is not a number came from: `String(x)` of an inherited value. -/
inductive TextOrigin where
  /-- The text `[object Object]` of `Object.prototype`. -/
  | objectProto
  /-- The source text of the built-in function found under the key `name` of
  `Object.prototype`, such as `function toString() { [native code] }`. -/
  | nativeFn (name : String)
  /-- An ISO-8601 timestamp. -/
  | isoTime (t : Timestamp)
deriving DecidableEq, Repr

/-- The text an inherited value turns into under `+`. -/
def Inherited.text : Inherited → TextOrigin
  | .protoAccessor => .objectProto
  | .method name => .nativeFn name
  | .lastUpdated t => .isoTime t

/-- A count, sum or score as the code computes it: a number, or the string obtained by
appending the decimal renderings of `appended` to a non-numeric text. -/
inductive Scalar where
  | num (n : Int)
  | text (origin : TextOrigin) (appended : List Int)
deriving DecidableEq, Repr

/-- JavaScript `s + n` for a number `n`: addition on numbers, concatenation on strings. -/
def Scalar.add : Scalar → Int → Scalar
  | .num m, n => .num (m + n)
  | .text o app, n => .text o (app ++ [n])

/-- JavaScript `ToNumber`; `none` is `NaN`. -/
def Scalar.toNumber? : Scalar → Option Int
  | .num n => some n
  | .text _ _ => none

/-- JavaScript `(o[k] || 0) + n` on a plain object `o`. -/
def bump (protoLastUpdated : Option Timestamp) (o : JSObject Scalar) (k : String) (n : Int) :
    Scalar :=
  match o.get? k with
  | some (.num m) => .num ((if m = 0 then 0 else m) + n)
  | some (.text org app) => .text org (app ++ [n])
  | none =>
    match inherited protoLastUpdated k with
    | some i => .text i.text [n]
    | none => .num n

/-- JavaScript `o[k] = v` for a primitive `v` on a plain object: without own property
`__proto__` the inherited setter runs and ignores `v`. -/
def assignPrimitive {α : Type} (o : JSObject α) (k : String) (v : α) : JSObject α :=
  match o.get? k with
  | some _ => o.put k v
  | none => if k = "__proto__" then o else o.put k v

/-! ## Data model -/

/-- An element of `viewHistory` (source lines 122-127). -/
structure ViewRecord where
  pageId : String
  pageName : String
  timestamp : Timestamp
  duration : Int
deriving DecidableEq, Repr

/-- An element of `ratings` (source lines 172-175). -/
structure Rating where
  value : Int
  timestamp : Timestamp
deriving DecidableEq, Repr

/-- An element of `comments` (source lines 179-182). -/
structure Comment where
  text : String
  timestamp : Timestamp
deriving DecidableEq, Repr

/-- A value of `pageFeedback` (source lines 162-166); `lastUpdated` starts as `null`. -/
structure PageFeedback where
  ratings : List Rating
  comments : List Comment
  lastUpdated : Option Timestamp
deriving DecidableEq, Repr

/-- An element of `userNotes` (source lines 225-229). -/
structure Note where
  text : String
  context : List (String × String)
  timestamp : Timestamp
deriving DecidableEq, Repr

/-- A preference state with every field present.  The `version` property is not a field:
every state the code loads or saves carries `VERSION`. -/
structure Prefs where
  created : Timestamp
  updated : Timestamp
  viewHistory : List ViewRecord
  pageFeedback : JSObject PageFeedback
  stylePreferences : JSObject (JSObject Scalar)
  userNotes : List Note
  favorites : List String
  disliked : List String
deriving DecidableEq, Repr

/-- A stored value whose `version` is not `VERSION`.  Lines 105-111 test each field for
truthiness: a field is `none` when the stored value lacks it or holds a falsy value there
(`null`, `false`, `0`, the empty string), and `some` of a value of the field's type
otherwise. -/
structure LegacyPrefs where
  created : Option Timestamp
  viewHistory : Option (List ViewRecord)
  pageFeedback : Option (JSObject PageFeedback)
  stylePreferences : Option (JSObject (JSObject Scalar))
  userNotes : Option (List Note)
  favorites : Option (List String)
  disliked : Option (List String)
deriving DecidableEq, Repr

/-- The content of the storage slot. -/
inductive Slot where
  /-- No item under `STORAGE_KEY`. -/
  | absent
  /-- Text from which `loadPreferences` recovers by its `catch`/fall-through: empty, not JSON,
  or `null`. -/
  | corrupt
  /-- The JSON of a complete state whose `version` is `VERSION`. -/
  | current (p : Prefs)
  /-- The JSON of a value whose `version` differs from `VERSION`. -/
  | legacy (o : LegacyPrefs)
deriving DecidableEq, Repr

/-- The mutable content of the module-level `defaultPreferences` (source lines 17-64). -/
structure Defaults where
  created : Timestamp
  updated : Timestamp
  viewHistory : List ViewRecord
  pageFeedback : JSObject PageFeedback
  stylePreferences : JSObject (JSObject Scalar)
  userNotes : List Note
  favorites : List String
  disliked : List String
deriving DecidableEq, Repr

/-- The style vector of the object literal (source lines 29-54). -/
def defaultStylePreferences : JSObject (JSObject Scalar) :=
  [("colorSchemes", [("dark", .num 0), ("light", .num 0), ("gradient", .num 0)]),
   ("layouts", [("minimal", .num 0), ("feature_rich", .num 0), ("photo_forward", .num 0)]),
   ("animations", [("subtle", .num 0), ("dynamic", .num 0), ("none", .num 0)]),
   ("typography", [("bold", .num 0), ("elegant", .num 0), ("modern", .num 0)])]

/-- The object `defaultPreferences` as the script creates it at time `t`. -/
def Defaults.initial (t : Timestamp) : Defaults where
  created := t
  updated := t
  viewHistory := []
  pageFeedback := []
  stylePreferences := defaultStylePreferences
  userNotes := []
  favorites := []
  disliked := []

/-- Everything the calls read and write. -/
structure World where
  /-- The stored item. -/
  slot : Slot
  /-- Whether `localStorage.setItem` succeeds. -/
  writable : Bool
  /-- The module-level `defaultPreferences`. -/
  defaults : Defaults
  /-- The property `Object.prototype.lastUpdated`, if some call created it. -/
  protoLastUpdated : Option Timestamp
  /-- Start times of the `beforeunload` listeners registered so far (source lines 137-141). -/
  armed : List Timestamp
deriving DecidableEq, Repr

/-- A page freshly loaded at time `t` with nothing stored. -/
def World.fresh (t : Timestamp) : World where
  slot := .absent
  writable := true
  defaults := Defaults.initial t
  protoLastUpdated := none
  armed := []

/-- Per nested field: does the working copy hold the very object of `defaultPreferences`? -/
structure Shared where
  viewHistory : Bool
  pageFeedback : Bool
  stylePreferences : Bool
  userNotes : Bool
  favorites : Bool
  disliked : Bool
deriving DecidableEq, Repr

/-- The working copy of one call together with the defaults it may alias. -/
structure Work where
  prefs : Prefs
  shared : Shared
  defaults : Defaults
deriving DecidableEq, Repr

/-- How a call ends. -/
inductive Outcome where
  /-- The call returned. -/
  | returned (w : World)
  /-- A `TypeError` reached the caller. -/
  | threw (w : World)
  /-- The call overwrote a property of a built-in object and then raised a `TypeError`
  (`raised`) or returned; `w` is the world it leaves, built-in objects apart.  The embedding
  does not follow calls made after it (see the model boundary). -/
  | overwrote (raised : Bool) (w : World)
deriving DecidableEq, Repr

/-! ## Loading and saving -/

/-- The shallow copy `{ ...defaultPreferences }`: every nested object is shared. -/
def Work.ofDefaults (d : Defaults) : Work where
  prefs :=
    { created := d.created, updated := d.updated, viewHistory := d.viewHistory,
      pageFeedback := d.pageFeedback, stylePreferences := d.stylePreferences,
      userNotes := d.userNotes, favorites := d.favorites, disliked := d.disliked }
  shared :=
    { viewHistory := true, pageFeedback := true, stylePreferences := true,
      userNotes := true, favorites := true, disliked := true }
  defaults := d

/-- A state parsed from storage: nothing is shared with the defaults. -/
def Work.ofParsed (p : Prefs) (d : Defaults) : Work where
  prefs := p
  shared :=
    { viewHistory := false, pageFeedback := false, stylePreferences := false,
      userNotes := false, favorites := false, disliked := false }
  defaults := d

/-- Source lines 101-114: start from a shallow copy of the defaults, take over the five
legacy fields that are truthy, keep `created` if it is truthy, else the current time. -/
def migratePreferences (d : Defaults) (oldPrefs : LegacyPrefs) (now : Timestamp) : Work where
  prefs :=
    { created := oldPrefs.created.getD now
      updated := d.updated
      viewHistory := oldPrefs.viewHistory.getD d.viewHistory
      pageFeedback := oldPrefs.pageFeedback.getD d.pageFeedback
      stylePreferences := d.stylePreferences
      userNotes := oldPrefs.userNotes.getD d.userNotes
      favorites := oldPrefs.favorites.getD d.favorites
      disliked := oldPrefs.disliked.getD d.disliked }
  shared :=
    { viewHistory := oldPrefs.viewHistory.isNone
      pageFeedback := oldPrefs.pageFeedback.isNone
      stylePreferences := true
      userNotes := oldPrefs.userNotes.isNone
      favorites := oldPrefs.favorites.isNone
      disliked := oldPrefs.disliked.isNone }
  defaults := d

/-- Source lines 69-84. -/
def loadPreferences (w : World) (now : Timestamp) : Work :=
  match w.slot with
  | .absent => Work.ofDefaults w.defaults
  | .corrupt => Work.ofDefaults w.defaults
  | .current p => Work.ofParsed p w.defaults
  | .legacy o => migratePreferences w.defaults o now

/-- Source lines 89-96: stamp `updated`, write the slot; a rejected write is swallowed.  The
defaults are as the call left them. -/
def savePreferences (w : World) (k : Work) (now : Timestamp) : World :=
  { w with
    slot := if w.writable then .current { k.prefs with updated := now } else w.slot
    defaults := k.defaults }

/-- Source lines 295-297. -/
def resetPreferences (w : World) : World :=
  { w with slot := .absent }

/-! ## Mutations of the working copy -/

/-- Mutate the `viewHistory` array in place. -/
def Work.mutViewHistory (k : Work) (v : List ViewRecord) : Work :=
  { k with
    prefs := { k.prefs with viewHistory := v }
    defaults := if k.shared.viewHistory then { k.defaults with viewHistory := v } else k.defaults }

/-- Assign a new array to `prefs.viewHistory`. -/
def Work.setViewHistory (k : Work) (v : List ViewRecord) : Work :=
  { k with
    prefs := { k.prefs with viewHistory := v }
    shared := { k.shared with viewHistory := false } }

/-- Mutate the `userNotes` array in place. -/
def Work.mutUserNotes (k : Work) (v : List Note) : Work :=
  { k with
    prefs := { k.prefs with userNotes := v }
    defaults := if k.shared.userNotes then { k.defaults with userNotes := v } else k.defaults }

/-- Assign a new array to `prefs.userNotes`. -/
def Work.setUserNotes (k : Work) (v : List Note) : Work :=
  { k with
    prefs := { k.prefs with userNotes := v }
    shared := { k.shared with userNotes := false } }

/-- Mutate the `pageFeedback` object (or an entry of it) in place. -/
def Work.mutPageFeedback (k : Work) (v : JSObject PageFeedback) : Work :=
  { k with
    prefs := { k.prefs with pageFeedback := v }
    defaults :=
      if k.shared.pageFeedback then { k.defaults with pageFeedback := v } else k.defaults }

/-- Mutate a category object of `stylePreferences` in place. -/
def Work.mutStylePreferences (k : Work) (v : JSObject (JSObject Scalar)) : Work :=
  { k with
    prefs := { k.prefs with stylePreferences := v }
    defaults :=
      if k.shared.stylePreferences then { k.defaults with stylePreferences := v }
      else k.defaults }

/-- Mutate the `favorites` array in place. -/
def Work.mutFavorites (k : Work) (v : List String) : Work :=
  { k with
    prefs := { k.prefs with favorites := v }
    defaults := if k.shared.favorites then { k.defaults with favorites := v } else k.defaults }

/-- Assign a new array to `prefs.favorites`. -/
def Work.setFavorites (k : Work) (v : List String) : Work :=
  { k with
    prefs := { k.prefs with favorites := v }
    shared := { k.shared with favorites := false } }

/-- Mutate the `disliked` array in place. -/
def Work.mutDisliked (k : Work) (v : List String) : Work :=
  { k with
    prefs := { k.prefs with disliked := v }
    defaults := if k.shared.disliked then { k.defaults with disliked := v } else k.defaults }

/-- Assign a new array to `prefs.disliked`. -/
def Work.setDisliked (k : Work) (v : List String) : Work :=
  { k with
    prefs := { k.prefs with disliked := v }
    shared := { k.shared with disliked := false } }

/-- JavaScript `arr.slice(-n)`: the last `n` elements, all of them if there are fewer. -/
def sliceLast {α : Type} (n : Nat) (l : List α) : List α :=
  l.drop (l.length - n)

/-! ## Recording views -/

/-- Source lines 119-142. -/
def recordPageView (w : World) (pageId pageName : String) (now : Timestamp) : Outcome :=
  let k := loadPreferences w now
  let k := k.mutViewHistory
    (k.prefs.viewHistory ++
      [{ pageId := pageId, pageName := pageName, timestamp := now, duration := 0 }])
  let k := if k.prefs.viewHistory.length > 100 then
      k.setViewHistory (sliceLast 100 k.prefs.viewHistory)
    else k
  let w := savePreferences w k now
  .returned { w with armed := w.armed ++ [now] }

/-- Set the `duration` of the last record (source line 150). -/
def setLastDuration (duration : Int) : List ViewRecord → List ViewRecord
  | [] => []
  | [r] => [{ r with duration := duration }]
  | r :: rest => r :: setLastDuration duration rest

/-- Source lines 147-153. -/
def updateLastViewDuration (w : World) (duration : Int) (now : Timestamp) : Outcome :=
  let k := loadPreferences w now
  if k.prefs.viewHistory.length > 0 then
    let k := k.mutViewHistory (setLastDuration duration k.prefs.viewHistory)
    .returned (savePreferences w k now)
  else .returned w

/-- Source lines 222-237. -/
def addUserNote (w : World) (note : String) (context : List (String × String))
    (now : Timestamp) : Outcome :=
  let k := loadPreferences w now
  let k := k.mutUserNotes
    (k.prefs.userNotes ++ [{ text := note, context := context, timestamp := now }])
  let k := if k.prefs.userNotes.length > 50 then
      k.setUserNotes (sliceLast 50 k.prefs.userNotes)
    else k
  .returned (savePreferences w k now)

/-! ## Recording feedback -/

/-- The argument `feedback` of `recordFeedback`: each property may be absent; `styles` is given
by its `Object.entries`. -/
structure Feedback where
  rating : Option Int
  comment : Option String
  liked : Option Bool
  styles : Option (List (String × String))
deriving DecidableEq, Repr

/-- The comment when `feedback.comment` is truthy (source line 178): a non-empty string. -/
def Feedback.commentText (feedback : Feedback) : Option String :=
  match feedback.comment with
  | some c => if c = "" then none else some c
  | none => none

/-! ### Built-in objects in the style loop -/

/-- The writable data properties of `Function.prototype`, which every function inherits. -/
def functionPrototypeMethods : List String :=
  ["apply", "bind", "call", "constructor", "toString"]

/-- The writable own properties of the constructor `Object` (ECMAScript 2023). -/
def objectStatics : List String :=
  ["assign", "create", "defineProperties", "defineProperty", "entries", "freeze",
   "fromEntries", "getOwnPropertyDescriptor", "getOwnPropertyDescriptors",
   "getOwnPropertyNames", "getOwnPropertySymbols", "getPrototypeOf", "hasOwn", "is",
   "isExtensible", "isFrozen", "isSealed", "keys", "preventExtensions", "seal",
   "setPrototypeOf", "values"]

/-- The own properties of `String.prototype` (ECMAScript 2023, annex B included). -/
def stringPrototypeMethods : List String :=
  ["at", "charAt", "charCodeAt", "codePointAt", "concat", "constructor", "endsWith",
   "includes", "indexOf", "lastIndexOf", "length", "localeCompare", "match", "matchAll",
   "normalize", "padEnd", "padStart", "repeat", "replace", "replaceAll", "search", "slice",
   "split", "startsWith", "substring", "toLocaleLowerCase", "toLocaleUpperCase",
   "toLowerCase", "toString", "toUpperCase", "trim", "trimEnd", "trimStart", "valueOf",
   "substr", "anchor", "big", "blink", "bold", "fixed", "fontcolor", "fontsize", "italics",
   "link", "small", "strike", "sub", "sup", "trimLeft", "trimRight"]

/-- What the style loop of one call has overwritten in built-in objects so far. -/
structure HostLog where
  /-- Properties of `Object.prototype` that now hold a string: the name, and the numbers
  appended to the text of the value the property had when the call began. -/
  proto : JSObject (List Int)
  /-- Own properties of built-in functions that now hold a string: the key of the function
  on `Object.prototype`, and the name of the property. -/
  fnOwn : List (String × String)
deriving DecidableEq, Repr

/-- Nothing overwritten. -/
def HostLog.empty : HostLog :=
  { proto := [], fnOwn := [] }

/-- No property of a built-in object has been overwritten. -/
def HostLog.intact (log : HostLog) : Bool :=
  log.proto.isEmpty && log.fnOwn.isEmpty

/-- A value read from `Object.prototype`. -/
inductive HostValue where
  | undefined
  /-- `Object.prototype` itself, which the getter `__proto__` of a plain object yields. -/
  | objectPrototype
  /-- The built-in function that is the initial value of `Object.prototype[name]`. -/
  | function (name : String)
  /-- A string: the text `origin` followed by the decimal renderings of `appended`. -/
  | text (origin : TextOrigin) (appended : List Int)
deriving DecidableEq, Repr

/-- JavaScript `o[k]` for a plain object `o` without own property `k`, during the style
loop: the property of `Object.prototype`, as the loop has left it. -/
def protoMember (protoLastUpdated : Option Timestamp) (log : HostLog) (k : String) :
    HostValue :=
  match inherited protoLastUpdated k with
  | some .protoAccessor => .objectPrototype
  | some (.method name) =>
    match log.proto.get? k with
    | some appended => .text (.nativeFn name) appended
    | none => .function name
  | some (.lastUpdated t) => .text (.isoTime t) ((log.proto.get? k).getD [])
  | none => .undefined

/-- The number of characters of a text: `[object Object]`, the source text of a native
function in the form `function name() { [native code] }`, an ISO-8601 timestamp of a year
from 0 to 9999. -/
def TextOrigin.length : TextOrigin → Nat
  | .objectProto => 15
  | .nativeFn name => 29 + (if name = "constructor" then 6 else name.length)
  | .isoTime _ => 24

/-- JavaScript `s[v] !== undefined` for a string `s`: its `length`, its characters, and
what it inherits from `String.prototype` and `Object.prototype`. -/
def stringHasProperty (protoLastUpdated : Option Timestamp) (log : HostLog)
    (origin : TextOrigin) (appended : List Int) (v : String) : Bool :=
  (match arrayIndex? v with
    | some n => decide (n < origin.length + (appended.map (fun n => (toString n).length)).sum)
    | none => false) ||
  decide (v ∈ stringPrototypeMethods) ||
  decide (protoMember protoLastUpdated log v ≠ .undefined)

/-- How far the style loop has come: the style vector as the iterations so far have left
it, and what they have overwritten in built-in objects. -/
inductive StyleRun where
  /-- The iterations completed. -/
  | completed (sp : JSObject (JSObject Scalar)) (log : HostLog)
  /-- An iteration raised a `TypeError`. -/
  | raised (sp : JSObject (JSObject Scalar)) (log : HostLog)
deriving DecidableEq, Repr

/-- Lines 213-214 for a category that is not an own key of the style vector: the last
argument is the value of `Object.prototype[category]`.

* `Object.prototype` (category `__proto__`): `Object.prototype.__proto__` is `null`, and
  the setter ignores the number assigned; any other property that is not `undefined` is
  overwritten with a string.
* A function: `length`, `name` (and `prototype` of `Object`) are read-only, so the
  assignment raises; the getters of `arguments` and `caller` raise; the setter of
  `__proto__` ignores the string assigned; any other property that is not `undefined` (own,
  or inherited from `Function.prototype` or `Object.prototype`) is overwritten or created
  as an own property of the function.
* A string: an assignment to a property of a string raises, except for `__proto__`.

Converting a function to a string raises once its own `toString` holds a string. -/
def hostStep (protoLastUpdated : Option Timestamp) (log : HostLog)
    (sp : JSObject (JSObject Scalar)) (value : String) (weight : Int) :
    HostValue → StyleRun
  | .undefined => .completed sp log
  | .objectPrototype =>
    match protoMember protoLastUpdated log value with
    | .undefined => .completed sp log
    | .objectPrototype => .completed sp log
    | .function name =>
      if (name, "toString") ∈ log.fnOwn then .raised sp log
      else .completed sp { log with proto := log.proto.put value [weight] }
    | .text _ appended =>
      .completed sp { log with proto := log.proto.put value (appended ++ [weight]) }
  | .function name =>
    if (name, value) ∈ log.fnOwn then .completed sp log
    else if value = "length" ∨ value = "name" ∨ (name = "constructor" ∧ value = "prototype")
    then .raised sp log
    else if (name = "constructor" ∧ value ∈ objectStatics) ∨ value ∈ functionPrototypeMethods
    then .completed sp { log with fnOwn := log.fnOwn ++ [(name, value)] }
    else if value = "arguments" ∨ value = "caller" then .raised sp log
    else
      match protoMember protoLastUpdated log value with
      | .undefined => .completed sp log
      | .objectPrototype => .completed sp log
      | .function inner =>
        if (inner, "toString") ∈ log.fnOwn then .raised sp log
        else .completed sp { log with fnOwn := log.fnOwn ++ [(name, value)] }
      | .text _ _ => .completed sp { log with fnOwn := log.fnOwn ++ [(name, value)] }
  | .text origin appended =>
    if value = "__proto__" then .completed sp log
    else if stringHasProperty protoLastUpdated log origin appended value then .raised sp log
    else .completed sp log

/-- One iteration of the loop of `updateStylePreferences` (source lines 213-215), after the
iterations before it have left `log` in built-in objects.

For an own category: an own label gets `weight` added; a label that is not own is read from
`Object.prototype`, and if it is found there the sum is a string, which becomes an own
label (for `__proto__` the setter ignores it); the conversion of `Object.prototype` to a
string raises once its `toString` holds a string. -/
def styleStep (protoLastUpdated : Option Timestamp) (log : HostLog)
    (sp : JSObject (JSObject Scalar)) (category value : String) (weight : Int) : StyleRun :=
  match sp.get? category with
  | some cat =>
    match cat.get? value with
    | some s => .completed (sp.put category (cat.put value (s.add weight))) log
    | none =>
      match protoMember protoLastUpdated log value with
      | .undefined => .completed sp log
      | .objectPrototype =>
        if (log.proto.get? "toString").isSome then .raised sp log else .completed sp log
      | .function name =>
        if (name, "toString") ∈ log.fnOwn then .raised sp log
        else .completed (sp.put category (cat.put value (.text (.nativeFn name) [weight]))) log
      | .text origin appended =>
        .completed (sp.put category (cat.put value (.text origin (appended ++ [weight])))) log
  | none =>
    hostStep protoLastUpdated log sp value weight (protoMember protoLastUpdated log category)

/-- Source lines 211-217: the loop over `Object.entries(styles)`, until an iteration
raises. -/
def styleLoop (protoLastUpdated : Option Timestamp) :
    HostLog → JSObject (JSObject Scalar) → List (String × String) → Int → StyleRun
  | log, sp, [], _ => .completed sp log
  | log, sp, (category, value) :: rest, weight =>
    match styleStep protoLastUpdated log sp category value weight with
    | .completed sp' log' => styleLoop protoLastUpdated log' sp' rest weight
    | .raised sp' log' => .raised sp' log'

/-- One iteration of the loop as a function of the style vector alone: `none` when the
iteration raises a `TypeError` or overwrites a property of a built-in object, which
`styleStep` follows. -/
def applyStyle (protoLastUpdated : Option Timestamp) (sp : JSObject (JSObject Scalar))
    (category value : String) (weight : Int) : Option (JSObject (JSObject Scalar)) :=
  match styleStep protoLastUpdated HostLog.empty sp category value weight with
  | .completed sp' log => if log.intact then some sp' else none
  | .raised _ _ => none

/-- Source lines 211-217 as a function of the style vector alone: `none` when an iteration
raises a `TypeError` or overwrites a property of a built-in object (`styleLoop` follows
those). -/
def updateStylePreferences (protoLastUpdated : Option Timestamp) :
    JSObject (JSObject Scalar) → List (String × String) → Int →
      Option (JSObject (JSObject Scalar))
  | sp, [], _ => some sp
  | sp, (category, value) :: rest, weight =>
    match applyStyle protoLastUpdated sp category value weight with
    | some sp' => updateStylePreferences protoLastUpdated sp' rest weight
    | none => none

/-- What `prefs.pageFeedback[pageId]` denotes after source lines 161-169. -/
inductive FeedbackTarget where
  /-- An own entry of `pageFeedback`. -/
  | own (e : PageFeedback)
  /-- A value found on `Object.prototype`. -/
  | host (i : Inherited)
deriving DecidableEq, Repr

/-- Source lines 185-197: the like / dislike block. -/
def applyLiked (k : Work) (pageId : String) : Option Bool → Work
  | none => k
  | some true =>
    let k := if pageId ∈ k.prefs.favorites then k
      else k.mutFavorites (k.prefs.favorites ++ [pageId])
    k.setDisliked (k.prefs.disliked.filter (fun id => id ≠ pageId))
  | some false =>
    let k := if pageId ∈ k.prefs.disliked then k
      else k.mutDisliked (k.prefs.disliked ++ [pageId])
    k.setFavorites (k.prefs.favorites.filter (fun id => id ≠ pageId))

/-- The weight of source line 201: `feedback.liked ? 1 : -1`. -/
def styleWeight : Option Bool → Int
  | some true => 1
  | _ => -1

/-- Source lines 161-169: make sure `prefs.pageFeedback[pageId]` is truthy and read it. -/
def resolveFeedback (protoLastUpdated : Option Timestamp) (k : Work) (pageId : String) :
    Work × FeedbackTarget :=
  match k.prefs.pageFeedback.get? pageId with
  | some e => (k, .own e)
  | none =>
    match inherited protoLastUpdated pageId with
    | some i => (k, .host i)
    | none =>
      let e : PageFeedback := { ratings := [], comments := [], lastUpdated := none }
      (k.mutPageFeedback (k.prefs.pageFeedback.put pageId e), .own e)

/-- Source lines 171-183 on an own entry: append the rating and the comment. -/
def logFeedback (e : PageFeedback) (feedback : Feedback) (now : Timestamp) : PageFeedback :=
  let e := match feedback.rating with
    | some r => { e with ratings := e.ratings ++ [{ value := r, timestamp := now }] }
    | none => e
  match feedback.commentText with
  | some c => { e with comments := e.comments ++ [{ text := c, timestamp := now }] }
  | none => e

/-- The working copy after source lines 200-202, whether the loop raised, and what it has
overwritten in built-in objects. -/
structure Styled where
  work : Work
  raised : Bool
  log : HostLog
deriving DecidableEq, Repr

/-- Source lines 200-202.  The loop mutates the category objects in place, also when a
later iteration raises. -/
def applyStyles (protoLastUpdated : Option Timestamp) (k : Work) (feedback : Feedback) :
    Styled :=
  match feedback.styles with
  | some styles =>
    match styleLoop protoLastUpdated HostLog.empty k.prefs.stylePreferences styles
        (styleWeight feedback.liked) with
    | .completed sp log => { work := k.mutStylePreferences sp, raised := false, log := log }
    | .raised sp log => { work := k.mutStylePreferences sp, raised := true, log := log }
  | none => { work := k, raised := false, log := HostLog.empty }

/-- How the call ends when it leaves the world `w` by raising (`raised`) or by returning. -/
def Styled.outcome (s : Styled) (raised : Bool) (w : World) : Outcome :=
  if s.log.intact then (if raised then .threw w else .returned w) else .overwrote raised w

/-- Source lines 158-206.  The constant `pageFeedback` of line 169 is an own entry of
`prefs.pageFeedback`, or, for a page identifier that names a property of `Object.prototype`
and has no own entry, the inherited value.  A `TypeError` raised by the style loop reaches
the caller before the save, after the mutations in place. -/
def recordFeedback (w : World) (pageId : String) (feedback : Feedback) (now : Timestamp) :
    Outcome :=
  -- lines 159-169
  let r := resolveFeedback w.protoLastUpdated (loadPreferences w now) pageId
  match r.2 with
  | .own e =>
    -- lines 171-183: the pushes mutate the entry in place
    let e := logFeedback e feedback now
    let k := r.1.mutPageFeedback (r.1.prefs.pageFeedback.put pageId e)
    -- lines 185-202
    let s := applyStyles w.protoLastUpdated (applyLiked k pageId feedback.liked) feedback
    if s.raised then s.outcome true { w with defaults := s.work.defaults }
    else
      -- lines 204-205
      s.outcome false (savePreferences w
        (s.work.mutPageFeedback
          (s.work.prefs.pageFeedback.put pageId { e with lastUpdated := some now }))
        now)
  | .host i =>
    -- lines 171-183: `pageFeedback.ratings` and `pageFeedback.comments` are undefined, so a
    -- `push` throws before anything has been mutated
    if feedback.rating.isSome || feedback.commentText.isSome then .threw w
    else
      -- lines 185-202
      let s := applyStyles w.protoLastUpdated (applyLiked r.1 pageId feedback.liked) feedback
      if s.raised then s.outcome true { w with defaults := s.work.defaults }
      else
        -- line 204 assigns to `Object.prototype`, to one of its methods, or to a string (a
        -- TypeError in strict mode, raised after the mutations in place and before the save)
        match i with
        | .protoAccessor =>
          s.outcome false { savePreferences w s.work now with protoLastUpdated := some now }
        | .method _ => s.outcome false (savePreferences w s.work now)
        | .lastUpdated _ => s.outcome true { w with defaults := s.work.defaults }

/-! ## Summary -/

/-- Source lines 246-249: the object `viewCounts`. -/
def viewCounts (protoLastUpdated : Option Timestamp) (viewHistory : List ViewRecord) :
    JSObject Scalar :=
  viewHistory.foldl
    (fun counts view =>
      assignPrimitive counts view.pageId (bump protoLastUpdated counts view.pageId 1))
    []

/-- Source lines 255-257: the object `durationSums`. -/
def durationSums (protoLastUpdated : Option Timestamp) (viewHistory : List ViewRecord) :
    JSObject Scalar :=
  viewHistory.foldl
    (fun sums view =>
      if view.duration > 0 then
        assignPrimitive sums view.pageId (bump protoLastUpdated sums view.pageId view.duration)
      else sums)
    []

/-- Source lines 255-258: the object `durationCounts`. -/
def durationCounts (protoLastUpdated : Option Timestamp) (viewHistory : List ViewRecord) :
    JSObject Scalar :=
  viewHistory.foldl
    (fun counts view =>
      if view.duration > 0 then
        assignPrimitive counts view.pageId (bump protoLastUpdated counts view.pageId 1)
      else counts)
    []

/-- Rounding to the nearest integer, halves upwards, of `sum / count` for `count > 0`. -/
def roundHalfUp (sum count : Int) : Int :=
  (2 * sum + count) / (2 * count)

/-- JavaScript `Math.round(sum / count)`; `none` is `NaN`.  A zero `count` does not occur (the
counts of source line 258 start at one). -/
def roundedQuotient (sum count : Scalar) : Option Int :=
  match sum.toNumber?, count.toNumber? with
  | some s, some c => if c = 0 then none else some (roundHalfUp s c)
  | _, _ => none

/-- Source lines 261-263: the object `avgDurations`; a value `none` is `NaN`. -/
def avgDurations (protoLastUpdated : Option Timestamp) (viewHistory : List ViewRecord) :
    JSObject (Option Int) :=
  (durationSums protoLastUpdated viewHistory).foldl
    (fun avg entry =>
      assignPrimitive avg entry.1
        (match (durationCounts protoLastUpdated viewHistory).get? entry.1 with
          | some c => roundedQuotient entry.2 c
          | none => none))
    []

/-- The comparator `(a, b) => b[1] - a[1]` does not ask for `a` to move behind `b`: its result
is negative, zero or `NaN`. -/
def keepsBefore (x y : Option Int) : Bool :=
  match x, y with
  | some a, some b => decide (b ≤ a)
  | _, _ => true

/-- JavaScript `arr.sort((a, b) => b[1] - a[1])`.  The sort is stable; when no value is `NaN`
the result is determined by that.  Insertion from the right is one such sort. -/
def sortDescending {α : Type} (value : α → Option Int) (l : List α) : List α :=
  l.insertionSort (fun a b => keepsBefore (value a) (value b) = true)

/-- An element of `mostViewed`. -/
structure ViewCount where
  pageId : String
  views : Scalar
deriving DecidableEq, Repr

/-- An element of `longestViewed`; `avgDuration = none` is `NaN`. -/
structure AvgDuration where
  pageId : String
  avgDuration : Option Int
deriving DecidableEq, Repr

/-- Source lines 278-281. -/
def mostViewed (protoLastUpdated : Option Timestamp) (viewHistory : List ViewRecord) :
    List ViewCount :=
  ((sortDescending (fun e => e.2.toNumber?) (viewCounts protoLastUpdated viewHistory)).take 5).map
    (fun e => { pageId := e.1, views := e.2 })

/-- Source lines 282-285. -/
def longestViewed (protoLastUpdated : Option Timestamp) (viewHistory : List ViewRecord) :
    List AvgDuration :=
  ((sortDescending (fun e => e.2) (avgDurations protoLastUpdated viewHistory)).take 5).map
    (fun e => { pageId := e.1, avgDuration := e.2 })

/-- JavaScript `score > 0`. -/
def Scalar.isPositive : Scalar → Bool
  | .num n => decide (0 < n)
  | .text _ _ => false

/-- Source lines 266-272: the object `topStyles`. -/
def topStyles (stylePreferences : JSObject (JSObject Scalar)) : JSObject String :=
  stylePreferences.foldl
    (fun top entry =>
      match sortDescending (fun e => e.2.toNumber?) entry.2 with
      | (label, score) :: _ => if score.isPositive then assignPrimitive top entry.1 label else top
      | [] => top)
    []

/-- The object returned by `getPreferencesSummary` (source lines 274-289). -/
structure Summary where
  totalViews : Nat
  favorites : List String
  disliked : List String
  mostViewed : List ViewCount
  longestViewed : List AvgDuration
  topStylePreferences : JSObject String
  recentNotes : List String
  lastUpdated : Timestamp
deriving DecidableEq, Repr

/-- Source lines 242-290. -/
def getPreferencesSummary (w : World) (now : Timestamp) : Summary :=
  let prefs := (loadPreferences w now).prefs
  { totalViews := prefs.viewHistory.length
    favorites := prefs.favorites
    disliked := prefs.disliked
    mostViewed := mostViewed w.protoLastUpdated prefs.viewHistory
    longestViewed := longestViewed w.protoLastUpdated prefs.viewHistory
    topStylePreferences := topStyles prefs.stylePreferences
    recentNotes := (sliceLast 5 prefs.userNotes).map (fun n => n.text)
    lastUpdated := prefs.updated }

/-! ## Small checks of the embedding -/

/-- A view record for page `p` with duration `d`. -/
def view (p : String) (d : Int) : ViewRecord :=
  { pageId := p, pageName := p, timestamp := ⟨0⟩, duration := d }

/-! ## Favorites and disliked -/

/-- No page identifier is both in `favorites` and in `disliked`. -/
def Exclusive (p : Prefs) : Prop :=
  ∀ id ∈ p.favorites, id ∉ p.disliked

instance (p : Prefs) : Decidable (Exclusive p) := by
  unfold Exclusive; infer_instance

/-- How a call ended and the world it left. -/
def Ended (o : Outcome) (raised : Bool) (w : World) : Prop :=
  (o = .returned w ∧ raised = false) ∨ (o = .threw w ∧ raised = true) ∨ o = .overwrote raised w

/-- What the slot holds after a call on `w` that reached its save and left `w'`: with a
working storage a state without a page identifier in both lists, otherwise what it held. -/
def SavedExclusive (w w' : World) : Prop :=
  if w.writable = true then ∃ p, w'.slot = .current p ∧ Exclusive p else w'.slot = w.slot

/-- The world used to exercise `recordFeedback`: a fresh page. -/
def freshWorld : World := World.fresh ⟨0⟩

/-- The feedback `{ liked: b }`. -/
def likedOnly (b : Bool) : Feedback :=
  { rating := none, comment := none, liked := some b, styles := none }

/-! ## Bounded retention -/

/-- The two retention bounds of the data model. -/
def Bounded (p : Prefs) : Prop :=
  p.viewHistory.length ≤ 100 ∧ p.userNotes.length ≤ 50

instance (p : Prefs) : Decidable (Bounded p) := by
  unfold Bounded; infer_instance

/-- Every state found in the slot satisfies the retention bounds. -/
def SlotBounded (s : Slot) : Prop :=
  ∀ p, s = .current p → Bounded p

/-- The world a call leaves, however it ended. -/
def Outcome.world : Outcome → World
  | .returned w => w
  | .threw w => w
  | .overwrote _ w => w

/-- A stored state at both bounds: 100 view records and 50 notes. -/
def fullPrefs : Prefs :=
  { (Work.ofDefaults (Defaults.initial ⟨0⟩)).prefs with
    viewHistory := List.replicate 100
      { pageId := "a", pageName := "a", timestamp := ⟨0⟩, duration := 0 }
    userNotes := List.replicate 50 { text := "n", context := [], timestamp := ⟨0⟩ } }

/-- A page whose slot holds `fullPrefs`. -/
def fullWorld : World :=
  { World.fresh ⟨0⟩ with slot := .current fullPrefs }

/-- The feedback `{ rating: 5, styles: { constructor: "name" } }`: the style loop raises on
the read-only `name` of the function `Object`. -/
def ratingWithReadOnlyStyle : Feedback :=
  { rating := some 5, comment := none, liked := none, styles := some [("constructor", "name")] }

/-- The record `recordPageView` appends. -/
def newView (pageId pageName : String) (now : Timestamp) : ViewRecord :=
  { pageId := pageId, pageName := pageName, timestamp := now, duration := 0 }

/-- Two states with the same view history and the same notes. -/
def SameLogs (a b : Prefs) : Prop :=
  a.viewHistory = b.viewHistory ∧ a.userNotes = b.userNotes

/-- A world whose slot holds a legacy state with 101 view records. -/
def overfullLegacyWorld : World :=
  { freshWorld with
    slot := .legacy
      { created := none, viewHistory := some (List.replicate 101 (view "a" 0)),
        pageFeedback := none, stylePreferences := none, userNotes := none,
        favorites := none, disliked := none } }

/-! ## Drop-oldest retention of the view history -/

/-- One call `recordPageView(pageId, pageName)` made at `time`. -/
structure ViewCall where
  pageId : String
  pageName : String
  time : Timestamp
deriving DecidableEq, Repr

/-- The record a call appends. -/
def ViewCall.record (c : ViewCall) : ViewRecord :=
  newView c.pageId c.pageName c.time

/-- A sequence of `recordPageView` calls, in order. -/
def recordPageViews : World → List ViewCall → Option World
  | w, [] => some w
  | w, c :: cs =>
    match recordPageView w c.pageId c.pageName c.time with
    | .returned w' => recordPageViews w' cs
    | _ => none

/-! ## Style scores -/

/-- The score `stylePreferences[category][label]`, if both keys are own. -/
def score (sp : JSObject (JSObject Scalar)) (category label : String) : Option Scalar :=
  (sp.get? category).bind (fun cat => cat.get? label)

/-- The score of `(category, label)` in the state held by the slot. -/
def persistedScore (w : World) (category label : String) : Option Scalar :=
  match w.slot with
  | .current p => score p.stylePreferences category label
  | _ => none

/-- The feedback `{ liked: b, styles: { [category]: label } }`. -/
def styledFeedback (liked : Option Bool) (category label : String) : Feedback :=
  { rating := none, comment := none, liked := liked, styles := some [(category, label)] }

/-- A page whose slot holds the state `p`. -/
def worldWith (p : Prefs) : World :=
  { freshWorld with slot := .current p }

/-- The default state, as a stored state. -/
def defaultPrefs : Prefs :=
  (Work.ofDefaults (Defaults.initial ⟨0⟩)).prefs

/-- The default state with the view history `vh`. -/
def prefsWithHistory (vh : List ViewRecord) : Prefs :=
  { defaultPrefs with viewHistory := vh }

/-- A stored state with page `p` in `favorites` and page `q` in `disliked`. -/
def prefsWithLists : Prefs :=
  { defaultPrefs with favorites := ["p"], disliked := ["q"] }

/-- The feedback `{ liked: false, styles: { toString: "x" } }`: the category is not one of
the style vector but a property of `Object.prototype`. -/
def dislikeWithInheritedCategory : Feedback :=
  { rating := none, comment := none, liked := some false, styles := some [("toString", "x")] }

/-! ## Facts about plain objects -/

/-- The own keys, in enumeration order. -/
def JSObject.keys {α : Type} (o : List (String × α)) : List String :=
  o.map Prod.fst

/-! ## The tallies of `getPreferencesSummary` -/

/-- The three accumulation loops (source lines 247-249 and 255-260) in one form: the records
selected by `p` are tallied by page identifier, each adding `f`. -/
def tally (plu : Option Timestamp) (p : ViewRecord → Bool) (f : ViewRecord → Int)
    (vh : List ViewRecord) : JSObject Scalar :=
  vh.foldl
    (fun o v => if p v = true then assignPrimitive o v.pageId (bump plu o v.pageId (f v)) else o)
    []

/-- The records of page `k` selected by `p`. -/
def selected (p : ViewRecord → Bool) (k : String) (vh : List ViewRecord) : List ViewRecord :=
  vh.filter (fun v => p v && decide (v.pageId = k))

/-- No page identifier of the history is the name of a property of `Object.prototype`. -/
def PlainIds (plu : Option Timestamp) (vh : List ViewRecord) : Prop :=
  ∀ v ∈ vh, inherited plu v.pageId = none

instance (plu : Option Timestamp) (vh : List ViewRecord) : Decidable (PlainIds plu vh) := by
  unfold PlainIds; infer_instance

/-! ## Average durations -/

/-- The records of page `k` with a positive duration. -/
def positiveViews (vh : List ViewRecord) (k : String) : List ViewRecord :=
  vh.filter (fun v => decide (v.pageId = k ∧ 0 < v.duration))

/-- In the words of the specification: the mean of the `duration` values of the records of
page `k` that have `duration > 0`. -/
def meanPositiveDuration (vh : List ViewRecord) (k : String) : ℚ :=
  (((positiveViews vh k).map (fun v => v.duration)).sum : ℚ) / ((positiveViews vh k).length : ℚ)

/-- The history with two views of page `a`, of 1 and 2 seconds. -/
def oneAndTwoSeconds : List ViewRecord :=
  [view "a" 1, view "a" 2]

/-! ## Order of ties -/

/-- No page identifier of the history is a canonical array index. -/
def NoIndexIds (vh : List ViewRecord) : Prop :=
  ∀ v ∈ vh, arrayIndex? v.pageId = none

instance (vh : List ViewRecord) : Decidable (NoIndexIds vh) := by
  unfold NoIndexIds; infer_instance

/-- The page identifiers of the records selected by `p`, in order. -/
def selectedIds (p : ViewRecord → Bool) (vh : List ViewRecord) : List String :=
  (vh.filter p).map (fun v => v.pageId)

/-- In the words of the specification: any two listed pages with equal view counts appear in
the order in which their identifiers first appear in the view history. -/
def TiesFirstSeen (vh : List ViewRecord) (listed : List ViewCount) : Prop :=
  listed.Pairwise (fun a b =>
    a.views = b.views →
      List.indexOf a.pageId (vh.map (fun v => v.pageId)) <
        List.indexOf b.pageId (vh.map (fun v => v.pageId)))

instance (vh : List ViewRecord) (listed : List ViewCount) : Decidable (TiesFirstSeen vh listed) := by
  unfold TiesFirstSeen; infer_instance

/-- The history with one view of page `2`, then one view of page `1`. -/
def twoThenOne : List ViewRecord :=
  [view "2" 0, view "1" 0]

/-- The example of the specification: pages viewed 5, 3 and 3 times. -/
def fiveThreeThree : List ViewRecord :=
  [view "x" 0, view "y" 0, view "z" 0, view "z" 0, view "y" 0, view "z" 0, view "x" 0,
   view "z" 0, view "y" 0, view "z" 0, view "x" 0]

/-! ## Ranking by count -/

/-- Descending order of the second component. -/
def secondDescending {α : Type} (p q : α × Int) : Prop :=
  q.2 ≤ p.2

instance {α : Type} : DecidableRel (secondDescending (α := α)) :=
  fun p q => inferInstanceAs (Decidable (q.2 ≤ p.2))

instance {α : Type} : IsTotal (α × Int) secondDescending :=
  ⟨fun p q => by unfold secondDescending; omega⟩

instance {α : Type} : IsTrans (α × Int) secondDescending :=
  ⟨fun p q r h1 h2 => by unfold secondDescending at *; omega⟩

/-- The number of records of page `k`. -/
def viewsOf (vh : List ViewRecord) (k : String) : Nat :=
  (vh.filter (fun v => decide (v.pageId = k))).length

/-! ## Style updates with plain names -/

/-- No category and no label of `styles` is the name of a property of `Object.prototype`. -/
def PlainStyles (plu : Option Timestamp) (styles : List (String × String)) : Prop :=
  ∀ e ∈ styles, inherited plu e.1 = none ∧ inherited plu e.2 = none

instance (plu : Option Timestamp) (styles : List (String × String)) :
    Decidable (PlainStyles plu styles) := by
  unfold PlainStyles; infer_instance

/-- The labels of a category, if the category is own. -/
def labelsOf (sp : JSObject (JSObject Scalar)) (category : String) : Option (List String) :=
  (JSObject.get? sp category).map JSObject.keys

/-- The score after adding `weight` once for each occurrence of `(c, l)` in `styles`. -/
def addEach (styles : List (String × String)) (c l : String) (weight : Int) (s : Scalar) :
    Scalar :=
  (styles.filter (fun e => decide (e = (c, l)))).foldl (fun s _ => s.add weight) s

/-! ## Score accumulation with plain page identifiers -/

/-- One call `recordFeedback(pageId, {liked, styles: {c: l}})` made at `time`. -/
structure LikeCall where
  pageId : String
  liked : Bool
  time : Timestamp
deriving DecidableEq, Repr

/-- A sequence of such calls, in order; `none` if one of them does not return. -/
def recordLikes (c l : String) : World → List LikeCall → Option World
  | w, [] => some w
  | w, call :: calls =>
    match recordFeedback w call.pageId (styledFeedback (some call.liked) c l) call.time with
    | .returned w' => recordLikes c l w' calls
    | _ => none

/-! ## Ranking by average duration -/

/-- JavaScript `Math.round` of the mean of the positive durations of page `k`. -/
def roundedMean (vh : List ViewRecord) (k : String) : Int :=
  roundHalfUp ((positiveViews vh k).map (fun v => v.duration)).sum (positiveViews vh k).length

/-- The page identifiers of the records with `duration > 0`, in order. -/
def positiveIds (vh : List ViewRecord) : List String :=
  selectedIds (fun v => decide (v.duration > 0)) vh

/-- In the words of the specification: a page with a strictly larger mean is never listed
after a page with a smaller mean. -/
def LargerMeanFirst (vh : List ViewRecord) (listed : List AvgDuration) : Prop :=
  listed.Pairwise (fun a b =>
    ¬ meanPositiveDuration vh a.pageId < meanPositiveDuration vh b.pageId)

/-- In the words of the specification: listed pages with equal means are ordered by first
appearance of their page identifier in the view history. -/
def MeanTiesFirstSeen (vh : List ViewRecord) (listed : List AvgDuration) : Prop :=
  listed.Pairwise (fun a b =>
    meanPositiveDuration vh a.pageId = meanPositiveDuration vh b.pageId →
      List.indexOf a.pageId (vh.map (fun v => v.pageId)) <
        List.indexOf b.pageId (vh.map (fun v => v.pageId)))

/-- Page `a` viewed once for 1 second, page `b` three times for 1, 2 and 1 seconds. -/
def closeMeans : List ViewRecord :=
  [view "a" 1, view "b" 1, view "b" 2, view "b" 1]

/-- Page `a` first viewed without a recorded duration, then `b` and `a` for 5 seconds each. -/
def zeroThenFive : List ViewRecord :=
  [view "a" 0, view "b" 5, view "a" 5]

/-! ## Top style per category -/

/-- The label one iteration of the loop of source lines 267-271 reports for a category with
the scores `values`, if it reports one. -/
def topLabel (values : JSObject Scalar) : Option String :=
  match sortDescending (fun e => e.2.toNumber?) values with
  | (label, score) :: _ => if score.isPositive then some label else none
  | [] => none

/-- The numeric score of `label` in `values`; 0 when there is none. -/
def scoreOf (values : JSObject Scalar) (label : String) : Int :=
  match values.get? label with
  | some (.num n) => n
  | _ => 0

/-- In the words of the specification: the label has a score strictly higher than that of
every other label in the category. -/
def StrictlyHighest (values : JSObject Scalar) (label : String) : Prop :=
  ∀ e ∈ values, e.1 ≠ label → scoreOf values e.1 < scoreOf values label

instance (values : JSObject Scalar) (label : String) : Decidable (StrictlyHighest values label) := by
  unfold StrictlyHighest; infer_instance

/-- The scores of `colorSchemes` after one like of a `dark` page and one of a `light` page. -/
def darkLightTie : JSObject Scalar :=
  [("dark", .num 1), ("light", .num 1), ("gradient", .num 0)]

/-- The default state with `darkLightTie` as the scores of `colorSchemes`. -/
def prefsWithTie : Prefs :=
  { defaultPrefs with
    stylePreferences := JSObject.put defaultStylePreferences "colorSchemes" darkLightTie }

/-! ## Recent notes -/

/-- A note with the text `t`. -/
def note (t : String) : Note :=
  { text := t, context := [], timestamp := ⟨0⟩ }

/-- The default state with the notes `notes`. -/
def prefsWithNotes (notes : List Note) : Prefs :=
  { defaultPrefs with userNotes := notes }

/-- In the words of the specification: the texts of the `min(5, n)` most recently added
notes, the most recent first. -/
def mostRecentFirst (notes : List Note) : List String :=
  (notes.reverse.take 5).map (fun n => n.text)

/-! ## Loading and migrating untyped values

`JSON.parse` may return any JSON value, and `migratePreferences` copies fields whatever
their type.  This section embeds `loadPreferences` and `migratePreferences` once more, over
untyped values; states are compared by value here, sharing with the defaults is the matter
of `Work`. -/

/-- A value returned by `JSON.parse`.  Integers stand for all numbers: loading and migrating
only test a number for being zero; the export prints a number, and the statements about it
are for integers below `2^53` in absolute value. -/
inductive Json where
  | null
  | bool (b : Bool)
  | num (n : Int)
  | str (s : String)
  | arr (items : List Json)
  | obj (props : List (String × Json))

/-- JavaScript `v[k]` for a value `v` other than `null` and a key `k` that is neither `length`
nor an array index nor the name of a property of a prototype: the own property of an object,
`undefined` (`none`) otherwise.  On `null` the access raises a `TypeError`; the callers
treat `null` before they use this. -/
def Json.member : Json → String → Option Json
  | .obj props, k => JSObject.get? props k
  | _, _ => none

/-- JavaScript `ToBoolean`. -/
def Json.truthy : Json → Bool
  | .null => false
  | .bool b => b
  | .num n => decide (n ≠ 0)
  | .str s => decide (s ≠ "")
  | .arr _ => true
  | .obj _ => true

/-- JavaScript `x !== VERSION` is false: `x` is the string `VERSION`. -/
def isVersion : Option Json → Bool
  | some (.str s) => decide (s = VERSION)
  | _ => false

/-- The current content of the module-level `defaultPreferences` (source lines 17-64), by
value.  Its `version` is never assigned; the six containers are mutated only in place, so
that they keep their kind. -/
structure RawDefaults where
  created : String
  updated : String
  viewHistory : List Json
  pageFeedback : List (String × Json)
  stylePreferences : List (String × Json)
  userNotes : List Json
  favorites : List Json
  disliked : List Json

/-- The object `{ ...defaultPreferences }`, its keys in the order of the literal. -/
def RawDefaults.object (d : RawDefaults) : JSObject Json :=
  [("version", .str VERSION),
   ("created", .str d.created),
   ("updated", .str d.updated),
   ("viewHistory", .arr d.viewHistory),
   ("pageFeedback", .obj d.pageFeedback),
   ("stylePreferences", .obj d.stylePreferences),
   ("userNotes", .arr d.userNotes),
   ("favorites", .arr d.favorites),
   ("disliked", .arr d.disliked)]

/-- The style vector of the object literal (source lines 29-54), by value. -/
def rawDefaultStylePreferences : List (String × Json) :=
  [("colorSchemes", .obj [("dark", .num 0), ("light", .num 0), ("gradient", .num 0)]),
   ("layouts", .obj [("minimal", .num 0), ("feature_rich", .num 0), ("photo_forward", .num 0)]),
   ("animations", .obj [("subtle", .num 0), ("dynamic", .num 0), ("none", .num 0)]),
   ("typography", .obj [("bold", .num 0), ("elegant", .num 0), ("modern", .num 0)])]

/-- The object `defaultPreferences` as the script creates it at the time whose ISO string is
`t`. -/
def RawDefaults.initial (t : String) : RawDefaults where
  created := t
  updated := t
  viewHistory := []
  pageFeedback := []
  stylePreferences := rawDefaultStylePreferences
  userNotes := []
  favorites := []
  disliked := []

/-- Source lines 105-109, one line: `if (oldPrefs[k]) newPrefs[k] = oldPrefs[k]`. -/
def takeOver (oldPrefs : Json) (newPrefs : JSObject Json) (k : String) : JSObject Json :=
  match oldPrefs.member k with
  | some v => if v.truthy then newPrefs.put k v else newPrefs
  | none => newPrefs

/-- Source line 111: `oldPrefs.created || new Date().toISOString()`. -/
def createdOr (oldPrefs : Json) (now : String) : Json :=
  match oldPrefs.member "created" with
  | some v => if v.truthy then v else .str now
  | none => .str now

/-- Source lines 101-114 on any parsed value; `now` is the ISO string of the current time.
`none` is the `TypeError` raised by line 105 on `null`. -/
def migratePreferencesRaw (d : RawDefaults) (oldPrefs : Json) (now : String) :
    Option (JSObject Json) :=
  match oldPrefs with
  | .null => none
  | _ =>
    let newPrefs := d.object
    let newPrefs := takeOver oldPrefs newPrefs "viewHistory"
    let newPrefs := takeOver oldPrefs newPrefs "pageFeedback"
    let newPrefs := takeOver oldPrefs newPrefs "favorites"
    let newPrefs := takeOver oldPrefs newPrefs "disliked"
    let newPrefs := takeOver oldPrefs newPrefs "userNotes"
    some (newPrefs.put "created" (createdOr oldPrefs now))

/-- What `localStorage.getItem(STORAGE_KEY)` returns. -/
inductive RawSlot where
  /-- No item: `null`. -/
  | absent
  /-- The empty string. -/
  | empty
  /-- A non-empty text that `JSON.parse` rejects. -/
  | notJson
  /-- A text that `JSON.parse` turns into `v`. -/
  | json (v : Json)

/-- Source lines 69-84 on any content of the slot.  The `TypeError` of `parsed.version` on
`null` and the `SyntaxError` of `JSON.parse` are caught by line 80, and line 83 returns the
copy of the defaults. -/
def loadPreferencesRaw (slot : RawSlot) (d : RawDefaults) (now : String) : Json :=
  match slot with
  | .absent => .obj d.object
  | .empty => .obj d.object
  | .notJson => .obj d.object
  | .json .null => .obj d.object
  | .json parsed =>
    if isVersion (parsed.member "version") then parsed
    else
      match migratePreferencesRaw d parsed now with
      | some newPrefs => .obj newPrefs
      | none => .obj d.object

/-- The value `oldPrefs[k]` when it is truthy. -/
def kept (oldPrefs : Json) (k : String) : Option Json :=
  (oldPrefs.member k).filter Json.truthy

/-- The value is an array. -/
def isArray : Option Json → Bool
  | some (.arr _) => true
  | _ => false

/-- The value is an object with exactly the own keys `keys`. -/
def isObjectWith (keys : Option (List String)) : Option Json → Bool
  | some (.obj props) =>
    match keys with
    | some ks =>
      decide (∀ k ∈ ks, k ∈ JSObject.keys props) && decide (∀ k ∈ JSObject.keys props, k ∈ ks)
    | none => true
  | _ => false

/-- In the words of the specification: `viewHistory`, `userNotes`, `favorites` and `disliked`
are sequences, `pageFeedback` is a mapping, `stylePreferences` has the fixed category set. -/
def conformsToSchema (state : JSObject Json) : Bool :=
  isArray (state.get? "viewHistory") && isArray (state.get? "userNotes") &&
  isArray (state.get? "favorites") && isArray (state.get? "disliked") &&
  isObjectWith none (state.get? "pageFeedback") &&
  isObjectWith (some ["colorSchemes", "layouts", "animations", "typography"])
    (state.get? "stylePreferences")

/-- The defaults of a page loaded at `2024-01-01T00:00:00.000Z`. -/
def rawDefaults : RawDefaults :=
  RawDefaults.initial "2024-01-01T00:00:00.000Z"

/-- A stored value without `version` whose `viewHistory` is the string `abc`. -/
def textHistory : Json :=
  .obj [("viewHistory", .str "abc")]

/-! ## Migration and reset within a session -/

/-- A stored value of an older version with none of the fields. -/
def legacyEmpty : LegacyPrefs :=
  { created := none, viewHistory := none, pageFeedback := none, stylePreferences := none,
    userNotes := none, favorites := none, disliked := none }

/-- A page whose slot holds `legacyEmpty` and whose storage rejects every write. -/
def blockedLegacyWorld : World :=
  { freshWorld with slot := .legacy legacyEmpty, writable := false }

/-- A stored value of an older version with one view record and a style vector of its own,
`{ colorSchemes: { dark: 3 } }`, and without `created`. -/
def legacyStyled : LegacyPrefs :=
  { legacyEmpty with
    viewHistory := some [view "a" 1]
    stylePreferences := some [("colorSchemes", [("dark", .num 3)])] }

/-- A page whose slot holds `legacyStyled`. -/
def legacyStyledWorld : World :=
  { freshWorld with slot := .legacy legacyStyled }

/-! ## Export

`exportPreferences` returns a text.  `Json.stringify` is `JSON.stringify(value, null, 2)` and
`Json.parse` is `JSON.parse`, both on the values of this section: numbers are integers,
strings hold no lone surrogate. -/

/-- The decimal digit of `d < 10`. -/
def digitChar (d : Nat) : Char :=
  Char.ofNat (48 + d)

/-- The decimal numeral of `n`; `fuel` bounds the number of digits. -/
def numeral : Nat → Nat → List Char
  | 0, _ => []
  | fuel + 1, n => if n < 10 then [digitChar n] else numeral fuel (n / 10) ++ [digitChar (n % 10)]

/-- `Number::toString` on an integer below `10^21` in absolute value. -/
def numberText (n : Int) : List Char :=
  match n with
  | .ofNat m => numeral (m + 1) m
  | .negSucc m => '-' :: numeral (m + 2) (m + 1)

/-- A lower-case hexadecimal digit. -/
def hexDigit (d : Nat) : Char :=
  if d < 10 then Char.ofNat (48 + d) else Char.ofNat (87 + d)

/-- `QuoteJSONString` on one character that is not a surrogate. -/
def escapeChar (c : Char) : List Char :=
  if c = '"' then ['\\', '"']
  else if c = '\\' then ['\\', '\\']
  else if c = '\x08' then ['\\', 'b']
  else if c = '\x0c' then ['\\', 'f']
  else if c = '\n' then ['\\', 'n']
  else if c = '\r' then ['\\', 'r']
  else if c = '\t' then ['\\', 't']
  else if c.toNat < 32 then ['\\', 'u', '0', '0', hexDigit (c.toNat / 16), hexDigit (c.toNat % 16)]
  else [c]

/-- `QuoteJSONString`. -/
def quote (s : String) : List Char :=
  '"' :: (s.data.flatMap escapeChar ++ ['"'])

/-- The indentation: `n` spaces. -/
def spaces (n : Nat) : List Char :=
  List.replicate n ' '

mutual
/-- `SerializeJSONProperty` with the gap of two spaces, at the indentation `ind`. -/
def stringifyValue (ind : Nat) : Json → List Char
  | .null => ['n', 'u', 'l', 'l']
  | .bool true => ['t', 'r', 'u', 'e']
  | .bool false => ['f', 'a', 'l', 's', 'e']
  | .num n => numberText n
  | .str s => quote s
  | .arr [] => ['[', ']']
  | .arr (x :: xs) =>
    '[' :: '\n' :: (spaces (ind + 2) ++ stringifyValue (ind + 2) x ++
      stringifyItems (ind + 2) xs ++ '\n' :: (spaces ind ++ [']']))
  | .obj [] => ['{', '}']
  | .obj ((k, x) :: ps) =>
    '{' :: '\n' :: (spaces (ind + 2) ++ quote k ++ ':' :: ' ' :: stringifyValue (ind + 2) x ++
      stringifyMembers (ind + 2) ps ++ '\n' :: (spaces ind ++ ['}']))
/-- The elements after the first, each after the separator. -/
def stringifyItems (ind : Nat) : List Json → List Char
  | [] => []
  | x :: xs => ',' :: '\n' :: (spaces ind ++ stringifyValue ind x ++ stringifyItems ind xs)
/-- The members after the first, each after the separator. -/
def stringifyMembers (ind : Nat) : List (String × Json) → List Char
  | [] => []
  | (k, x) :: ps =>
    ',' :: '\n' :: (spaces ind ++ quote k ++ ':' :: ' ' :: stringifyValue ind x ++
      stringifyMembers ind ps)
end

/-- `JSON.stringify(value, null, 2)` on a JSON value. -/
def Json.stringify (v : Json) : String :=
  String.mk (stringifyValue 0 v)

/-- JSON white space. -/
def isWhitespace (c : Char) : Bool :=
  c = ' ' || c = '\n' || c = '\r' || c = '\t'

/-- The text after its leading white space. -/
def skipWhitespace : List Char → List Char
  | [] => []
  | c :: cs => if isWhitespace c then skipWhitespace cs else c :: cs

/-- The value of a hexadecimal digit. -/
def hexValue (c : Char) : Option Nat :=
  if '0' ≤ c ∧ c ≤ '9' then some (c.toNat - 48)
  else if 'a' ≤ c ∧ c ≤ 'f' then some (c.toNat - 87)
  else if 'A' ≤ c ∧ c ≤ 'F' then some (c.toNat - 55)
  else none

/-- The character of an escape made of a backslash, `u` and four hexadecimal digits;
`none` for a text that is not four hexadecimal digits and for a surrogate code unit, which a
string of this embedding cannot hold. -/
def codeUnit (a b c d : Char) : Option Char :=
  match hexValue a, hexValue b, hexValue c, hexValue d with
  | some x, some y, some z, some w =>
    let n := ((x * 16 + y) * 16 + z) * 16 + w
    if n < 55296 ∨ 57343 < n then some (Char.ofNat n) else none
  | _, _, _, _ => none

/-- The character of a two-character escape. -/
def unescape (e : Char) : Option Char :=
  if e = '"' then some '"'
  else if e = '\\' then some '\\'
  else if e = '/' then some '/'
  else if e = 'b' then some '\x08'
  else if e = 'f' then some '\x0c'
  else if e = 'n' then some '\n'
  else if e = 'r' then some '\r'
  else if e = 't' then some '\t'
  else none

/-- The characters of a JSON string after its opening quote, and the text after its closing
quote. -/
def parseChars : List Char → Option (List Char × List Char)
  | [] => none
  | c :: rest =>
    if c = '"' then some ([], rest)
    else if c = '\\' then
      match rest with
      | [] => none
      | e :: rest1 =>
        if e = 'u' then
          match rest1 with
          | a :: b :: c2 :: d :: rest2 =>
            match codeUnit a b c2 d with
            | some ch => (parseChars rest2).map (fun r => (ch :: r.1, r.2))
            | none => none
          | _ => none
        else
          match unescape e with
          | some ch => (parseChars rest1).map (fun r => (ch :: r.1, r.2))
          | none => none
    else if c.toNat < 32 then none
    else (parseChars rest).map (fun r => (c :: r.1, r.2))

/-- The character is a decimal digit. -/
def isDigit (c : Char) : Bool :=
  (digitValue c).isSome

/-- A JSON number without fraction and exponent whose value is an integer below `2^53` in
absolute value and not the negative zero, and the text after it; `none` for every other
text. -/
def parseNumber (cs : List Char) : Option (Int × List Char) :=
  let negative := cs.head? = some '-'
  let cs := if negative then cs.tail else cs
  let digits := cs.takeWhile isDigit
  let rest := cs.dropWhile isDigit
  if digits.head? = some '0' ∧ digits.length ≠ 1 then none
  else if rest.head? = some '.' ∨ rest.head? = some 'e' ∨ rest.head? = some 'E' then none
  else
    match digits, decimalValue digits with
    | _ :: _, some n =>
      if 9007199254740992 ≤ n then none
      else if negative then (if n = 0 then none else some (-(n : Int), rest))
      else some ((n : Int), rest)
    | _, _ => none

/-- The text `cs` after the literal `word`. -/
def afterWord (word : List Char) (cs : List Char) : Option (List Char) :=
  if word.isPrefixOf cs then some (cs.drop word.length) else none

mutual
/-- A JSON value at the head of the text, and the text after it.  `fuel` bounds the number of
nested calls. -/
def parseValue : Nat → List Char → Option (Json × List Char)
  | 0, _ => none
  | fuel + 1, cs =>
    match skipWhitespace cs with
    | [] => none
    | c :: rest =>
      if c = '{' then
        if (skipWhitespace rest).head? = some '}' then some (.obj [], (skipWhitespace rest).tail)
        else parseMembers fuel [] rest
      else if c = '[' then
        if (skipWhitespace rest).head? = some ']' then some (.arr [], (skipWhitespace rest).tail)
        else parseItems fuel [] rest
      else if c = '"' then (parseChars rest).map (fun r => (.str (String.mk r.1), r.2))
      else if c = 'n' then (afterWord ['u', 'l', 'l'] rest).map (fun r => (.null, r))
      else if c = 't' then (afterWord ['r', 'u', 'e'] rest).map (fun r => (.bool true, r))
      else if c = 'f' then (afterWord ['a', 'l', 's', 'e'] rest).map (fun r => (.bool false, r))
      else (parseNumber (c :: rest)).map (fun r => (.num r.1, r.2))
/-- The elements of an array after the ones in `done`, up to the closing bracket. -/
def parseItems : Nat → List Json → List Char → Option (Json × List Char)
  | 0, _, _ => none
  | fuel + 1, done, cs =>
    match parseValue fuel cs with
    | none => none
    | some (v, rest) =>
      match skipWhitespace rest with
      | [] => none
      | c :: rest1 =>
        if c = ',' then parseItems fuel (done ++ [v]) rest1
        else if c = ']' then some (.arr (done ++ [v]), rest1)
        else none
/-- The members of an object after the ones in `done`, up to the closing brace.  Each member
is created as `CreateDataProperty` does: a repeated key keeps its place and takes the later
value. -/
def parseMembers : Nat → JSObject Json → List Char → Option (Json × List Char)
  | 0, _, _ => none
  | fuel + 1, done, cs =>
    match skipWhitespace cs with
    | [] => none
    | q :: rest =>
      if q = '"' then
        match parseChars rest with
        | none => none
        | some (k, rest1) =>
          match skipWhitespace rest1 with
          | [] => none
          | c :: rest2 =>
            if c = ':' then
              match parseValue fuel rest2 with
              | none => none
              | some (v, rest3) =>
                match skipWhitespace rest3 with
                | [] => none
                | c1 :: rest4 =>
                  if c1 = ',' then parseMembers fuel (JSObject.put done (String.mk k) v) rest4
                  else if c1 = '}' then some (.obj (JSObject.put done (String.mk k) v), rest4)
                  else none
            else none
      else none
end

/-- `JSON.parse` on the texts this embedding covers: `none` for a text that is not JSON and
for a text with a number or an escape left out above. -/
def Json.parse (s : String) : Option Json :=
  match parseValue (2 * s.data.length) s.data with
  | some (v, rest) => if skipWhitespace rest = [] then some v else none
  | none => none


/-- In the order of `Object.entries`, the key `k` comes before the later key `k2`. -/
def keyBefore (k k2 : String) : Bool :=
  match arrayIndex? k, arrayIndex? k2 with
  | some n, some m => decide (n < m)
  | none, some _ => false
  | _, none => true

/-- The keys are distinct and in the order of `Object.entries`: array indices first, in
ascending order. -/
def entriesOrder : List String → Bool
  | [] => true
  | k :: ks => !ks.contains k && ks.all (keyBefore k) && entriesOrder ks

mutual
/-- The value is one that `JSON.parse` can return and this embedding can hold: the keys of
every object are in `Object.entries` order, every number is an integer below `2^53` in
absolute value. -/
def Json.canonical : Json → Bool
  | .null => true
  | .bool _ => true
  | .num n => decide (-9007199254740992 < n ∧ n < 9007199254740992)
  | .str _ => true
  | .arr xs => canonicalItems xs
  | .obj ps => entriesOrder (JSObject.keys ps) && canonicalMembers ps
/-- Every element is canonical. -/
def canonicalItems : List Json → Bool
  | [] => true
  | x :: xs => x.canonical && canonicalItems xs
/-- Every member value is canonical. -/
def canonicalMembers : List (String × Json) → Bool
  | [] => true
  | (_, x) :: ps => x.canonical && canonicalMembers ps
end

/-- Source lines 302-304, on any content of the slot. -/
def exportPreferences (slot : RawSlot) (d : RawDefaults) (now : String) : String :=
  (loadPreferencesRaw slot d now).stringify

/-- What may follow a value in the text `JSON.stringify` produces: nothing, a comma or a line
break. -/
def Follows (rest : List Char) : Prop :=
  ∀ c, rest.head? = some c → c = ',' ∨ c = '\n'


/-- The first character of the text of a value. -/
def Opens (c : Char) : Prop :=
  isWhitespace c = false ∧ c ≠ ']' ∧ c ≠ '}' ∧ c ≠ ','

instance (c : Char) : Decidable (Opens c) := by
  unfold Opens; infer_instance


/-- A stored value of an older version without `created`. -/
def legacyWithoutCreated : Json :=
  .obj [("version", .str "0.9.0"), ("favorites", .arr [.str "p"])]

/-- A stored value of an older version whose `created` is the empty string. -/
def legacyEmptyCreated : Json :=
  .obj [("version", .str "0.9.0"), ("created", .str ""), ("favorites", .arr [.str "p"])]

/-- A stored value of an older version with `created`. -/
def legacyWithCreated : Json :=
  .obj [("version", .str "0.9.0"), ("created", .str "2023-05-01T00:00:00.000Z"),
    ("favorites", .arr [.str "p"])]

/-! ## Sessions without storage -/

/-- One recording operation. -/
inductive Op where
  | view (pageId pageName : String)
  | feedback (pageId : String) (feedback : Feedback)
  | note (text : String) (context : List (String × String))
deriving DecidableEq, Repr

/-- The call made by an operation at the time `now`. -/
def Op.run (w : World) (now : Timestamp) : Op → Outcome
  | .view pageId pageName => recordPageView w pageId pageName now
  | .feedback pageId fb => recordFeedback w pageId fb now
  | .note text context => addUserNote w text context now

/-- A sequence of recording operations, each with its time; `none` when one of them does not
return. -/
def runOps : World → List (Op × Timestamp) → Option World
  | w, [] => some w
  | w, (op, now) :: rest =>
    match op.run w now with
    | .returned w' => runOps w' rest
    | _ => none

/-- The page identifier, the style categories and the style labels of the operation are not
names of properties of `Object.prototype`. -/
def Op.Plain : Op → Prop
  | .feedback pageId fb =>
    inherited none pageId = none ∧ PlainStyles none (fb.styles.getD [])
  | _ => True

/-- A fresh page whose storage rejects every write. -/
def blockedWorld : World :=
  { freshWorld with writable := false }

/-- The feedback `{ rating: r }`. -/
def ratingOnly (r : Int) : Feedback :=
  { rating := some r, comment := none, liked := none, styles := none }

/-- Page `p` liked, then disliked. -/
def likeThenDislike : List (Op × Timestamp) :=
  [(.feedback "p" (likedOnly true), ⟨1⟩), (.feedback "p" (likedOnly false), ⟨2⟩)]

/-! ## Feedback logs -/

/-- The entry line 162 creates for a page without feedback. -/
def emptyFeedback : PageFeedback :=
  { ratings := [], comments := [], lastUpdated := none }

/-- The entry of page `q` in `pageFeedback`, the empty entry when there is none. -/
def entryOf (pageFeedback : JSObject PageFeedback) (q : String) : PageFeedback :=
  (pageFeedback.get? q).getD emptyFeedback

/-- The ratings a call with `feedback` at `now` appends: one if `feedback.rating` is
present. -/
def newRatings (feedback : Feedback) (now : Timestamp) : List Rating :=
  match feedback.rating with
  | some r => [{ value := r, timestamp := now }]
  | none => []

/-- The comments a call with `feedback` at `now` appends: one if `feedback.comment` is a
non-empty string. -/
def newComments (feedback : Feedback) (now : Timestamp) : List Comment :=
  match feedback.commentText with
  | some c => [{ text := c, timestamp := now }]
  | none => []

/-! ## Unload -/

/-- Source line 139: `Math.round((Date.now() - startTime) / 1000)`, times in milliseconds. -/
def observedDuration (start now : Timestamp) : Int :=
  roundHalfUp (now.ms - start.ms) 1000

/-- The `beforeunload` event at time `now`: the listeners registered by lines 138-141 run in
the order of their registration, each calling `updateLastViewDuration` with the time since
its own `startTime`. -/
def fireObservers : World → List Timestamp → Timestamp → Option World
  | w, [], _ => some w
  | w, start :: rest, now =>
    match updateLastViewDuration w (observedDuration start now) now with
    | .returned w' => fireObservers w' rest now
    | _ => none

/-- The unload event of a page: every listener armed so far fires. -/
def unload (w : World) (now : Timestamp) : Option World :=
  fireObservers w w.armed now

/-- The writes of line 150 during the unload event, in order: the index of the record
written (the last one of the history the listener loads) and the value written. -/
def durationWrites : World → List Timestamp → Timestamp → List (Nat × Int)
  | _, [], _ => []
  | w, start :: rest, now =>
    (if (loadPreferences w now).prefs.viewHistory.length > 0 then
      [((loadPreferences w now).prefs.viewHistory.length - 1, observedDuration start now)]
    else []) ++
    match updateLastViewDuration w (observedDuration start now) now with
    | .returned w' => durationWrites w' rest now
    | _ => []

/-- The durations of the persisted view records, in order. -/
def persistedDurations (w : World) : List Int :=
  match w.slot with
  | .current p => p.viewHistory.map (fun v => v.duration)
  | _ => []

/-- Two calls of `recordPageView` in one page, one second apart. -/
def twoViews : List ViewCall :=
  [{ pageId := "a", pageName := "A", time := ⟨0⟩ },
   { pageId := "b", pageName := "B", time := ⟨1000⟩ }]

/-! ## Recording on an untyped state -/

/-- A stored object of the current version without any other field. -/
def versionOnly : Json :=
  .obj [("version", .str VERSION)]

/-- The record lines 122-127 append. -/
def rawView (pageId pageName now : String) : Json :=
  .obj [("pageId", .str pageId), ("pageName", .str pageName), ("timestamp", .str now),
    ("duration", .num 0)]

/-- Source lines 119-133 on any content of the slot, by value: the state line 133 hands to
`savePreferences`, as stamped by line 91.  `none` is the `TypeError` of line 122, raised
outside every `try`, when `prefs.viewHistory` is not an array: `undefined` and `null` have
no properties, and on any other JSON value `push` is not a function. -/
def recordPageViewRaw (slot : RawSlot) (d : RawDefaults) (pageId pageName now : String) :
    Option (JSObject Json) :=
  match loadPreferencesRaw slot d now with
  | .obj prefs =>
    match JSObject.get? prefs "viewHistory" with
    | some (.arr items) =>
      let items := items ++ [rawView pageId pageName now]
      let items := if items.length > 100 then sliceLast 100 items else items
      some (JSObject.put (JSObject.put prefs "viewHistory" (.arr items)) "updated" (.str now))
    | _ => none
  | _ => none

/-! ## Order of style updates -/

/-- The keys of the style vector are distinct, and so are the labels of each category. -/
def WellFormedStyles (sp : JSObject (JSObject Scalar)) : Prop :=
  (JSObject.keys sp).Nodup ∧ ∀ e ∈ sp, (JSObject.keys e.2).Nodup

/-- Every score of the style vector is a number. -/
def NumericScores (sp : JSObject (JSObject Scalar)) : Prop :=
  ∀ e ∈ sp, ∀ x ∈ e.2, ∃ n, x.2 = Scalar.num n

/-- Two updates, one after the other; `none` when one of them leaves the modelled state. -/
def updateTwice (plu : Option Timestamp) (sp : JSObject (JSObject Scalar))
    (styles1 : List (String × String)) (weight1 : Int)
    (styles2 : List (String × String)) (weight2 : Int) :
    Option (JSObject (JSObject Scalar)) :=
  (updateStylePreferences plu sp styles1 weight1).bind
    (fun sp1 => updateStylePreferences plu sp1 styles2 weight2)

/-! # Theorems -/

/-! ## Small checks of the embedding -/

/-- Two views of `b` and one of `a`: `b` is listed first. -/
theorem mostViewed_example :
    (mostViewed none [view "a" 0, view "b" 0, view "b" 0]).map (fun e => e.pageId)
      = ["b", "a"] := by decide

/-- Halves round upwards: `3 / 2` rounds to `2` and `-3 / 2` to `-1`. -/
theorem roundHalfUp_example : roundHalfUp 3 2 = 2 ∧ roundHalfUp (-3) 2 = -1 := by decide

/-! ## Favorites and disliked -/

theorem applyLiked_favorites (k : Work) (pageId : String) (liked : Option Bool) :
    (applyLiked k pageId liked).prefs.favorites =
      match liked with
      | none => k.prefs.favorites
      | some true =>
        if pageId ∈ k.prefs.favorites then k.prefs.favorites else k.prefs.favorites ++ [pageId]
      | some false => k.prefs.favorites.filter (fun id => id ≠ pageId) := by
  rcases liked with _ | _ | _ <;> simp only [applyLiked]
  · split <;> simp [Work.setFavorites, Work.mutDisliked]
  · split <;> simp [Work.setDisliked, Work.mutFavorites]

theorem applyLiked_disliked (k : Work) (pageId : String) (liked : Option Bool) :
    (applyLiked k pageId liked).prefs.disliked =
      match liked with
      | none => k.prefs.disliked
      | some true => k.prefs.disliked.filter (fun id => id ≠ pageId)
      | some false =>
        if pageId ∈ k.prefs.disliked then k.prefs.disliked else k.prefs.disliked ++ [pageId] := by
  rcases liked with _ | _ | _ <;> simp only [applyLiked]
  · split <;> simp [Work.setFavorites, Work.mutDisliked]
  · split <;> simp [Work.setDisliked, Work.mutFavorites]

theorem applyStyles_favorites (plu : Option Timestamp) (k : Work) (feedback : Feedback) :
    (applyStyles plu k feedback).work.prefs.favorites = k.prefs.favorites ∧
      (applyStyles plu k feedback).work.prefs.disliked = k.prefs.disliked := by
  unfold applyStyles
  cases feedback.styles with
  | none => exact ⟨rfl, rfl⟩
  | some styles =>
    simp only
    cases styleLoop plu HostLog.empty k.prefs.stylePreferences styles
      (styleWeight feedback.liked) <;> exact ⟨rfl, rfl⟩

theorem resolveFeedback_favorites (plu : Option Timestamp) (k : Work) (pageId : String) :
    (resolveFeedback plu k pageId).1.prefs.favorites = k.prefs.favorites ∧
      (resolveFeedback plu k pageId).1.prefs.disliked = k.prefs.disliked := by
  unfold resolveFeedback
  split
  · simp
  · split <;> simp [Work.mutPageFeedback]

theorem applyLiked_sameLogs (k : Work) (pageId : String) (liked : Option Bool) :
    SameLogs (applyLiked k pageId liked).prefs k.prefs := by
  rcases liked with _ | _ | _ <;> simp only [applyLiked]
  · exact ⟨rfl, rfl⟩
  · split <;> exact ⟨rfl, rfl⟩
  · split <;> exact ⟨rfl, rfl⟩

theorem applyStyles_sameLogs (plu : Option Timestamp) (k : Work) (feedback : Feedback) :
    SameLogs (applyStyles plu k feedback).work.prefs k.prefs := by
  unfold applyStyles
  cases feedback.styles with
  | none => exact ⟨rfl, rfl⟩
  | some styles =>
    simp only
    cases styleLoop plu HostLog.empty k.prefs.stylePreferences styles
      (styleWeight feedback.liked) <;> exact ⟨rfl, rfl⟩

theorem resolveFeedback_sameLogs (plu : Option Timestamp) (k : Work) (pageId : String) :
    SameLogs (resolveFeedback plu k pageId).1.prefs k.prefs := by
  unfold resolveFeedback
  split
  · exact ⟨rfl, rfl⟩
  · split <;> exact ⟨rfl, rfl⟩

theorem SameLogs.trans {a b c : Prefs} (h1 : SameLogs a b) (h2 : SameLogs b c) : SameLogs a c :=
  ⟨h1.1.trans h2.1, h1.2.trans h2.2⟩

/-- The three ways a call ends. -/
theorem Styled.outcome_cases (s : Styled) (raised : Bool) (w : World) :
    (s.outcome raised w = .returned w ∧ raised = false) ∨
      (s.outcome raised w = .threw w ∧ raised = true) ∨
      s.outcome raised w = .overwrote raised w := by
  unfold Styled.outcome
  cases s.log.intact <;> cases raised <;> simp

/-- Every call of `recordFeedback` ends by raising, with the slot as it was, or by returning
after the save of a working copy; that copy has the `favorites` and `disliked` the like /
dislike block computes from the loaded state, and the view history and notes loaded. -/
theorem recordFeedback_outcome (w : World) (pageId : String) (feedback : Feedback)
    (now : Timestamp) :
    ∃ (k : Work) (raised : Bool) (w' : World),
      Ended (recordFeedback w pageId feedback now) raised w' ∧
      w'.slot = (if raised = true then w.slot else (savePreferences w k now).slot) ∧
      k.prefs.favorites =
        (applyLiked (loadPreferences w now) pageId feedback.liked).prefs.favorites ∧
      k.prefs.disliked =
        (applyLiked (loadPreferences w now) pageId feedback.liked).prefs.disliked ∧
      SameLogs k.prefs (loadPreferences w now).prefs := by
  unfold recordFeedback
  have hr := resolveFeedback_favorites w.protoLastUpdated (loadPreferences w now) pageId
  have hl := resolveFeedback_sameLogs w.protoLastUpdated (loadPreferences w now) pageId
  generalize resolveFeedback w.protoLastUpdated (loadPreferences w now) pageId = r at hr hl
  obtain ⟨k0, target⟩ := r
  simp only at hr hl
  cases target with
  | own e =>
    simp only
    generalize hk1 : applyLiked (k0.mutPageFeedback (k0.prefs.pageFeedback.put pageId
      (logFeedback e feedback now))) pageId feedback.liked = k1
    have hf := applyStyles_favorites w.protoLastUpdated k1 feedback
    have hsl := applyStyles_sameLogs w.protoLastUpdated k1 feedback
    have hk1f : k1.prefs.favorites =
        (applyLiked (loadPreferences w now) pageId feedback.liked).prefs.favorites := by
      rw [← hk1, applyLiked_favorites, applyLiked_favorites, ← hr.1]
      rfl
    have hk1d : k1.prefs.disliked =
        (applyLiked (loadPreferences w now) pageId feedback.liked).prefs.disliked := by
      rw [← hk1, applyLiked_disliked, applyLiked_disliked, ← hr.2]
      rfl
    have hk1l : SameLogs k1.prefs (loadPreferences w now).prefs := by
      rw [← hk1]
      exact (applyLiked_sameLogs _ pageId feedback.liked).trans
        (SameLogs.trans (b := k0.prefs) ⟨rfl, rfl⟩ hl)
    generalize applyStyles w.protoLastUpdated k1 feedback = s at hf hsl
    refine ⟨s.work.mutPageFeedback (s.work.prefs.pageFeedback.put pageId
      { logFeedback e feedback now with lastUpdated := some now }), s.raised, ?_⟩
    cases hra : s.raised with
    | true =>
      refine ⟨_, Styled.outcome_cases s true _, rfl, ?_, ?_, ?_⟩
      · exact hf.1.trans hk1f
      · exact hf.2.trans hk1d
      · exact SameLogs.trans (b := s.work.prefs) ⟨rfl, rfl⟩ (hsl.trans hk1l)
    | false =>
      refine ⟨_, Styled.outcome_cases s false _, rfl, ?_, ?_, ?_⟩
      · exact hf.1.trans hk1f
      · exact hf.2.trans hk1d
      · exact SameLogs.trans (b := s.work.prefs) ⟨rfl, rfl⟩ (hsl.trans hk1l)
  | host i =>
    simp only
    generalize hk1 : applyLiked k0 pageId feedback.liked = k1
    have hf := applyStyles_favorites w.protoLastUpdated k1 feedback
    have hsl := applyStyles_sameLogs w.protoLastUpdated k1 feedback
    have hk1f : k1.prefs.favorites =
        (applyLiked (loadPreferences w now) pageId feedback.liked).prefs.favorites := by
      rw [← hk1, applyLiked_favorites, applyLiked_favorites, hr.1]
    have hk1d : k1.prefs.disliked =
        (applyLiked (loadPreferences w now) pageId feedback.liked).prefs.disliked := by
      rw [← hk1, applyLiked_disliked, applyLiked_disliked, hr.2]
    have hk1l : SameLogs k1.prefs (loadPreferences w now).prefs := by
      rw [← hk1]
      exact (applyLiked_sameLogs _ pageId feedback.liked).trans hl
    generalize applyStyles w.protoLastUpdated k1 feedback = s at hf hsl
    by_cases hrc : (feedback.rating.isSome || feedback.commentText.isSome) = true
    · rw [if_pos hrc]
      exact ⟨k1, true, w, Or.inr (Or.inl ⟨rfl, rfl⟩), rfl, hk1f, hk1d, hk1l⟩
    · rw [if_neg hrc]
      cases hra : s.raised with
      | true =>
        exact ⟨s.work, true, _, Styled.outcome_cases s true _, rfl, hf.1.trans hk1f,
          hf.2.trans hk1d, hsl.trans hk1l⟩
      | false =>
        cases i with
        | protoAccessor =>
          exact ⟨s.work, false, _, Styled.outcome_cases s false _, rfl, hf.1.trans hk1f,
            hf.2.trans hk1d, hsl.trans hk1l⟩
        | method name =>
          exact ⟨s.work, false, _, Styled.outcome_cases s false _, rfl, hf.1.trans hk1f,
            hf.2.trans hk1d, hsl.trans hk1l⟩
        | lastUpdated t =>
          exact ⟨s.work, true, _, Styled.outcome_cases s true _, rfl, hf.1.trans hk1f,
            hf.2.trans hk1d, hsl.trans hk1l⟩

/-- What `recordFeedback` leaves in the slot when it returns: the saved working copy has the
`favorites` and `disliked` that the like / dislike block computes from the loaded state. -/
theorem recordFeedback_returned {w w' : World} {pageId : String} {feedback : Feedback}
    {now : Timestamp} (h : recordFeedback w pageId feedback now = .returned w') :
    ∃ k : Work, w'.slot = (savePreferences w k now).slot ∧
      k.prefs.favorites =
        (applyLiked (loadPreferences w now) pageId feedback.liked).prefs.favorites ∧
      k.prefs.disliked =
        (applyLiked (loadPreferences w now) pageId feedback.liked).prefs.disliked := by
  obtain ⟨k, raised, w1, hend, hslot, hf, hd, -⟩ := recordFeedback_outcome w pageId feedback now
  rw [h] at hend
  rcases hend with ⟨h1, h2⟩ | ⟨h1, -⟩ | h1
  · cases h1
    rw [h2] at hslot
    exact ⟨k, hslot, hf, hd⟩
  · cases h1
  · cases h1

/-- A call of `recordFeedback` that returns has saved a working copy with the view history and
the notes it loaded. -/
theorem recordFeedback_returned_logs {w w' : World} {pageId : String} {feedback : Feedback}
    {now : Timestamp} (h : recordFeedback w pageId feedback now = .returned w') :
    ∃ k : Work, w'.slot = (savePreferences w k now).slot ∧
      SameLogs k.prefs (loadPreferences w now).prefs := by
  obtain ⟨k, raised, w1, hend, hslot, -, -, hl⟩ := recordFeedback_outcome w pageId feedback now
  rw [h] at hend
  rcases hend with ⟨h1, h2⟩ | ⟨h1, -⟩ | h1
  · cases h1
    rw [h2] at hslot
    exact ⟨k, hslot, hl⟩
  · cases h1
  · cases h1

theorem applyLiked_exclusive (k : Work) (pageId : String) (liked : Option Bool)
    (h : Exclusive k.prefs) : Exclusive (applyLiked k pageId liked).prefs := by
  intro id hf hd
  rw [applyLiked_favorites] at hf
  rw [applyLiked_disliked] at hd
  rcases liked with _ | _ | _
  · exact h id hf hd
  · simp only [List.mem_filter, decide_eq_true_eq] at hf
    have hid : id ∈ k.prefs.disliked := by
      by_cases hp : pageId ∈ k.prefs.disliked
      · simpa [hp] using hd
      · simp only [hp, if_false, List.mem_append, List.mem_singleton] at hd
        rcases hd with h1 | h1
        · exact h1
        · exact absurd h1 hf.2
    exact h id hf.1 hid
  · simp only [List.mem_filter, decide_eq_true_eq] at hd
    have hid : id ∈ k.prefs.favorites := by
      by_cases hp : pageId ∈ k.prefs.favorites
      · simpa [hp] using hf
      · simp only [hp, if_false, List.mem_append, List.mem_singleton] at hf
        rcases hf with h1 | h1
        · exact h1
        · exact absurd h1 hd.2
    exact h id hid hd.1

/-- C1. If the state `recordFeedback` loads has no page identifier in both `favorites` and
`disliked`, then the two lists the like / dislike block (lines 185-197) computes from it
have none either, and so has the state persisted, for every page identifier and every
feedback: a call that reaches its save leaves, with a working storage, a state with this
property in the slot, and the slot as it was when the storage rejects the write; a call
that raises leaves the slot as it was.  This includes the calls whose style loop reads or
overwrites properties of built-in objects. -/
theorem recordFeedback_preserves_exclusive (w : World) (pageId : String) (feedback : Feedback)
    (now : Timestamp) (hex : Exclusive (loadPreferences w now).prefs) :
    Exclusive (applyLiked (loadPreferences w now) pageId feedback.liked).prefs ∧
    match recordFeedback w pageId feedback now with
    | .returned w' => SavedExclusive w w'
    | .threw w' => w'.slot = w.slot
    | .overwrote raised w' => if raised = true then w'.slot = w.slot else SavedExclusive w w' := by
  have hliked := applyLiked_exclusive (loadPreferences w now) pageId feedback.liked hex
  refine ⟨hliked, ?_⟩
  obtain ⟨k, raised, w', hend, hslot, hf, hd, -⟩ := recordFeedback_outcome w pageId feedback now
  have hsaved : raised = false → SavedExclusive w w' := by
    intro hr
    rw [hr] at hslot
    simp only [Bool.false_eq_true, if_false] at hslot
    unfold SavedExclusive
    by_cases hw : w.writable = true
    · rw [if_pos hw]
      refine ⟨{ k.prefs with updated := now }, ?_, ?_⟩
      · rw [hslot]
        simp [savePreferences, hw]
      · intro id h1 h2
        exact hliked id (by simpa [← hf] using h1) (by simpa [← hd] using h2)
    · rw [if_neg hw, hslot]
      simp [savePreferences, hw]
  have hraised : raised = true → w'.slot = w.slot := by
    intro hr
    rw [hr] at hslot
    simpa using hslot
  rcases hend with ⟨h1, h2⟩ | ⟨h1, h2⟩ | h1
  · rw [h1]
    exact hsaved h2
  · rw [h1]
    exact hraised h2
  · rw [h1]
    cases raised with
    | true => simpa using hraised rfl
    | false => simpa using hsaved rfl

/-- Witness for C1: the stored state has page `p` in `favorites` and page `q` in `disliked`;
`recordFeedback("p", {liked: false, styles: {toString: "x"}})` returns and persists `p` in
`disliked` only. -/
theorem recordFeedback_preserves_exclusive_witness :
    Exclusive (loadPreferences (worldWith prefsWithLists) ⟨1⟩).prefs ∧
    (∃ w' p, recordFeedback (worldWith prefsWithLists) "p" dislikeWithInheritedCategory ⟨1⟩
        = .returned w' ∧ w'.slot = .current p ∧ p.favorites = [] ∧ p.disliked = ["q", "p"]) ∧
    Exclusive (applyLiked (loadPreferences (worldWith prefsWithLists) ⟨1⟩) "p"
      dislikeWithInheritedCategory.liked).prefs ∧
    match recordFeedback (worldWith prefsWithLists) "p" dislikeWithInheritedCategory ⟨1⟩ with
    | .returned w' => SavedExclusive (worldWith prefsWithLists) w'
    | .threw w' => w'.slot = (worldWith prefsWithLists).slot
    | .overwrote raised w' =>
      if raised = true then w'.slot = (worldWith prefsWithLists).slot
      else SavedExclusive (worldWith prefsWithLists) w' :=
  ⟨by decide, ⟨_, _, rfl, rfl, by decide, by decide⟩,
    recordFeedback_preserves_exclusive (worldWith prefsWithLists) "p"
      dislikeWithInheritedCategory ⟨1⟩ (by decide)⟩

theorem inherited_protoAccessor {plu : Option Timestamp} {k : String}
    (h : inherited plu k = some .protoAccessor) : k = "__proto__" := by
  unfold inherited at h
  split at h
  · assumption
  · split at h
    · cases h
    · split at h
      · cases plu <;> simp at h
      · cases h

theorem inherited_lastUpdated {plu : Option Timestamp} {k : String} {t : Timestamp}
    (h : inherited plu k = some (.lastUpdated t)) : plu = some t ∧ k = "lastUpdated" := by
  unfold inherited at h
  split at h
  · cases h
  · split at h
    · cases h
    · split at h
      · cases plu <;> simp at h
        exact ⟨by rw [h], by assumption⟩
      · cases h

theorem resolveFeedback_host {plu : Option Timestamp} {k : Work} {pageId : String}
    {i : Inherited} (h : (resolveFeedback plu k pageId).2 = .host i) :
    inherited plu pageId = some i := by
  unfold resolveFeedback at h
  split at h
  · cases h
  · split at h
    · rename_i hi
      cases h
      exact hi
    · cases h

/-- A call with the feedback `{ liked: b }` returns unless the page identifier resolves to the
string `Object.prototype.lastUpdated`. -/
theorem recordFeedback_likedOnly_returns (w : World) (pageId : String) (b : Bool)
    (now : Timestamp) (hsafe : w.protoLastUpdated = none ∨ pageId ≠ "lastUpdated") :
    ∃ w', recordFeedback w pageId (likedOnly b) now = .returned w' ∧
      w'.writable = w.writable ∧
      (w'.protoLastUpdated = w.protoLastUpdated ∨ pageId = "__proto__") := by
  unfold recordFeedback
  have hres := @resolveFeedback_host w.protoLastUpdated (loadPreferences w now) pageId
  generalize resolveFeedback w.protoLastUpdated (loadPreferences w now) pageId = r at hres
  obtain ⟨k0, target⟩ := r
  cases target with
  | own e => exact ⟨_, rfl, rfl, Or.inl rfl⟩
  | host i =>
    have hi := hres rfl
    cases i with
    | protoAccessor => exact ⟨_, rfl, rfl, Or.inr (inherited_protoAccessor hi)⟩
    | method name => exact ⟨_, rfl, rfl, Or.inl rfl⟩
    | lastUpdated t =>
      obtain ⟨h1, h2⟩ := inherited_lastUpdated hi
      rcases hsafe with h | h
      · rw [h] at h1; cases h1
      · exact absurd h2 h

/-- The state persisted by a call with the feedback `{ liked: b }`. -/
theorem recordFeedback_likedOnly (w : World) (pageId : String) (b : Bool) (now : Timestamp)
    (hw : w.writable = true) (hsafe : w.protoLastUpdated = none ∨ pageId ≠ "lastUpdated") :
    ∃ w' p, recordFeedback w pageId (likedOnly b) now = .returned w' ∧
      w'.slot = .current p ∧ w'.writable = true ∧
      (w'.protoLastUpdated = w.protoLastUpdated ∨ pageId = "__proto__") ∧
      (pageId ∈ p.favorites ↔ b = true) ∧ (pageId ∈ p.disliked ↔ b = false) := by
  obtain ⟨w', hrf, hwr, hplu⟩ := recordFeedback_likedOnly_returns w pageId b now hsafe
  obtain ⟨k, hslot, hf, hd⟩ := recordFeedback_returned hrf
  refine ⟨w', { k.prefs with updated := now }, hrf, ?_, hwr.trans hw, hplu, ?_, ?_⟩
  · simp [hslot, savePreferences, hw]
  · show pageId ∈ k.prefs.favorites ↔ b = true
    rw [hf, applyLiked_favorites]
    cases b
    · simp [likedOnly]
    · by_cases hp : pageId ∈ (loadPreferences w now).prefs.favorites <;> simp [likedOnly, hp]
  · show pageId ∈ k.prefs.disliked ↔ b = false
    rw [hd, applyLiked_disliked]
    cases b
    · by_cases hp : pageId ∈ (loadPreferences w now).prefs.disliked <;> simp [likedOnly, hp]
    · simp [likedOnly]

/-- In a page whose `Object.prototype` is as the language defines it, with a working
storage, from every prior state and for every page identifier: `recordFeedback(pageId,
{liked: b})` returns and persists a state in which `pageId` is in `favorites` exactly when
`b` is true and in `disliked` exactly when `b` is false; and `liked: true` followed by
`liked: false` for the same `pageId` leaves it in `disliked` and not in `favorites`. -/
theorem recordFeedback_liked_exactly_one (w : World) (pageId : String) (now now2 : Timestamp)
    (hw : w.writable = true) (hhost : w.protoLastUpdated = none) :
    (∀ b : Bool, ∃ w' p, recordFeedback w pageId (likedOnly b) now = .returned w' ∧
        w'.slot = .current p ∧
        (pageId ∈ p.favorites ↔ b = true) ∧ (pageId ∈ p.disliked ↔ b = false)) ∧
    (∃ w1 w2 p, recordFeedback w pageId (likedOnly true) now = .returned w1 ∧
        recordFeedback w1 pageId (likedOnly false) now2 = .returned w2 ∧
        w2.slot = .current p ∧ pageId ∈ p.disliked ∧ pageId ∉ p.favorites) := by
  constructor
  · intro b
    obtain ⟨w', p, h1, h2, -, -, h3, h4⟩ :=
      recordFeedback_likedOnly w pageId b now hw (Or.inl hhost)
    exact ⟨w', p, h1, h2, h3, h4⟩
  · obtain ⟨w1, p1, h1, -, hw1, hplu, -, -⟩ :=
      recordFeedback_likedOnly w pageId true now hw (Or.inl hhost)
    have hsafe : w1.protoLastUpdated = none ∨ pageId ≠ "lastUpdated" := by
      rcases hplu with h | h
      · exact Or.inl (h.trans hhost)
      · exact Or.inr (by rw [h]; decide)
    obtain ⟨w2, p2, h2, hs2, -, -, hf, hd⟩ :=
      recordFeedback_likedOnly w1 pageId false now2 hw1 hsafe
    exact ⟨w1, w2, p2, h1, h2, hs2, hd.2 rfl, fun h => by simpa using hf.1 h⟩

/-- Page `p1` on a fresh page. -/
theorem recordFeedback_liked_exactly_one_witness :
    freshWorld.writable = true ∧ freshWorld.protoLastUpdated = none ∧
    (∀ b : Bool, ∃ w' p, recordFeedback freshWorld "p1" (likedOnly b) ⟨1⟩ = .returned w' ∧
        w'.slot = .current p ∧
        ("p1" ∈ p.favorites ↔ b = true) ∧ ("p1" ∈ p.disliked ↔ b = false)) ∧
    (∃ w1 w2 p, recordFeedback freshWorld "p1" (likedOnly true) ⟨1⟩ = .returned w1 ∧
        recordFeedback w1 "p1" (likedOnly false) ⟨2⟩ = .returned w2 ∧
        w2.slot = .current p ∧ "p1" ∈ p.disliked ∧ "p1" ∉ p.favorites) :=
  ⟨rfl, rfl, recordFeedback_liked_exactly_one freshWorld "p1" ⟨1⟩ ⟨2⟩ rfl rfl⟩

/-- C2, failing input. On a fresh page, `recordFeedback("__proto__", {liked: true})` returns
and leaves the string `Object.prototype.lastUpdated`; the call
`recordFeedback("lastUpdated", {liked: true})` that follows raises at line 204, before its
save, and the persisted state has `lastUpdated` in neither list.  And on a fresh page whose
storage rejects writes, `recordFeedback("p1", {liked: true})` followed by
`recordFeedback("p1", {liked: false})` leaves `p1` in both lists of the state seen
afterwards. -/
theorem recordFeedback_liked_in_neither_or_both :
    (∃ w1 w2 p, recordFeedback freshWorld "__proto__" (likedOnly true) ⟨1⟩ = .returned w1 ∧
      recordFeedback w1 "lastUpdated" (likedOnly true) ⟨2⟩ = .threw w2 ∧
      w2.slot = .current p ∧ p.favorites = ["__proto__"] ∧ p.disliked = [] ∧
      "lastUpdated" ∉ p.favorites ∧ "lastUpdated" ∉ p.disliked) ∧
    (∃ w1 w2, recordFeedback blockedWorld "p1" (likedOnly true) ⟨1⟩ = .returned w1 ∧
      recordFeedback w1 "p1" (likedOnly false) ⟨2⟩ = .returned w2 ∧
      "p1" ∈ (loadPreferences w2 ⟨3⟩).prefs.favorites ∧
      "p1" ∈ (loadPreferences w2 ⟨3⟩).prefs.disliked) :=
  ⟨⟨_, _, _, rfl, rfl, rfl, rfl, rfl, by decide, by decide⟩,
    ⟨_, _, rfl, rfl, by decide, by decide⟩⟩

/-! ## Bounded retention -/

theorem length_sliceLast_le {α : Type} (n : Nat) (l : List α) : (sliceLast n l).length ≤ n := by
  simp only [sliceLast, List.length_drop]; omega

theorem sliceLast_of_length_le {α : Type} {n : Nat} {l : List α} (h : l.length ≤ n) :
    sliceLast n l = l := by
  simp [sliceLast, Nat.sub_eq_zero_of_le h]

theorem sliceLast_append_of_le {α : Type} {n : Nat} (a b : List α) (h : n ≤ b.length) :
    sliceLast n (a ++ b) = sliceLast n b := by
  simp only [sliceLast, List.length_append]
  rw [List.drop_append_eq_append_drop]
  have h1 : a.length + b.length - n - a.length = b.length - n := by omega
  have h2 : a.length ≤ a.length + b.length - n := by omega
  rw [h1, List.drop_eq_nil_of_le h2, List.nil_append]

theorem sliceLast_sliceLast_append {α : Type} (n : Nat) (a b : List α) :
    sliceLast n (sliceLast n a ++ b) = sliceLast n (a ++ b) := by
  by_cases h : a.length ≤ n
  · rw [sliceLast_of_length_le h]
  · by_cases hb : n ≤ b.length
    · rw [sliceLast_append_of_le _ _ hb, sliceLast_append_of_le _ _ hb]
    · have hlen : (a.drop (a.length - n)).length = n := by
        rw [List.length_drop]; omega
      simp only [sliceLast, List.length_append, hlen]
      rw [List.drop_append_of_le_length (by rw [hlen]; omega),
        List.drop_append_of_le_length (by omega), List.drop_drop]
      congr 2
      omega

theorem length_setLastDuration (d : Int) (l : List ViewRecord) :
    (setLastDuration d l).length = l.length := by
  induction l with
  | nil => rfl
  | cons r rest ih =>
    cases rest with
    | nil => rfl
    | cons r2 rest2 => simp only [setLastDuration, List.length_cons] at ih ⊢; omega

theorem loadPreferences_current {w : World} {p : Prefs} (now : Timestamp)
    (h : w.slot = .current p) : (loadPreferences w now).prefs = p := by
  simp [loadPreferences, h, Work.ofParsed]

/-- The view history the next call will load; it does not depend on the time of the call. -/
theorem loadPreferences_viewHistory (w : World) (now now2 : Timestamp) :
    (loadPreferences w now).prefs.viewHistory = (loadPreferences w now2).prefs.viewHistory := by
  unfold loadPreferences; split <;> rfl

/-- The slot after `savePreferences`. -/
theorem savePreferences_slot (w : World) (k : Work) (now : Timestamp) :
    (savePreferences w k now).slot =
      if w.writable then .current { k.prefs with updated := now } else w.slot := rfl

/-- After a save of a working copy within the bounds, the slot is within the bounds, provided the
state loaded before was. -/
theorem slotBounded_save (w : World) (k : Work) (now : Timestamp)
    (hload : Bounded (loadPreferences w now).prefs) (hk : Bounded k.prefs) :
    SlotBounded (savePreferences w k now).slot := by
  intro p hp
  rw [savePreferences_slot] at hp
  split at hp
  · cases hp; exact hk
  · rw [← loadPreferences_current now hp]; exact hload

/-- The working copy `recordPageView` saves. -/
theorem recordPageView_eq (w : World) (pageId pageName : String) (now : Timestamp) :
    ∃ k : Work, recordPageView w pageId pageName now =
        .returned { savePreferences w k now with armed := w.armed ++ [now] } ∧
      k.prefs.viewHistory =
        sliceLast 100 ((loadPreferences w now).prefs.viewHistory ++ [newView pageId pageName now]) ∧
      k.prefs.userNotes = (loadPreferences w now).prefs.userNotes := by
  unfold recordPageView
  by_cases h : ((loadPreferences w now).prefs.viewHistory ++
      [newView pageId pageName now]).length > 100
  · refine ⟨_, rfl, ?_, ?_⟩
    · simp only [Work.mutViewHistory, newView] at h ⊢
      rw [if_pos h]
      rfl
    · simp only [Work.mutViewHistory, newView] at h ⊢
      rw [if_pos h]
      rfl
  · refine ⟨_, rfl, ?_, ?_⟩
    · simp only [Work.mutViewHistory, newView] at h ⊢
      rw [if_neg h, sliceLast_of_length_le (by omega)]
    · simp only [Work.mutViewHistory, newView] at h ⊢
      rw [if_neg h]

/-- The working copy `addUserNote` saves. -/
theorem addUserNote_eq (w : World) (note : String) (context : List (String × String))
    (now : Timestamp) :
    ∃ k : Work, addUserNote w note context now = .returned (savePreferences w k now) ∧
      k.prefs.userNotes =
        sliceLast 50 ((loadPreferences w now).prefs.userNotes ++
          [{ text := note, context := context, timestamp := now }]) ∧
      k.prefs.viewHistory = (loadPreferences w now).prefs.viewHistory := by
  unfold addUserNote
  by_cases h : ((loadPreferences w now).prefs.userNotes ++
      [({ text := note, context := context, timestamp := now } : Note)]).length > 50
  · refine ⟨_, rfl, ?_, ?_⟩
    · simp only [Work.mutUserNotes] at h ⊢
      rw [if_pos h]
      rfl
    · simp only [Work.mutUserNotes] at h ⊢
      rw [if_pos h]
      rfl
  · refine ⟨_, rfl, ?_, ?_⟩
    · simp only [Work.mutUserNotes] at h ⊢
      rw [if_neg h, sliceLast_of_length_le (by omega)]
    · simp only [Work.mutUserNotes] at h ⊢
      rw [if_neg h]

/-- C3, as stated, fails: the state `loadPreferences` migrates from a legacy value with 101
view records is persisted by `addUserNote` with all 101 of them. -/
theorem addUserNote_keeps_overlong_history :
    ∃ w' p, addUserNote overfullLegacyWorld "note" [] ⟨1⟩ = .returned w' ∧
      w'.slot = .current p ∧ p.viewHistory.length = 101 ∧ ¬ Bounded p :=
  ⟨_, _, rfl, rfl, by decide, by decide⟩

theorem slotBounded_of_loaded (w : World) (now : Timestamp)
    (hb : Bounded (loadPreferences w now).prefs) : SlotBounded w.slot := by
  intro p hp
  rw [← loadPreferences_current now hp]
  exact hb

/-- C3, amended. `recordPageView` always persists at most 100 view records and `addUserNote` at
most 50 notes; and when the state a call loads is within both bounds, every state found in
the slot after `recordPageView`, `updateLastViewDuration`, `recordFeedback` or `addUserNote`
is within both bounds, whether the call returned or raised. -/
theorem bounded_retention (w : World) (now : Timestamp) :
    (∀ pageId pageName, ∃ w', recordPageView w pageId pageName now = .returned w' ∧
        (w.writable = true → ∃ p, w'.slot = .current p ∧ p.viewHistory.length ≤ 100)) ∧
    (∀ note context, ∃ w', addUserNote w note context now = .returned w' ∧
        (w.writable = true → ∃ p, w'.slot = .current p ∧ p.userNotes.length ≤ 50)) ∧
    (Bounded (loadPreferences w now).prefs →
      (∀ pageId pageName, SlotBounded (recordPageView w pageId pageName now).world.slot) ∧
      (∀ duration, SlotBounded (updateLastViewDuration w duration now).world.slot) ∧
      (∀ pageId feedback, SlotBounded (recordFeedback w pageId feedback now).world.slot) ∧
      (∀ note context, SlotBounded (addUserNote w note context now).world.slot)) := by
  refine ⟨?_, ?_, fun hb => ⟨?_, ?_, ?_, ?_⟩⟩
  · intro pageId pageName
    obtain ⟨k, hk, hv, -⟩ := recordPageView_eq w pageId pageName now
    refine ⟨_, hk, fun hw => ⟨{ k.prefs with updated := now }, ?_, ?_⟩⟩
    · simp [savePreferences, hw]
    · show k.prefs.viewHistory.length ≤ 100
      rw [hv]; exact length_sliceLast_le _ _
  · intro note context
    obtain ⟨k, hk, hn, -⟩ := addUserNote_eq w note context now
    refine ⟨_, hk, fun hw => ⟨{ k.prefs with updated := now }, ?_, ?_⟩⟩
    · simp [savePreferences, hw]
    · show k.prefs.userNotes.length ≤ 50
      rw [hn]; exact length_sliceLast_le _ _
  · intro pageId pageName
    obtain ⟨k, hk, hv, hn⟩ := recordPageView_eq w pageId pageName now
    rw [hk]
    exact slotBounded_save w k now hb
      ⟨by rw [hv]; exact length_sliceLast_le _ _, by rw [hn]; exact hb.2⟩
  · intro duration
    unfold updateLastViewDuration
    by_cases hlen : (loadPreferences w now).prefs.viewHistory.length > 0
    · simp only [if_pos hlen]
      refine slotBounded_save w _ now hb ⟨?_, hb.2⟩
      simp only [Work.mutViewHistory, length_setLastDuration]
      exact hb.1
    · simp only [if_neg hlen]
      exact slotBounded_of_loaded w now hb
  · intro pageId feedback
    obtain ⟨k, raised, w', hend, hslot, -, -, hlogs⟩ :=
      recordFeedback_outcome w pageId feedback now
    have hw' : (recordFeedback w pageId feedback now).world = w' := by
      rcases hend with ⟨h1, -⟩ | ⟨h1, -⟩ | h1 <;> rw [h1] <;> rfl
    rw [hw', hslot]
    cases raised with
    | true => exact slotBounded_of_loaded w now hb
    | false =>
      exact slotBounded_save w k now hb
        ⟨by rw [hlogs.1]; exact hb.1, by rw [hlogs.2]; exact hb.2⟩
  · intro note context
    obtain ⟨k, hk, hn, hv⟩ := addUserNote_eq w note context now
    rw [hk]
    exact slotBounded_save w k now hb
      ⟨by rw [hv]; exact hb.1, by rw [hn]; exact length_sliceLast_le _ _⟩

/-- Witness for C3, amended: a stored state with 100 view records and 50 notes.  A further
`recordPageView` persists 100 records, a further `addUserNote` 50 notes, and a
`recordFeedback` whose style loop raises leaves the slot as it was. -/
theorem bounded_retention_witness :
    Bounded (loadPreferences fullWorld ⟨1⟩).prefs ∧
    (∃ w' p, recordPageView fullWorld "b" "B" ⟨1⟩ = .returned w' ∧ w'.slot = .current p ∧
      p.viewHistory.length = 100 ∧ p.viewHistory.getLast? = some (newView "b" "B" ⟨1⟩)) ∧
    (∃ w', recordFeedback fullWorld "p" ratingWithReadOnlyStyle ⟨1⟩ = .threw w' ∧
      w'.slot = fullWorld.slot) ∧
    ((∀ pageId pageName, SlotBounded (recordPageView fullWorld pageId pageName ⟨1⟩).world.slot) ∧
      (∀ duration, SlotBounded (updateLastViewDuration fullWorld duration ⟨1⟩).world.slot) ∧
      (∀ pageId feedback, SlotBounded (recordFeedback fullWorld pageId feedback ⟨1⟩).world.slot) ∧
      (∀ note context, SlotBounded (addUserNote fullWorld note context ⟨1⟩).world.slot)) :=
  ⟨by decide, ⟨_, _, rfl, rfl, by decide, by decide⟩, ⟨_, rfl, rfl⟩,
    (bounded_retention fullWorld ⟨1⟩).2.2 (by decide)⟩

/-! ## Drop-oldest retention of the view history -/

/-- One call on a working storage: what is persisted. -/
theorem recordPageView_persists (w : World) (pageId pageName : String) (now : Timestamp)
    (hw : w.writable = true) :
    ∃ w' p, recordPageView w pageId pageName now = .returned w' ∧ w'.slot = .current p ∧
      w'.writable = true ∧
      p.viewHistory =
        sliceLast 100 ((loadPreferences w now).prefs.viewHistory ++
          [newView pageId pageName now]) := by
  obtain ⟨k, hk, hv, -⟩ := recordPageView_eq w pageId pageName now
  refine ⟨_, { k.prefs with updated := now }, hk, ?_, hw, hv⟩
  simp [savePreferences, hw]

/-- A non-empty sequence of calls on a working storage persists the last 100 elements of the
loaded history followed by the records of the calls. -/
theorem recordPageViews_persists (calls : List ViewCall) (hne : calls ≠ []) :
    ∀ (w : World) (now : Timestamp), w.writable = true →
      ∃ w' p, recordPageViews w calls = some w' ∧ w'.slot = .current p ∧
        p.viewHistory =
          sliceLast 100 ((loadPreferences w now).prefs.viewHistory ++
            calls.map ViewCall.record) := by
  induction calls with
  | nil => exact absurd rfl hne
  | cons c cs ih =>
    intro w now hw
    obtain ⟨w1, p1, h1, hs1, hw1, hv1⟩ := recordPageView_persists w c.pageId c.pageName c.time hw
    rw [loadPreferences_viewHistory w c.time now] at hv1
    cases cs with
    | nil =>
      refine ⟨w1, p1, ?_, hs1, ?_⟩
      · simp [recordPageViews, h1]
      · simpa [ViewCall.record] using hv1
    | cons c2 cs2 =>
      obtain ⟨w', p, h2, hs2, hv2⟩ := ih (by simp) w1 now hw1
      refine ⟨w', p, ?_, hs2, ?_⟩
      · simp only [recordPageViews, h1] at h2 ⊢
        exact h2
      · rw [hv2, loadPreferences_current now hs1, hv1, sliceLast_sliceLast_append]
        simp [ViewCall.record]

/-- C4. With a working storage and a slot holding the view history `h` (in a current-version
state or in a legacy state), `recordPageView` persists as view history the last 100 elements
of `h` followed by the new record (duration 0), in the same order; and any sequence of more
than 100 calls starting from an empty slot persists exactly 100 records, those of the last
100 calls, in call order. -/
theorem recordPageView_drop_oldest :
    (∀ (w : World) (h : List ViewRecord) (pageId pageName : String) (now : Timestamp),
      w.writable = true →
      ((∃ p0, w.slot = .current p0 ∧ p0.viewHistory = h) ∨
        (∃ o, w.slot = .legacy o ∧ o.viewHistory = some h)) →
      ∃ w' p, recordPageView w pageId pageName now = .returned w' ∧ w'.slot = .current p ∧
        p.viewHistory =
          sliceLast 100 (h ++
            [{ pageId := pageId, pageName := pageName, timestamp := now, duration := 0 }])) ∧
    (∀ (w : World) (calls : List ViewCall),
      w.writable = true → w.slot = .absent → 100 < calls.length →
      ∃ w' p, recordPageViews w calls = some w' ∧ w'.slot = .current p ∧
        p.viewHistory.length = 100 ∧
        p.viewHistory = (calls.map ViewCall.record).drop (calls.length - 100)) := by
  constructor
  · intro w h pageId pageName now hw hs
    obtain ⟨w', p, h1, h2, -, h3⟩ := recordPageView_persists w pageId pageName now hw
    have hload : (loadPreferences w now).prefs.viewHistory = h := by
      rcases hs with ⟨p0, hp0, rfl⟩ | ⟨o, ho, hoh⟩
      · rw [loadPreferences_current now hp0]
      · simp [loadPreferences, ho, migratePreferences, hoh]
    rw [hload] at h3
    exact ⟨w', p, h1, h2, h3⟩
  · intro w calls hw _ hlen
    have hne : calls ≠ [] := by
      intro h; rw [h] at hlen; simp at hlen
    obtain ⟨w', p, h1, h2, h3⟩ := recordPageViews_persists calls hne w ⟨0⟩ hw
    rw [sliceLast_append_of_le _ _ (by rw [List.length_map]; omega)] at h3
    refine ⟨w', p, h1, h2, ?_, ?_⟩
    · rw [h3]
      simp only [sliceLast, List.length_drop, List.length_map]
      omega
    · rw [h3]
      simp [sliceLast]

/-- Witness for C4: 101 calls on a fresh page. -/
theorem recordPageView_drop_oldest_witness :
    (freshWorld.writable = true ∧ freshWorld.slot = .absent ∧
      100 < (List.replicate 101 (ViewCall.mk "a" "A" ⟨1⟩)).length) ∧
    ∃ w' p, recordPageViews freshWorld (List.replicate 101 (ViewCall.mk "a" "A" ⟨1⟩)) = some w' ∧
      w'.slot = .current p ∧ p.viewHistory.length = 100 ∧
      p.viewHistory =
        ((List.replicate 101 (ViewCall.mk "a" "A" ⟨1⟩)).map ViewCall.record).drop
          ((List.replicate 101 (ViewCall.mk "a" "A" ⟨1⟩)).length - 100) :=
  ⟨⟨rfl, rfl, by decide⟩,
    recordPageView_drop_oldest.2 freshWorld _ rfl rfl (by decide)⟩

/-! ## Style scores -/

/-- C5, failing input. `recordFeedback("p1", {styles: {colorSchemes: "dark"}})` on a fresh page:
the weight is `-1` and the persisted score of `dark` is `-1`, where the claim has weight `0`
and the score unchanged at `0`. -/
theorem styles_without_liked_count_as_dislike :
    styleWeight none = -1 ∧
    score (loadPreferences freshWorld ⟨1⟩).prefs.stylePreferences "colorSchemes" "dark"
      = some (.num 0) ∧
    ∃ w', recordFeedback freshWorld "p1" (styledFeedback none "colorSchemes" "dark") ⟨1⟩
        = .returned w' ∧
      persistedScore w' "colorSchemes" "dark" = some (.num (-1)) :=
  ⟨rfl, by decide, _, rfl, by decide⟩

/-- The example of the specification: like, like, dislike of `colorSchemes: dark` on the pages
`p1`, `p2`, `p3`, from the default state, persists the score `1`. -/
theorem score_accumulation_example :
    ∃ w1 w2 w3,
      recordFeedback freshWorld "p1" (styledFeedback (some true) "colorSchemes" "dark") ⟨1⟩
        = .returned w1 ∧
      recordFeedback w1 "p2" (styledFeedback (some true) "colorSchemes" "dark") ⟨2⟩
        = .returned w2 ∧
      recordFeedback w2 "p3" (styledFeedback (some false) "colorSchemes" "dark") ⟨3⟩
        = .returned w3 ∧
      persistedScore w3 "colorSchemes" "dark" = some (.num 1) :=
  ⟨_, _, _, rfl, rfl, rfl, by decide⟩

/-- C6, failing inputs. From the persisted default state (score of `dark` is `0`):
two likes of `colorSchemes: dark`, on the pages `__proto__` and `lastUpdated`, leave the
persisted score at `1` because the second call throws before it saves; and one like that
also carries a rating, on the page `constructor`, throws and leaves the score at `0`. -/
theorem score_accumulation_fails_on_inherited_page_ids :
    persistedScore (worldWith defaultPrefs) "colorSchemes" "dark" = some (.num 0) ∧
    (∃ w1 w2,
      recordFeedback (worldWith defaultPrefs) "__proto__"
        (styledFeedback (some true) "colorSchemes" "dark") ⟨1⟩ = .returned w1 ∧
      recordFeedback w1 "lastUpdated"
        (styledFeedback (some true) "colorSchemes" "dark") ⟨2⟩ = .threw w2 ∧
      persistedScore w2 "colorSchemes" "dark" = some (.num 1)) ∧
    (∃ w1,
      recordFeedback (worldWith defaultPrefs) "constructor"
        { rating := some 5, comment := none, liked := some true,
          styles := some [("colorSchemes", "dark")] } ⟨1⟩ = .threw w1 ∧
      persistedScore w1 "colorSchemes" "dark" = some (.num 0)) :=
  ⟨by decide, ⟨_, _, rfl, rfl, by decide⟩, ⟨_, rfl, by decide⟩⟩

/-- C7, failing input. `updateStylePreferences(prefs, {colorSchemes: "toString"}, 1)` on the
default vector: `toString` is not a label of `colorSchemes`, yet the call creates it, with a
string as its score. -/
theorem updateStylePreferences_creates_inherited_label :
    (defaultStylePreferences.get? "colorSchemes").map (fun cat => cat.map Prod.fst)
      = some ["dark", "light", "gradient"] ∧
    ∃ sp, updateStylePreferences none defaultStylePreferences [("colorSchemes", "toString")] 1
        = some sp ∧
      (sp.get? "colorSchemes").map (fun cat => cat.map Prod.fst)
        = some ["dark", "light", "gradient", "toString"] ∧
      score sp "colorSchemes" "toString" = some (.text (.nativeFn "toString") [1]) :=
  ⟨by decide, _, rfl, by decide, by decide⟩

/-- C8, failing inputs. A history with one view of the page `__proto__` has one distinct page
identifier, but `mostViewed` is empty; a history with one view of the page `constructor`
reports a string, not the count `1`, as its `views`. -/
theorem mostViewed_misses_inherited_page_ids :
    (getPreferencesSummary (worldWith (prefsWithHistory [view "__proto__" 0])) ⟨1⟩).mostViewed
      = [] ∧
    (getPreferencesSummary (worldWith (prefsWithHistory [view "constructor" 0])) ⟨1⟩).mostViewed
      = [{ pageId := "constructor", views := .text (.nativeFn "constructor") [1] }] :=
  ⟨by decide, by decide⟩

/-! ## Facts about plain objects -/

theorem JSObject.get?_replace {α : Type} (o : List (String × α)) (k k' : String) (v : α) :
    JSObject.get? (JSObject.replace o k v) k' =
      if k' = k then (JSObject.get? o k).map (fun _ => v) else JSObject.get? o k' := by
  induction o with
  | nil => simp [JSObject.replace, JSObject.get?]
  | cons e rest ih =>
    obtain ⟨k0, v0⟩ := e
    simp only [JSObject.replace, JSObject.get?]
    by_cases h0 : k0 = k
    · subst h0
      by_cases h1 : k' = k0
      · subst h1; simp [JSObject.get?]
      · have h2 : ¬ k0 = k' := fun h => h1 h.symm
        simp [JSObject.get?, h1, h2]
    · by_cases h1 : k' = k
      · subst h1
        simp [JSObject.get?, h0, ih]
      · simp only [if_neg h0, JSObject.get?, ih, if_neg h1]

theorem JSObject.get?_insertIndex {α : Type} (n : Nat) (o : List (String × α)) (k k' : String) (v : α)
    (hk : JSObject.get? o k = none) :
    JSObject.get? (JSObject.insertIndex n k v o) k' =
      if k' = k then some v else JSObject.get? o k' := by
  induction o with
  | nil =>
    by_cases h : k' = k
    · subst h; simp [JSObject.insertIndex, JSObject.get?]
    · have h2 : ¬ k = k' := fun e => h e.symm
      simp [JSObject.insertIndex, JSObject.get?, h, h2]
  | cons e rest ih =>
    obtain ⟨k0, v0⟩ := e
    have hk0 : ¬ k0 = k := by
      intro e; simp [JSObject.get?, e] at hk
    have hrest : JSObject.get? rest k = none := by
      simpa [JSObject.get?, hk0] using hk
    have key : JSObject.get? ((k, v) :: (k0, v0) :: rest) k' =
        if k' = k then some v else JSObject.get? ((k0, v0) :: rest) k' := by
      by_cases h : k' = k
      · subst h; simp [JSObject.get?]
      · have h2 : ¬ k = k' := fun e => h e.symm
        simp [JSObject.get?, h, h2]
    simp only [JSObject.insertIndex]
    split
    · split
      · simp only [JSObject.get?, ih hrest]
        by_cases h : k' = k
        · subst h; simp [hk0]
        · simp [h]
      · exact key
    · exact key

theorem JSObject.get?_append_singleton {α : Type} (o : List (String × α)) (k k' : String) (v : α)
    (hk : JSObject.get? o k = none) :
    JSObject.get? (o ++ [(k, v)]) k' = if k' = k then some v else JSObject.get? o k' := by
  induction o with
  | nil =>
    by_cases h : k' = k
    · subst h; simp [JSObject.get?]
    · have h2 : ¬ k = k' := fun e => h e.symm
      simp [JSObject.get?, h, h2]
  | cons e rest ih =>
    obtain ⟨k0, v0⟩ := e
    have hk0 : ¬ k0 = k := by
      intro e; simp [JSObject.get?, e] at hk
    have hrest : JSObject.get? rest k = none := by
      simpa [JSObject.get?, hk0] using hk
    have ih2 := ih hrest
    have e1 : JSObject.get? ((k0, v0) :: rest) k' =
        if k0 = k' then some v0 else JSObject.get? rest k' := rfl
    show (if k0 = k' then some v0 else JSObject.get? (rest ++ [(k, v)]) k') = _
    rw [ih2, e1]
    by_cases h : k' = k
    · subst h
      rw [if_neg hk0, if_pos rfl, if_pos rfl]
    · rw [if_neg h, if_neg h]

/-- Reading after a write. -/
theorem JSObject.get?_put {α : Type} (o : List (String × α)) (k k' : String) (v : α) :
    JSObject.get? (JSObject.put o k v) k' = if k' = k then some v else JSObject.get? o k' := by
  unfold JSObject.put
  split
  · rename_i x hx
    rw [JSObject.get?_replace, hx]; rfl
  · rename_i hx
    split
    · exact JSObject.get?_insertIndex _ o k k' v hx
    · exact JSObject.get?_append_singleton o k k' v hx

theorem JSObject.get?_eq_none_iff {α : Type} (o : List (String × α)) (k : String) :
    JSObject.get? o k = none ↔ k ∉ JSObject.keys o := by
  induction o with
  | nil => simp [JSObject.get?, JSObject.keys]
  | cons e rest ih =>
    obtain ⟨k0, v0⟩ := e
    by_cases h : k0 = k
    · simp [JSObject.get?, JSObject.keys, h]
    · have h2 : ¬ k = k0 := fun e => h e.symm
      simp only [JSObject.get?, if_neg h, ih]
      simp [JSObject.keys, h2]

theorem JSObject.mem_of_get? {α : Type} {o : List (String × α)} {k : String} {v : α}
    (h : JSObject.get? o k = some v) : (k, v) ∈ o := by
  induction o with
  | nil => simp [JSObject.get?] at h
  | cons e rest ih =>
    obtain ⟨k0, v0⟩ := e
    by_cases h0 : k0 = k
    · simp only [JSObject.get?, if_pos h0] at h
      cases h; subst h0; exact List.mem_cons_self _ _
    · simp only [JSObject.get?, if_neg h0] at h
      exact List.mem_cons_of_mem _ (ih h)

theorem JSObject.get?_of_mem {α : Type} {o : List (String × α)} {k : String} {v : α}
    (hn : (JSObject.keys o).Nodup) (h : (k, v) ∈ o) : JSObject.get? o k = some v := by
  induction o with
  | nil => simp at h
  | cons e rest ih =>
    obtain ⟨k0, v0⟩ := e
    simp only [JSObject.keys, List.map_cons, List.nodup_cons] at hn
    rcases List.mem_cons.1 h with h1 | h1
    · cases h1; simp [JSObject.get?]
    · have hk : k ∈ rest.map Prod.fst := List.mem_map.2 ⟨(k, v), h1, rfl⟩
      have h0 : ¬ k0 = k := fun e => hn.1 (e ▸ hk)
      simp only [JSObject.get?, if_neg h0]
      exact ih hn.2 h1

theorem JSObject.keys_replace {α : Type} (o : List (String × α)) (k : String) (v : α) :
    JSObject.keys (JSObject.replace o k v) = JSObject.keys o := by
  induction o with
  | nil => rfl
  | cons e rest ih =>
    obtain ⟨k0, v0⟩ := e
    simp only [JSObject.replace]
    split
    · rename_i h; simp [JSObject.keys, h]
    · simp only [JSObject.keys, List.map_cons] at ih ⊢
      rw [ih]

theorem JSObject.keys_insertIndex_perm {α : Type} (n : Nat) (o : List (String × α)) (k : String)
    (v : α) : (JSObject.keys (JSObject.insertIndex n k v o)).Perm (k :: JSObject.keys o) := by
  induction o with
  | nil => exact List.Perm.refl _
  | cons e rest ih =>
    obtain ⟨k0, v0⟩ := e
    simp only [JSObject.insertIndex]
    split
    · split
      · simp only [JSObject.keys, List.map_cons] at ih ⊢
        exact (List.Perm.cons k0 ih).trans (List.Perm.swap k k0 _)
      · exact List.Perm.refl _
    · exact List.Perm.refl _

/-- The keys after a write, up to order. -/
theorem JSObject.keys_put_perm {α : Type} (o : List (String × α)) (k : String) (v : α) :
    (JSObject.keys (JSObject.put o k v)).Perm
      (if k ∈ JSObject.keys o then JSObject.keys o else k :: JSObject.keys o) := by
  unfold JSObject.put
  split
  · rename_i x hx
    have hmem : k ∈ JSObject.keys o := by
      by_contra hc
      rw [(JSObject.get?_eq_none_iff o k).2 hc] at hx; cases hx
    rw [if_pos hmem, JSObject.keys_replace]
  · rename_i hx
    have hmem : k ∉ JSObject.keys o := (JSObject.get?_eq_none_iff o k).1 hx
    rw [if_neg hmem]
    split
    · exact JSObject.keys_insertIndex_perm _ o k v
    · simp only [JSObject.keys, List.map_append, List.map_cons, List.map_nil]
      exact List.perm_append_singleton _ _

theorem JSObject.nodup_keys_put {α : Type} (o : List (String × α)) (k : String) (v : α)
    (h : (JSObject.keys o).Nodup) : (JSObject.keys (JSObject.put o k v)).Nodup := by
  rw [(JSObject.keys_put_perm o k v).nodup_iff]
  split
  · exact h
  · rename_i hk; exact List.nodup_cons.2 ⟨hk, h⟩

/-- A key that is not an array index and not yet own is appended. -/
theorem JSObject.keys_put_new {α : Type} (o : List (String × α)) (k : String) (v : α)
    (hk : k ∉ JSObject.keys o) (hidx : arrayIndex? k = none) :
    JSObject.keys (JSObject.put o k v) = JSObject.keys o ++ [k] := by
  unfold JSObject.put
  rw [(JSObject.get?_eq_none_iff o k).2 hk]
  simp [hidx, JSObject.keys]

/-- A write to an own key keeps the keys and their order. -/
theorem JSObject.keys_put_own {α : Type} (o : List (String × α)) (k : String) (v : α)
    (hk : k ∈ JSObject.keys o) : JSObject.keys (JSObject.put o k v) = JSObject.keys o := by
  unfold JSObject.put
  split
  · exact JSObject.keys_replace o k v
  · rename_i hx
    exact absurd hk ((JSObject.get?_eq_none_iff o k).1 hx)

/-! ## The tallies of `getPreferencesSummary` -/

theorem viewCounts_eq_tally (plu : Option Timestamp) (vh : List ViewRecord) :
    viewCounts plu vh = tally plu (fun _ => true) (fun _ => 1) vh := by
  simp [viewCounts, tally]

theorem durationSums_eq_tally (plu : Option Timestamp) (vh : List ViewRecord) :
    durationSums plu vh = tally plu (fun v => decide (v.duration > 0)) (fun v => v.duration) vh := by
  simp [durationSums, tally]

theorem durationCounts_eq_tally (plu : Option Timestamp) (vh : List ViewRecord) :
    durationCounts plu vh = tally plu (fun v => decide (v.duration > 0)) (fun _ => 1) vh := by
  simp [durationCounts, tally]

theorem ne_proto_of_inherited_none {plu : Option Timestamp} {k : String}
    (h : inherited plu k = none) : k ≠ "__proto__" := by
  intro e
  simp [inherited, e] at h

theorem assignPrimitive_of_ne {α : Type} (o : List (String × α)) (k : String) (v : α)
    (h : k ≠ "__proto__") : assignPrimitive o k v = JSObject.put o k v := by
  unfold assignPrimitive
  split
  · rfl
  · rw [if_neg h]

theorem tally_snoc (plu : Option Timestamp) (p : ViewRecord → Bool) (f : ViewRecord → Int)
    (vh : List ViewRecord) (v : ViewRecord) :
    tally plu p f (vh ++ [v]) =
      if p v = true then
        assignPrimitive (tally plu p f vh) v.pageId (bump plu (tally plu p f vh) v.pageId (f v))
      else tally plu p f vh := by
  simp [tally, List.foldl_append]

theorem selected_snoc (p : ViewRecord → Bool) (k : String) (vh : List ViewRecord)
    (v : ViewRecord) :
    selected p k (vh ++ [v]) =
      selected p k vh ++ (if p v = true ∧ v.pageId = k then [v] else []) := by
  simp only [selected, List.filter_append]
  congr 1
  by_cases h1 : p v = true <;> by_cases h2 : v.pageId = k <;> simp [List.filter, h1, h2]

/-- What the tally holds for histories without inherited page identifiers: under each page
identifier with a selected record, the sum of `f` over its selected records; nothing else. -/
theorem tally_spec (plu : Option Timestamp) (p : ViewRecord → Bool) (f : ViewRecord → Int)
    (vh : List ViewRecord) (hplain : PlainIds plu vh) :
    (∀ k, JSObject.get? (tally plu p f vh) k =
        if selected p k vh = [] then none else some (.num ((selected p k vh).map f).sum)) ∧
      (JSObject.keys (tally plu p f vh)).Nodup := by
  induction vh using List.reverseRecOn with
  | nil => exact ⟨fun k => by simp [tally, selected, JSObject.get?], by simp [tally, JSObject.keys]⟩
  | append_singleton vh v ih =>
    have hplain' : PlainIds plu vh := fun x hx => hplain x (List.mem_append_left _ hx)
    have hv : inherited plu v.pageId = none := hplain v (by simp)
    obtain ⟨ihget, ihnd⟩ := ih hplain'
    rw [tally_snoc]
    by_cases hp : p v = true
    · rw [if_pos hp, assignPrimitive_of_ne _ _ _ (ne_proto_of_inherited_none hv)]
      refine ⟨fun k => ?_, JSObject.nodup_keys_put _ _ _ ihnd⟩
      rw [JSObject.get?_put, selected_snoc]
      by_cases hk : k = v.pageId
      · subst hk
        have e1 : (if p v = true ∧ v.pageId = v.pageId then [v] else ([] : List ViewRecord))
            = [v] := if_pos ⟨hp, rfl⟩
        have hne : ¬ (selected p v.pageId vh ++ [v] = []) := by simp
        rw [e1, if_pos (rfl : v.pageId = v.pageId), if_neg hne]
        congr 1
        unfold bump
        rw [ihget v.pageId]
        by_cases hs : selected p v.pageId vh = []
        · simp [hs, hv]
        · simp only [if_neg hs, List.map_append, List.sum_append, List.map_cons, List.map_nil,
            List.sum_cons, List.sum_nil, add_zero]
          congr 1
          split <;> simp_all
      · have hk2 : ¬ (p v = true ∧ v.pageId = k) := fun h => hk h.2.symm
        rw [if_neg hk, if_neg hk2, List.append_nil]
        exact ihget k
    · rw [if_neg hp]
      refine ⟨fun k => ?_, ihnd⟩
      have hk2 : ¬ (p v = true ∧ v.pageId = k) := fun h => hp h.1
      rw [selected_snoc, if_neg hk2, List.append_nil]
      exact ihget k

/-! ## Average durations -/

theorem JSObject.mem_replace {α : Type} (o : List (String × α)) (k : String) (v : α)
    (x : String × α) (h : x ∈ JSObject.replace o k v) : x ∈ o ∨ x = (k, v) := by
  induction o with
  | nil => simp [JSObject.replace] at h
  | cons e rest ih =>
    obtain ⟨k0, v0⟩ := e
    simp only [JSObject.replace] at h
    split at h
    · rcases List.mem_cons.1 h with h1 | h1
      · exact Or.inr h1
      · exact Or.inl (List.mem_cons_of_mem _ h1)
    · rcases List.mem_cons.1 h with h1 | h1
      · exact Or.inl (h1 ▸ List.mem_cons_self _ _)
      · rcases ih h1 with h2 | h2
        · exact Or.inl (List.mem_cons_of_mem _ h2)
        · exact Or.inr h2

theorem JSObject.insertIndex_perm {α : Type} (n : Nat) (o : List (String × α)) (k : String)
    (v : α) : (JSObject.insertIndex n k v o).Perm ((k, v) :: o) := by
  induction o with
  | nil => exact List.Perm.refl _
  | cons e rest ih =>
    obtain ⟨k0, v0⟩ := e
    simp only [JSObject.insertIndex]
    split
    · split
      · exact (List.Perm.cons (k0, v0) ih).trans (List.Perm.swap (k, v) (k0, v0) _)
      · exact List.Perm.refl _
    · exact List.Perm.refl _

/-- Every entry after a write is an old entry or the one written. -/
theorem JSObject.mem_put {α : Type} (o : List (String × α)) (k : String) (v : α)
    (x : String × α) (h : x ∈ JSObject.put o k v) : x ∈ o ∨ x = (k, v) := by
  unfold JSObject.put at h
  split at h
  · exact JSObject.mem_replace o k v x h
  · split at h
    · rcases List.mem_cons.1 ((JSObject.insertIndex_perm _ o k v).mem_iff.1 h) with h1 | h1
      · exact Or.inr h1
      · exact Or.inl h1
    · rcases List.mem_append.1 h with h1 | h1
      · exact Or.inl h1
      · exact Or.inr (List.mem_singleton.1 h1)

theorem mem_assignPrimitive {α : Type} (o : List (String × α)) (k : String) (v : α)
    (x : String × α) (h : x ∈ assignPrimitive o k v) : x ∈ o ∨ x = (k, v) := by
  unfold assignPrimitive at h
  split at h
  · exact JSObject.mem_put o k v x h
  · split at h
    · exact Or.inl h
    · exact JSObject.mem_put o k v x h

/-- Entries of an object built by assigning `g e` under the key of each entry `e` of `l`. -/
theorem mem_foldl_assignPrimitive {α β : Type} (g : String × α → β) (l : List (String × α)) :
    ∀ (acc : List (String × β)) (x : String × β),
      x ∈ l.foldl (fun avg e => assignPrimitive avg e.1 (g e)) acc →
      x ∈ acc ∨ ∃ e ∈ l, x = (e.1, g e) := by
  induction l with
  | nil => intro acc x h; exact Or.inl h
  | cons e rest ih =>
    intro acc x h
    rcases ih _ x h with h1 | ⟨e', he', hx⟩
    · rcases mem_assignPrimitive acc e.1 (g e) x h1 with h2 | h2
      · exact Or.inl h2
      · exact Or.inr ⟨e, List.mem_cons_self _ _, h2⟩
    · exact Or.inr ⟨e', List.mem_cons_of_mem _ he', hx⟩

/-- Rounding halves upwards, as a floor. -/
theorem roundHalfUp_eq_floor (s c : Int) (hc : 0 < c) :
    roundHalfUp s c = ⌊(s : ℚ) / c + 1 / 2⌋ := by
  unfold roundHalfUp
  lift c to ℕ using hc.le
  have hc' : (0 : ℚ) < (c : ℚ) := by exact_mod_cast hc
  have h : (s : ℚ) / ((c : ℤ) : ℚ) + 1 / 2 = ((2 * s + c : Int) : ℚ) / ((2 * c : ℕ) : ℚ) := by
    push_cast
    field_simp
    ring
  rw [h, Rat.floor_intCast_div_natCast]
  push_cast
  rfl

theorem selected_positive (vh : List ViewRecord) (k : String) :
    selected (fun v => decide (v.duration > 0)) k vh = positiveViews vh k := by
  unfold selected positiveViews
  apply List.filter_congr
  intro v _
  by_cases h1 : v.duration > 0 <;> by_cases h2 : v.pageId = k <;> simp [h1, h2]

/-- The entries of `avgDurations` for histories without inherited page identifiers. -/
theorem avgDurations_spec (plu : Option Timestamp) (vh : List ViewRecord)
    (hplain : PlainIds plu vh) (x : String × Option Int) (hx : x ∈ avgDurations plu vh) :
    positiveViews vh x.1 ≠ [] ∧
      x.2 = some (roundHalfUp ((positiveViews vh x.1).map (fun v => v.duration)).sum
        (positiveViews vh x.1).length) := by
  unfold avgDurations at hx
  rcases mem_foldl_assignPrimitive
      (fun e : String × Scalar =>
        match JSObject.get? (durationCounts plu vh) e.1 with
        | some c => roundedQuotient e.2 c
        | none => none) _ [] x hx with h | ⟨e, he, hxe⟩
  · simp at h
  · obtain ⟨hsum, hnd⟩ := tally_spec plu (fun v => decide (v.duration > 0))
      (fun v => v.duration) vh hplain
    obtain ⟨hcnt, -⟩ := tally_spec plu (fun v => decide (v.duration > 0))
      (fun _ => 1) vh hplain
    rw [durationSums_eq_tally] at he
    have hget := JSObject.get?_of_mem hnd (k := e.1) (v := e.2) he
    rw [hsum e.1, selected_positive] at hget
    have hcnt' := hcnt e.1
    rw [selected_positive] at hcnt'
    by_cases hne : positiveViews vh e.1 = []
    · rw [if_pos hne] at hget; cases hget
    · rw [if_neg hne] at hget hcnt'
      have hlen : (0 : Int) < ((positiveViews vh e.1).length : Int) := by
        have := List.length_pos.2 hne
        exact_mod_cast this
      have hx1 : x.1 = e.1 := by rw [hxe]
      have hx2 : x.2 = (match JSObject.get? (durationCounts plu vh) e.1 with
          | some c => roundedQuotient e.2 c
          | none => none) := by rw [hxe]
      rw [durationCounts_eq_tally, hcnt'] at hx2
      rw [hx1]
      refine ⟨hne, ?_⟩
      rw [hx2, ← Option.some.inj hget]
      have hones : ((positiveViews vh e.1).map (fun _ => (1 : Int))).sum
          = ((positiveViews vh e.1).length : Int) := by
        simp
      simp only [roundedQuotient, Scalar.toNumber?, hones]
      rw [if_neg (ne_of_gt hlen)]

theorem mem_sortDescending {α : Type} (value : α → Option Int) (l : List α) (x : α) :
    x ∈ sortDescending value l ↔ x ∈ l :=
  (List.perm_insertionSort _ l).mem_iff

/-- C10, as stated, fails: for two views of one page lasting 1 and 2 seconds the mean is
`3/2`, and the reported `avgDuration` is `2`. -/
theorem avgDuration_is_not_the_mean :
    (getPreferencesSummary (worldWith (prefsWithHistory oneAndTwoSeconds)) ⟨1⟩).longestViewed
      = [{ pageId := "a", avgDuration := some 2 }] ∧
    meanPositiveDuration oneAndTwoSeconds "a" = 3 / 2 ∧
    ((2 : Int) : ℚ) ≠ meanPositiveDuration oneAndTwoSeconds "a" := by
  have h : meanPositiveDuration oneAndTwoSeconds "a" = 3 / 2 := by
    have hp : positiveViews oneAndTwoSeconds "a" = oneAndTwoSeconds := by decide
    unfold meanPositiveDuration
    rw [hp]
    norm_num [oneAndTwoSeconds, view]
  refine ⟨by decide, h, ?_⟩
  rw [h]; norm_num

/-- C10, amended. When no page identifier of the history is the name of a property of
`Object.prototype`: every page listed in `longestViewed` has a record of duration `> 0`, and
its `avgDuration` is the mean of the durations of its records of duration `> 0`, rounded to
the nearest integer, halves upwards. -/
theorem longestViewed_rounded_mean (w : World) (now : Timestamp)
    (hplain : PlainIds w.protoLastUpdated (loadPreferences w now).prefs.viewHistory) :
    ∀ e ∈ (getPreferencesSummary w now).longestViewed,
      positiveViews (loadPreferences w now).prefs.viewHistory e.pageId ≠ [] ∧
      e.avgDuration =
        some ⌊meanPositiveDuration (loadPreferences w now).prefs.viewHistory e.pageId + 1 / 2⌋ := by
  intro e he
  simp only [getPreferencesSummary, longestViewed, List.mem_map] at he
  obtain ⟨x, hx, rfl⟩ := he
  have hx' := (mem_sortDescending _ _ x).1 (List.mem_of_mem_take hx)
  obtain ⟨hne, hval⟩ := avgDurations_spec _ _ hplain x hx'
  refine ⟨hne, ?_⟩
  have hlen : (0 : Int) < ((positiveViews (loadPreferences w now).prefs.viewHistory x.1).length : Int) := by
    have := List.length_pos.2 hne
    exact_mod_cast this
  show x.2 = _
  rw [hval, roundHalfUp_eq_floor _ _ hlen]
  unfold meanPositiveDuration
  push_cast
  rw [List.map_map]
  rfl

/-- Witness for C10, amended: two views of one page, of 1 and 2 seconds. -/
theorem longestViewed_rounded_mean_witness :
    PlainIds (worldWith (prefsWithHistory oneAndTwoSeconds)).protoLastUpdated
      (loadPreferences (worldWith (prefsWithHistory oneAndTwoSeconds)) ⟨1⟩).prefs.viewHistory ∧
    ∀ e ∈ (getPreferencesSummary (worldWith (prefsWithHistory oneAndTwoSeconds)) ⟨1⟩).longestViewed,
      positiveViews
        (loadPreferences (worldWith (prefsWithHistory oneAndTwoSeconds)) ⟨1⟩).prefs.viewHistory
        e.pageId ≠ [] ∧
      e.avgDuration =
        some ⌊meanPositiveDuration
          (loadPreferences (worldWith (prefsWithHistory oneAndTwoSeconds)) ⟨1⟩).prefs.viewHistory
          e.pageId + 1 / 2⌋ :=
  ⟨by decide,
    longestViewed_rounded_mean (worldWith (prefsWithHistory oneAndTwoSeconds)) ⟨1⟩ (by decide)⟩

/-! ## Order of ties -/

theorem keepsBefore_self (x : Option Int) : keepsBefore x x = true := by
  cases x <;> simp [keepsBefore]

/-- The sort is stable: two elements of equal value keep their relative order. -/
theorem sortDescending_stable {α : Type} (value : α → Option Int) (l : List α) (a b : α)
    (hab : [a, b].Sublist (sortDescending value l)) (hv : value a = value b) :
    [a, b].Sublist l := by
  let P : α → Bool := fun x => decide (value x = value a)
  have hPc : ∀ x ∈ l.filter P, value x = value a := by
    intro x hx
    have := (List.mem_filter.1 hx).2
    simpa [P] using this
  have hpair : (l.filter P).Pairwise (fun x y => keepsBefore (value x) (value y) = true) := by
    apply List.pairwise_of_forall_mem_list
    intro x hx y hy
    rw [hPc x hx, hPc y hy]
    exact keepsBefore_self _
  have hsub : (l.filter P).Sublist (sortDescending value l) :=
    List.sublist_insertionSort hpair (List.filter_sublist l)
  have hself : (l.filter P).filter P = l.filter P :=
    List.filter_eq_self.2 (fun x hx => (List.mem_filter.1 hx).2)
  have hsub2 : (l.filter P).Sublist ((sortDescending value l).filter P) := by
    have := hsub.filter P
    rwa [hself] at this
  have hlen : (l.filter P).length = ((sortDescending value l).filter P).length :=
    ((List.perm_insertionSort _ l).filter P).length_eq.symm
  have heq : l.filter P = (sortDescending value l).filter P := hsub2.eq_of_length hlen
  have hpairP : [a, b].filter P = [a, b] :=
    List.filter_eq_self.2 (fun x hx => by
      rcases List.mem_cons.1 hx with h | h
      · simp [P, h]
      · have hb : x = b := by simpa using h
        simp [P, hb, hv])
  have h1 : [a, b].Sublist ((sortDescending value l).filter P) := by
    have := hab.filter P
    rwa [hpairP] at this
  rw [← heq] at h1
  exact h1.trans (List.filter_sublist l)

theorem selectedIds_snoc (p : ViewRecord → Bool) (vh : List ViewRecord) (v : ViewRecord) :
    selectedIds p (vh ++ [v]) =
      selectedIds p vh ++ (if p v = true then [v.pageId] else []) := by
  unfold selectedIds
  by_cases h : p v = true <;> simp [List.filter_append, List.filter, h]

/-- For histories whose page identifiers are neither inherited names nor array indices, the
keys of a tally are enumerated in the order of their first selected record. -/
theorem tally_keys_order (plu : Option Timestamp) (p : ViewRecord → Bool) (f : ViewRecord → Int)
    (vh : List ViewRecord) (hplain : PlainIds plu vh) (hidx : NoIndexIds vh) :
    (JSObject.keys (tally plu p f vh)).Pairwise
        (fun x y => List.indexOf x (selectedIds p vh) < List.indexOf y (selectedIds p vh)) ∧
      ∀ x, x ∈ JSObject.keys (tally plu p f vh) ↔ x ∈ selectedIds p vh := by
  induction vh using List.reverseRecOn with
  | nil => simp [tally, JSObject.keys, selectedIds]
  | append_singleton vh v ih =>
    have hplain' : PlainIds plu vh := fun x hx => hplain x (List.mem_append_left _ hx)
    have hidx' : NoIndexIds vh := fun x hx => hidx x (List.mem_append_left _ hx)
    have hv : inherited plu v.pageId = none := hplain v (by simp)
    have hvi : arrayIndex? v.pageId = none := hidx v (by simp)
    obtain ⟨ihp, ihm⟩ := ih hplain' hidx'
    rw [tally_snoc, selectedIds_snoc]
    by_cases hp : p v = true
    · rw [if_pos hp, if_pos hp, assignPrimitive_of_ne _ _ _ (ne_proto_of_inherited_none hv)]
      have hold : ∀ x, x ∈ selectedIds p vh →
          List.indexOf x (selectedIds p vh ++ [v.pageId]) = List.indexOf x (selectedIds p vh) :=
        fun x hx => List.indexOf_append_of_mem hx
      by_cases hk : v.pageId ∈ JSObject.keys (tally plu p f vh)
      · rw [JSObject.keys_put_own _ _ _ hk]
        refine ⟨ihp.imp_of_mem ?_, fun x => ?_⟩
        · intro a b ha hb hab
          rw [hold a ((ihm a).1 ha), hold b ((ihm b).1 hb)]
          exact hab
        · rw [ihm x, List.mem_append, List.mem_singleton]
          constructor
          · exact Or.inl
          · rintro (h | h)
            · exact h
            · rw [h]; exact (ihm _).1 hk
      · rw [JSObject.keys_put_new _ _ _ hk hvi]
        have hknot : v.pageId ∉ selectedIds p vh := fun h => hk ((ihm _).2 h)
        refine ⟨List.pairwise_append.2 ⟨ihp.imp_of_mem ?_, List.pairwise_singleton _ _, ?_⟩,
          fun x => ?_⟩
        · intro a b ha hb hab
          rw [hold a ((ihm a).1 ha), hold b ((ihm b).1 hb)]
          exact hab
        · intro a ha b hb
          rw [List.mem_singleton] at hb
          subst hb
          rw [hold a ((ihm a).1 ha), List.indexOf_append_of_not_mem hknot,
            List.indexOf_cons_self]
          have := List.indexOf_lt_length.2 ((ihm a).1 ha)
          omega
        · rw [List.mem_append, List.mem_append, ihm x]
    · rw [if_neg hp, if_neg hp, List.append_nil]
      exact ⟨ihp, ihm⟩

/-- C9, as stated, fails: page `2` is seen first and page `1` second, each once, and
`mostViewed` lists page `1` before page `2`. -/
theorem mostViewed_ties_not_first_seen :
    (getPreferencesSummary (worldWith (prefsWithHistory twoThenOne)) ⟨1⟩).mostViewed
      = [{ pageId := "1", views := .num 1 }, { pageId := "2", views := .num 1 }] ∧
    ¬ TiesFirstSeen twoThenOne
      (getPreferencesSummary (worldWith (prefsWithHistory twoThenOne)) ⟨1⟩).mostViewed :=
  ⟨by decide, by decide⟩

/-- C9, amended. When no page identifier of the history is a canonical array index (nor the
name of a property of `Object.prototype`), any two pages with equal view counts appear in
`mostViewed` in the order in which their identifiers first appear in the history. -/
theorem mostViewed_ties_first_seen (w : World) (now : Timestamp)
    (hplain : PlainIds w.protoLastUpdated (loadPreferences w now).prefs.viewHistory)
    (hidx : NoIndexIds (loadPreferences w now).prefs.viewHistory) :
    TiesFirstSeen (loadPreferences w now).prefs.viewHistory
      (getPreferencesSummary w now).mostViewed := by
  unfold TiesFirstSeen
  simp only [getPreferencesSummary, mostViewed]
  rw [List.pairwise_map]
  apply List.Pairwise.sublist (List.take_sublist _ _)
  rw [List.pairwise_iff_forall_sublist]
  intro a b hab hviews
  simp only at hviews
  have hval : (fun e : String × Scalar => e.2.toNumber?) a
      = (fun e : String × Scalar => e.2.toNumber?) b := by
    simp only [hviews]
  have hsub := sortDescending_stable _ _ a b hab hval
  rw [viewCounts_eq_tally] at hsub
  have hkeys : [a.1, b.1].Sublist
      (JSObject.keys (tally w.protoLastUpdated (fun _ => true) (fun _ => 1)
        (loadPreferences w now).prefs.viewHistory)) := by
    have := hsub.map Prod.fst
    simpa [JSObject.keys] using this
  obtain ⟨hord, -⟩ := tally_keys_order w.protoLastUpdated (fun _ => true) (fun _ => 1)
    (loadPreferences w now).prefs.viewHistory hplain hidx
  have hids : selectedIds (fun _ => true) (loadPreferences w now).prefs.viewHistory
      = (loadPreferences w now).prefs.viewHistory.map (fun v => v.pageId) := by
    simp [selectedIds]
  rw [hids] at hord
  exact List.pairwise_iff_forall_sublist.1 hord hkeys

/-- Witness for C9, amended: the pages `z`, `x`, `y` viewed 5, 3 and 3 times, `x` seen before `y`. -/
theorem mostViewed_ties_first_seen_witness :
    (PlainIds (worldWith (prefsWithHistory fiveThreeThree)).protoLastUpdated
        (loadPreferences (worldWith (prefsWithHistory fiveThreeThree)) ⟨1⟩).prefs.viewHistory ∧
      NoIndexIds
        (loadPreferences (worldWith (prefsWithHistory fiveThreeThree)) ⟨1⟩).prefs.viewHistory) ∧
    (getPreferencesSummary (worldWith (prefsWithHistory fiveThreeThree)) ⟨1⟩).mostViewed
      = [{ pageId := "z", views := .num 5 }, { pageId := "x", views := .num 3 },
         { pageId := "y", views := .num 3 }] ∧
    TiesFirstSeen (loadPreferences (worldWith (prefsWithHistory fiveThreeThree)) ⟨1⟩).prefs.viewHistory
      (getPreferencesSummary (worldWith (prefsWithHistory fiveThreeThree)) ⟨1⟩).mostViewed :=
  ⟨⟨by decide, by decide⟩, by decide,
    mostViewed_ties_first_seen (worldWith (prefsWithHistory fiveThreeThree)) ⟨1⟩
      (by decide) (by decide)⟩

/-! ## Ranking by count -/

/-- When every value is a number, the sorted list is in non-increasing order of value. -/
theorem sortDescending_sorted {α : Type} (value : α → Option Int) (l : List α)
    (hnum : ∀ x ∈ l, ∃ n, value x = some n) :
    (sortDescending value l).Pairwise (fun a b => (value b).getD 0 ≤ (value a).getD 0) := by
  have hmap := List.map_insertionSort
    (fun a b => keepsBefore (value a) (value b) = true) (secondDescending (α := α))
    (fun x => (x, (value x).getD 0)) l
    (by
      intro a ha b hb
      obtain ⟨m, hm⟩ := hnum a ha
      obtain ⟨n, hn⟩ := hnum b hb
      simp [keepsBefore, secondDescending, hm, hn])
  have hsorted := List.sorted_insertionSort (secondDescending (α := α))
    (l.map (fun x => (x, (value x).getD 0)))
  rw [← hmap] at hsorted
  exact List.pairwise_map.1 hsorted

theorem selected_all (vh : List ViewRecord) (k : String) :
    selected (fun _ => true) k vh = vh.filter (fun v => decide (v.pageId = k)) := by
  unfold selected
  apply List.filter_congr
  intro v _
  simp

/-- The entries of `viewCounts` for histories without inherited page identifiers. -/
theorem viewCounts_spec (plu : Option Timestamp) (vh : List ViewRecord)
    (hplain : PlainIds plu vh) :
    (∀ x ∈ viewCounts plu vh, x.2 = .num (viewsOf vh x.1) ∧ 0 < viewsOf vh x.1) ∧
      (JSObject.keys (viewCounts plu vh)).Nodup ∧
      ∀ k, k ∈ JSObject.keys (viewCounts plu vh) ↔ k ∈ vh.map (fun v => v.pageId) := by
  obtain ⟨hget, hnd⟩ := tally_spec plu (fun _ => true) (fun _ => 1) vh hplain
  rw [viewCounts_eq_tally]
  have hval : ∀ k, JSObject.get? (tally plu (fun _ => true) (fun _ => 1) vh) k =
      if viewsOf vh k = 0 then none else some (.num (viewsOf vh k)) := by
    intro k
    rw [hget k, selected_all]
    unfold viewsOf
    by_cases h : vh.filter (fun v => decide (v.pageId = k)) = []
    · simp [h]
    · have hlen : (vh.filter (fun v => decide (v.pageId = k))).length ≠ 0 := by
        simpa using h
      rw [if_neg h, if_neg hlen]
      simp
  refine ⟨fun x hx => ?_, hnd, fun k => ?_⟩
  · have := JSObject.get?_of_mem hnd (k := x.1) (v := x.2) hx
    rw [hval] at this
    by_cases h0 : viewsOf vh x.1 = 0
    · rw [if_pos h0] at this; cases this
    · rw [if_neg h0] at this
      exact ⟨(Option.some.inj this).symm, Nat.pos_of_ne_zero h0⟩
  · rw [← not_iff_not, ← JSObject.get?_eq_none_iff, hval]
    unfold viewsOf
    by_cases h : (vh.filter (fun v => decide (v.pageId = k))).length = 0
    · rw [if_pos h]
      simp only [true_iff, List.mem_map, not_exists, not_and]
      intro v hv hk
      have : v ∈ vh.filter (fun v => decide (v.pageId = k)) :=
        List.mem_filter.2 ⟨hv, by simpa using hk⟩
      rw [List.length_eq_zero.1 h] at this
      exact absurd this (List.not_mem_nil _)
    · rw [if_neg h]
      simp only [false_iff, not_not, List.mem_map, reduceCtorEq]
      obtain ⟨v, hv⟩ := List.exists_mem_of_length_pos (Nat.pos_of_ne_zero h)
      have := List.mem_filter.1 hv
      exact ⟨v, this.1, by simpa using this.2⟩

/-- For histories without inherited page identifiers `mostViewed` is as C8 says: it has
`min(5, number of distinct page identifiers)` entries, each with the number of records of its
page as `views`, in non-increasing order of `views`, and no page left out has more views
than a page listed. -/
theorem mostViewed_of_plain_ids (plu : Option Timestamp) (vh : List ViewRecord)
    (hplain : PlainIds plu vh) :
    (mostViewed plu vh).length = min 5 (vh.map (fun v => v.pageId)).dedup.length ∧
    (∀ e ∈ mostViewed plu vh, e.views = .num (viewsOf vh e.pageId)) ∧
    (mostViewed plu vh).Pairwise (fun a b => viewsOf vh b.pageId ≤ viewsOf vh a.pageId) ∧
    (∀ k ∈ vh.map (fun v => v.pageId), k ∉ (mostViewed plu vh).map (fun e => e.pageId) →
      ∀ e ∈ mostViewed plu vh, viewsOf vh k ≤ viewsOf vh e.pageId) := by
  obtain ⟨hval, hnd, hkeys⟩ := viewCounts_spec plu vh hplain
  have hnum : ∀ x ∈ viewCounts plu vh,
      ∃ n, (fun e : String × Scalar => e.2.toNumber?) x = some n :=
    fun x hx => ⟨viewsOf vh x.1, by simp [(hval x hx).1, Scalar.toNumber?]⟩
  have hsorted := sortDescending_sorted (fun e : String × Scalar => e.2.toNumber?)
    (viewCounts plu vh) hnum
  have hmemS : ∀ x, x ∈ sortDescending (fun e : String × Scalar => e.2.toNumber?)
      (viewCounts plu vh) ↔ x ∈ viewCounts plu vh := mem_sortDescending _ _
  have hcount : ∀ x ∈ sortDescending (fun e : String × Scalar => e.2.toNumber?)
      (viewCounts plu vh), (x.2.toNumber?).getD 0 = (viewsOf vh x.1 : Int) := by
    intro x hx
    simp [(hval x ((hmemS x).1 hx)).1, Scalar.toNumber?]
  have hsorted' : (sortDescending (fun e : String × Scalar => e.2.toNumber?)
      (viewCounts plu vh)).Pairwise (fun a b => viewsOf vh b.1 ≤ viewsOf vh a.1) := by
    refine hsorted.imp_of_mem ?_
    intro a b ha hb hab
    simp only at hab
    rw [hcount a ha, hcount b hb] at hab
    exact_mod_cast hab
  refine ⟨?_, ?_, ?_, ?_⟩
  · have hperm : (JSObject.keys (viewCounts plu vh)).Perm (vh.map (fun v => v.pageId)).dedup :=
      (List.perm_ext_iff_of_nodup hnd (List.nodup_dedup _)).2
        (fun k => by rw [hkeys k, List.mem_dedup])
    have hlen : (viewCounts plu vh).length = (vh.map (fun v => v.pageId)).dedup.length := by
      rw [← hperm.length_eq]; simp [JSObject.keys]
    simp only [mostViewed, List.length_map, List.length_take, sortDescending,
      List.length_insertionSort, hlen]
  · intro e he
    simp only [mostViewed, List.mem_map] at he
    obtain ⟨x, hx, rfl⟩ := he
    exact (hval x ((hmemS x).1 (List.mem_of_mem_take hx))).1
  · simp only [mostViewed]
    rw [List.pairwise_map]
    exact List.Pairwise.sublist (List.take_sublist _ _) hsorted'
  · intro k hk hnot e he
    simp only [mostViewed, List.mem_map] at he
    obtain ⟨y, hy, rfl⟩ := he
    have hkE : k ∈ JSObject.keys (viewCounts plu vh) := (hkeys k).2 hk
    obtain ⟨x, hxE, hxk⟩ := List.mem_map.1 hkE
    have hxS := (hmemS x).2 hxE
    rw [← List.take_append_drop 5 (sortDescending (fun e : String × Scalar => e.2.toNumber?)
      (viewCounts plu vh)), List.mem_append] at hxS
    rcases hxS with hxT | hxD
    · exfalso
      apply hnot
      simp only [mostViewed, List.map_map, List.mem_map]
      exact ⟨x, hxT, hxk⟩
    · have := List.Sorted.rel_of_mem_take_of_mem_drop (r := fun a b : String × Scalar =>
        viewsOf vh b.1 ≤ viewsOf vh a.1) hsorted' hy hxD
      rw [← hxk]
      exact this

/-! ## Style updates with plain names -/

theorem JSObject.keys_put_of_get? {α : Type} (o : List (String × α)) (k : String) (v x : α)
    (h : JSObject.get? o k = some x) : JSObject.keys (JSObject.put o k v) = JSObject.keys o := by
  apply JSObject.keys_put_own
  by_contra hc
  rw [(JSObject.get?_eq_none_iff o k).2 hc] at h
  cases h

theorem applyStyle_own_label (plu : Option Timestamp) {sp : List (String × JSObject Scalar)}
    {category value : String} (weight : Int) {cat : JSObject Scalar} {s : Scalar}
    (hcat : JSObject.get? sp category = some cat) (hlab : JSObject.get? cat value = some s) :
    applyStyle plu sp category value weight =
      some (JSObject.put sp category (JSObject.put cat value (s.add weight))) := by
  simp [applyStyle, styleStep, hcat, hlab, HostLog.intact, HostLog.empty]

theorem applyStyle_plain_label (plu : Option Timestamp) {sp : List (String × JSObject Scalar)}
    {category value : String} (weight : Int) {cat : JSObject Scalar}
    (hcat : JSObject.get? sp category = some cat) (hlab : JSObject.get? cat value = none)
    (hv : inherited plu value = none) :
    applyStyle plu sp category value weight = some sp := by
  simp [applyStyle, styleStep, hcat, hlab, protoMember, hv, HostLog.intact, HostLog.empty]

theorem applyStyle_plain_category (plu : Option Timestamp)
    {sp : List (String × JSObject Scalar)} {category : String} (value : String) (weight : Int)
    (hcat : JSObject.get? sp category = none) (hc : inherited plu category = none) :
    applyStyle plu sp category value weight = some sp := by
  simp [applyStyle, styleStep, hcat, protoMember, hc, hostStep, HostLog.intact, HostLog.empty]

/-- One loop iteration on plain names: the only possible effect is to add `weight` to the
score of an own label of an own category. -/
theorem applyStyle_plain (plu : Option Timestamp) (sp : JSObject (JSObject Scalar))
    (category value : String) (weight : Int)
    (hc : inherited plu category = none) (hv : inherited plu value = none) :
    ∃ sp', applyStyle plu sp category value weight = some sp' ∧
      JSObject.keys sp' = JSObject.keys sp ∧
      (∀ c, labelsOf sp' c = labelsOf sp c) ∧
      ∀ c l, score sp' c l =
        if c = category ∧ l = value then (score sp c l).map (fun s => s.add weight)
        else score sp c l := by
  cases hcat : JSObject.get? sp category with
  | none =>
    have happ : applyStyle plu sp category value weight = some sp :=
      applyStyle_plain_category plu value weight hcat hc
    refine ⟨sp, happ, rfl, fun c => rfl, fun c l => ?_⟩
    by_cases h : c = category ∧ l = value
    · rw [if_pos h, h.1]
      simp [score, hcat]
    · rw [if_neg h]
  | some cat =>
    cases hlab : JSObject.get? cat value with
    | none =>
      have happ : applyStyle plu sp category value weight = some sp :=
        applyStyle_plain_label plu weight hcat hlab hv
      refine ⟨sp, happ, rfl, fun c => rfl, fun c l => ?_⟩
      by_cases h : c = category ∧ l = value
      · rw [if_pos h, h.1, h.2]
        simp [score, hcat, hlab]
      · rw [if_neg h]
    | some s =>
      have happ : applyStyle plu sp category value weight =
          some (JSObject.put sp category (JSObject.put cat value (s.add weight))) :=
        applyStyle_own_label plu weight hcat hlab
      refine ⟨_, happ, JSObject.keys_put_of_get? sp category _ cat hcat, fun c => ?_,
        fun c l => ?_⟩
      · unfold labelsOf
        rw [JSObject.get?_put]
        by_cases h : c = category
        · rw [if_pos h, h, hcat]
          simp [JSObject.keys_put_of_get? cat value _ s hlab]
        · rw [if_neg h]
      · unfold score
        rw [JSObject.get?_put]
        by_cases h : c = category
        · subst h
          rw [if_pos rfl, hcat]
          show JSObject.get? (JSObject.put cat value (s.add weight)) l =
            if c = c ∧ l = value then Option.map (fun s => s.add weight) (JSObject.get? cat l)
            else JSObject.get? cat l
          rw [JSObject.get?_put]
          by_cases h2 : l = value
          · subst h2; simp [hlab]
          · simp [h2]
        · simp [h]

/-- On plain names `updateStylePreferences` returns, creates no category and no label, and
changes a score only by adding `weight` for each pair of `styles` that names it. -/
theorem updateStylePreferences_plain (plu : Option Timestamp) (styles : List (String × String))
    (weight : Int) (hplain : PlainStyles plu styles) :
    ∀ sp : JSObject (JSObject Scalar),
      ∃ sp', updateStylePreferences plu sp styles weight = some sp' ∧
        JSObject.keys sp' = JSObject.keys sp ∧
        (∀ c, labelsOf sp' c = labelsOf sp c) ∧
        ∀ c l, score sp' c l = (score sp c l).map (fun s => addEach styles c l weight s) := by
  induction styles with
  | nil =>
    intro sp
    exact ⟨sp, rfl, rfl, fun c => rfl, fun c l => by simp [addEach]⟩
  | cons e rest ih =>
    intro sp
    obtain ⟨category, value⟩ := e
    have he := hplain (category, value) (List.mem_cons_self _ _)
    obtain ⟨sp1, h1, hk1, hl1, hs1⟩ := applyStyle_plain plu sp category value weight he.1 he.2
    obtain ⟨sp2, h2, hk2, hl2, hs2⟩ :=
      ih (fun x hx => hplain x (List.mem_cons_of_mem _ hx)) sp1
    refine ⟨sp2, ?_, hk2.trans hk1, fun c => (hl2 c).trans (hl1 c), fun c l => ?_⟩
    · simp only [updateStylePreferences, h1]
      exact h2
    · rw [hs2, hs1]
      by_cases h : c = category ∧ l = value
      · rw [if_pos h, Option.map_map]
        congr 1
        funext s
        obtain ⟨rfl, rfl⟩ := h
        simp [addEach, List.filter]
      · rw [if_neg h]
        congr 1
        funext s
        have hne : ¬ ((category, value) = (c, l)) := by
          intro e
          exact h ⟨(Prod.mk.inj e).1.symm, (Prod.mk.inj e).2.symm⟩
        simp [addEach, List.filter, hne]

/-! ## Score accumulation with plain page identifiers -/

theorem applyLiked_stylePreferences (k : Work) (pageId : String) (liked : Option Bool) :
    (applyLiked k pageId liked).prefs.stylePreferences = k.prefs.stylePreferences := by
  rcases liked with _ | _ | _ <;> simp only [applyLiked]
  · split <;> rfl
  · split <;> rfl

theorem resolveFeedback_plain (plu : Option Timestamp) (k : Work) (pageId : String)
    (h : inherited plu pageId = none) :
    ∃ k' e, resolveFeedback plu k pageId = (k', .own e) ∧
      k'.prefs.stylePreferences = k.prefs.stylePreferences := by
  unfold resolveFeedback
  cases hget : JSObject.get? k.prefs.pageFeedback pageId with
  | some e => exact ⟨k, e, rfl, rfl⟩
  | none => simp only [h]; exact ⟨_, _, rfl, rfl⟩

/-- One update of an own label of an own category. -/
theorem applyStyle_own (plu : Option Timestamp) (sp : JSObject (JSObject Scalar))
    (c l : String) (weight : Int) (s : Scalar) (hs : score sp c l = some s) :
    ∃ sp', applyStyle plu sp c l weight = some sp' ∧ score sp' c l = some (s.add weight) := by
  unfold score at hs
  cases hcat : JSObject.get? sp c with
  | none => rw [hcat] at hs; cases hs
  | some cat =>
    rw [hcat] at hs
    have hlab : JSObject.get? cat l = some s := hs
    refine ⟨JSObject.put sp c (JSObject.put cat l (s.add weight)), ?_, ?_⟩
    · exact applyStyle_own_label plu weight hcat hlab
    · unfold score
      rw [JSObject.get?_put, if_pos rfl]
      show JSObject.get? (JSObject.put cat l (s.add weight)) l = _
      rw [JSObject.get?_put, if_pos rfl]

theorem HostLog.eq_empty_of_intact {log : HostLog} (h : log.intact = true) :
    log = HostLog.empty := by
  obtain ⟨proto, fnOwn⟩ := log
  simp only [HostLog.intact, Bool.and_eq_true, List.isEmpty_iff] at h
  simp [HostLog.empty, h.1, h.2]

/-- An iteration for which `applyStyle` has a result completes and leaves built-in objects
as they are. -/
theorem styleStep_of_applyStyle {plu : Option Timestamp} {sp sp' : JSObject (JSObject Scalar)}
    {category value : String} {weight : Int}
    (h : applyStyle plu sp category value weight = some sp') :
    styleStep plu HostLog.empty sp category value weight = .completed sp' HostLog.empty := by
  unfold applyStyle at h
  cases hstep : styleStep plu HostLog.empty sp category value weight with
  | raised sp1 log => rw [hstep] at h; cases h
  | completed sp1 log =>
    rw [hstep] at h
    simp only at h
    by_cases hi : log.intact = true
    · rw [if_pos hi] at h
      cases h
      rw [HostLog.eq_empty_of_intact hi]
    · rw [if_neg hi] at h
      cases h

/-- A loop for which `updateStylePreferences` has a result completes and leaves built-in
objects as they are. -/
theorem styleLoop_of_updateStylePreferences (plu : Option Timestamp)
    (styles : List (String × String)) (weight : Int) :
    ∀ sp sp' : JSObject (JSObject Scalar),
      updateStylePreferences plu sp styles weight = some sp' →
      styleLoop plu HostLog.empty sp styles weight = .completed sp' HostLog.empty := by
  induction styles with
  | nil =>
    intro sp sp' h
    simp only [updateStylePreferences] at h
    cases h
    rfl
  | cons e rest ih =>
    intro sp sp' h
    obtain ⟨category, value⟩ := e
    simp only [updateStylePreferences] at h
    cases happ : applyStyle plu sp category value weight with
    | none => rw [happ] at h; cases h
    | some sp1 =>
      rw [happ] at h
      simp only [styleLoop, styleStep_of_applyStyle happ]
      exact ih sp1 sp' h

theorem applyStyles_of_updateStylePreferences (plu : Option Timestamp) (k : Work)
    (feedback : Feedback) (styles : List (String × String)) (sp' : JSObject (JSObject Scalar))
    (hst : feedback.styles = some styles)
    (h : updateStylePreferences plu k.prefs.stylePreferences styles
      (styleWeight feedback.liked) = some sp') :
    applyStyles plu k feedback =
      { work := k.mutStylePreferences sp', raised := false, log := HostLog.empty } := by
  unfold applyStyles
  rw [hst]
  simp only [styleLoop_of_updateStylePreferences plu styles _ _ _ h]

theorem applyStyles_styled (plu : Option Timestamp) (k : Work) (liked : Option Bool)
    (c l : String) (sp' : JSObject (JSObject Scalar))
    (h : applyStyle plu k.prefs.stylePreferences c l (styleWeight liked) = some sp') :
    applyStyles plu k (styledFeedback liked c l) =
      { work := k.mutStylePreferences sp', raised := false, log := HostLog.empty } := by
  apply applyStyles_of_updateStylePreferences plu k (styledFeedback liked c l) [(c, l)] sp' rfl
  show updateStylePreferences plu k.prefs.stylePreferences [(c, l)] (styleWeight liked) = _
  simp only [updateStylePreferences, h]

theorem Styled.outcome_intact (s : Styled) (h : s.log = HostLog.empty) (raised : Bool)
    (w : World) : s.outcome raised w = if raised = true then .threw w else .returned w := by
  unfold Styled.outcome
  rw [h]
  cases raised <;> rfl

/-- One call `recordFeedback(pageId, {liked: b, styles: {c: l}})` for a page identifier that is
not the name of a property of `Object.prototype`, on a stored state in which `(c, l)` has the
numeric score `s`: the call returns and persists the score `s + 1` or `s - 1`. -/
theorem recordFeedback_styled_plain (w : World) (p : Prefs) (pageId c l : String) (b : Bool)
    (now : Timestamp) (s : Int) (hw : w.writable = true) (hslot : w.slot = .current p)
    (hs : score p.stylePreferences c l = some (.num s))
    (hplain : inherited w.protoLastUpdated pageId = none) :
    ∃ w' p', recordFeedback w pageId (styledFeedback (some b) c l) now = .returned w' ∧
      w'.slot = .current p' ∧ w'.writable = true ∧
      w'.protoLastUpdated = w.protoLastUpdated ∧
      score p'.stylePreferences c l = some (.num (s + if b = true then 1 else -1)) := by
  obtain ⟨k', e, hres, hsp⟩ :=
    resolveFeedback_plain w.protoLastUpdated (loadPreferences w now) pageId hplain
  rw [loadPreferences_current now hslot] at hsp
  obtain ⟨sp', happ, hscore⟩ := applyStyle_own w.protoLastUpdated p.stylePreferences c l
    (styleWeight (some b)) (.num s) hs
  have hweight : styleWeight (some b) = if b = true then 1 else -1 := by
    cases b <;> rfl
  have key : ∃ k : Work,
      recordFeedback w pageId (styledFeedback (some b) c l) now
        = .returned (savePreferences w k now) ∧
      k.prefs.stylePreferences = sp' := by
    have hst := applyStyles_styled w.protoLastUpdated
      (applyLiked (k'.mutPageFeedback (k'.prefs.pageFeedback.put pageId
        (logFeedback e (styledFeedback (some b) c l) now))) pageId (some b)) (some b) c l sp'
      (by
        rw [applyLiked_stylePreferences]
        show applyStyle w.protoLastUpdated k'.prefs.stylePreferences c l _ = _
        rw [hsp]
        exact happ)
    unfold recordFeedback
    rw [hres]
    simp only []
    have hl : (styledFeedback (some b) c l).liked = some b := rfl
    rw [hl, hst]
    exact ⟨_, rfl, rfl⟩
  obtain ⟨k, hk, hksp⟩ := key
  refine ⟨_, { k.prefs with updated := now }, hk, ?_, hw, rfl, ?_⟩
  · simp only [savePreferences, hw, if_true]
  · show score k.prefs.stylePreferences c l = _
    rw [hksp, hscore, hweight]
    rfl

/-- Score accumulation for page identifiers that are not names of properties of
`Object.prototype`: from a stored state in which `(c, l)` has the numeric score `s`, every
sequence of such calls returns and persists `s` plus the number of likes minus the number
of dislikes. -/
theorem score_accumulation_plain (c l : String) (calls : List LikeCall) :
    ∀ (w : World) (p : Prefs) (s : Int), w.writable = true → w.protoLastUpdated = none →
      w.slot = .current p → score p.stylePreferences c l = some (.num s) →
      (∀ call ∈ calls, inherited none call.pageId = none) →
      ∃ w' p', recordLikes c l w calls = some w' ∧ w'.slot = .current p' ∧
        score p'.stylePreferences c l =
          some (.num (s + (calls.filter (fun call => call.liked)).length
            - (calls.filter (fun call => !call.liked)).length)) := by
  induction calls with
  | nil =>
    intro w p s _ _ hslot hs _
    exact ⟨w, p, rfl, hslot, by simpa using hs⟩
  | cons call calls ih =>
    intro w p s hw hhost hslot hs hplain
    have hcall : inherited w.protoLastUpdated call.pageId = none := by
      rw [hhost]; exact hplain call (List.mem_cons_self _ _)
    obtain ⟨w1, p1, h1, hslot1, hw1, hhost1, hs1⟩ :=
      recordFeedback_styled_plain w p call.pageId c l call.liked call.time s hw hslot hs hcall
    obtain ⟨w', p', h2, hslot2, hs2⟩ := ih w1 p1 _ hw1 (hhost1.trans hhost) hslot1 hs1
      (fun x hx => hplain x (List.mem_cons_of_mem _ hx))
    refine ⟨w', p', ?_, hslot2, ?_⟩
    · simp only [recordLikes, h1]
      exact h2
    · rw [hs2]
      congr 2
      cases hb : call.liked <;> simp [List.filter, hb] <;> omega

/-! ## Ranking by average duration -/

theorem mem_keys_assignPrimitive {α : Type} (o : List (String × α)) (k k' : String) (v : α)
    (h : k ∈ JSObject.keys o) : k ∈ JSObject.keys (assignPrimitive o k' v) := by
  have hput : k ∈ JSObject.keys (JSObject.put o k' v) := by
    rw [(JSObject.keys_put_perm o k' v).mem_iff]
    split
    · exact h
    · exact List.mem_cons_of_mem _ h
  unfold assignPrimitive
  split
  · exact hput
  · split
    · exact h
    · exact hput

theorem mem_keys_assignPrimitive_self {α : Type} (o : List (String × α)) (k : String) (v : α)
    (hk : k ≠ "__proto__") : k ∈ JSObject.keys (assignPrimitive o k v) := by
  rw [assignPrimitive_of_ne o k v hk, (JSObject.keys_put_perm o k v).mem_iff]
  split
  · assumption
  · exact List.mem_cons_self _ _

/-- Every key assigned by the loop is a key of the object it builds. -/
theorem mem_keys_foldl_assignPrimitive {α β : Type} (g : String × α → β)
    (l : List (String × α)) :
    ∀ (acc : List (String × β)) (k : String),
      (k ∈ JSObject.keys acc ∨ ∃ e ∈ l, e.1 = k ∧ k ≠ "__proto__") →
      k ∈ JSObject.keys (l.foldl (fun avg e => assignPrimitive avg e.1 (g e)) acc) := by
  induction l with
  | nil =>
    intro acc k h
    rcases h with h | ⟨e, he, -⟩
    · exact h
    · simp at he
  | cons e rest ih =>
    intro acc k h
    apply ih
    rcases h with h | ⟨e', he', hk, hp⟩
    · exact Or.inl (mem_keys_assignPrimitive acc k e.1 (g e) h)
    · rcases List.mem_cons.1 he' with h1 | h1
      · subst h1
        subst hk
        exact Or.inl (mem_keys_assignPrimitive_self acc _ (g e') hp)
      · exact Or.inr ⟨e', h1, hk, hp⟩

/-- When the keys assigned are new, distinct, and not array indices, the object built has
them in the order of assignment. -/
theorem keys_foldl_assignPrimitive_new {α β : Type} (g : String × α → β)
    (l : List (String × α)) :
    ∀ acc : List (String × β), (JSObject.keys l).Nodup →
      (∀ e ∈ l, e.1 ≠ "__proto__" ∧ arrayIndex? e.1 = none ∧ e.1 ∉ JSObject.keys acc) →
      JSObject.keys (l.foldl (fun avg e => assignPrimitive avg e.1 (g e)) acc)
        = JSObject.keys acc ++ JSObject.keys l := by
  induction l with
  | nil => intro acc _ _; simp [JSObject.keys]
  | cons e rest ih =>
    intro acc hnd h
    obtain ⟨hp, hi, hacc⟩ := h e (List.mem_cons_self _ _)
    simp only [JSObject.keys, List.map_cons, List.nodup_cons] at hnd
    have hstep : JSObject.keys (assignPrimitive acc e.1 (g e)) = JSObject.keys acc ++ [e.1] := by
      rw [assignPrimitive_of_ne acc e.1 (g e) hp]
      exact JSObject.keys_put_new acc e.1 (g e) hacc hi
    rw [List.foldl_cons, ih _ hnd.2, hstep]
    · simp [JSObject.keys]
    · intro e' he'
      obtain ⟨hp', hi', hacc'⟩ := h e' (List.mem_cons_of_mem _ he')
      refine ⟨hp', hi', ?_⟩
      rw [hstep, List.mem_append, List.mem_singleton]
      rintro (h1 | h1)
      · exact hacc' h1
      · exact hnd.1 (h1 ▸ List.mem_map.2 ⟨e', he', rfl⟩)

theorem exists_view_of_positiveViews {vh : List ViewRecord} {k : String}
    (h : positiveViews vh k ≠ []) : ∃ v ∈ vh, v.pageId = k := by
  obtain ⟨v, hv⟩ := List.exists_mem_of_ne_nil _ h
  have := List.mem_filter.1 hv
  exact ⟨v, this.1, (by simpa using this.2 : v.pageId = k ∧ 0 < v.duration).1⟩

/-- Every page with a record of positive duration has an entry in `avgDurations`. -/
theorem mem_keys_avgDurations (plu : Option Timestamp) (vh : List ViewRecord)
    (hplain : PlainIds plu vh) (k : String) (hk : positiveViews vh k ≠ []) :
    k ∈ JSObject.keys (avgDurations plu vh) := by
  obtain ⟨v, hv, hvk⟩ := exists_view_of_positiveViews hk
  have hp : k ≠ "__proto__" := hvk ▸ ne_proto_of_inherited_none (hplain v hv)
  have hget := (tally_spec plu (fun v => decide (v.duration > 0)) (fun v => v.duration) vh
    hplain).1 k
  rw [selected_positive, if_neg hk] at hget
  have hmem := JSObject.mem_of_get? hget
  rw [← durationSums_eq_tally] at hmem
  unfold avgDurations
  exact mem_keys_foldl_assignPrimitive _ _ [] k (Or.inr ⟨_, hmem, rfl, hp⟩)

/-- Without array-index identifiers, `avgDurations` enumerates the pages in the order of
`durationSums`. -/
theorem keys_avgDurations (plu : Option Timestamp) (vh : List ViewRecord)
    (hplain : PlainIds plu vh) (hidx : NoIndexIds vh) :
    JSObject.keys (avgDurations plu vh)
      = JSObject.keys (tally plu (fun v => decide (v.duration > 0)) (fun v => v.duration) vh) := by
  obtain ⟨-, hnd⟩ := tally_spec plu (fun v => decide (v.duration > 0)) (fun v => v.duration) vh
    hplain
  obtain ⟨-, hmem⟩ := tally_keys_order plu (fun v => decide (v.duration > 0))
    (fun v => v.duration) vh hplain hidx
  unfold avgDurations
  rw [durationSums_eq_tally, keys_foldl_assignPrimitive_new _ _ [] hnd]
  · simp [JSObject.keys]
  · intro e he
    have hk : e.1 ∈ selectedIds (fun v => decide (v.duration > 0)) vh :=
      (hmem e.1).1 (List.mem_map.2 ⟨e, he, rfl⟩)
    simp only [selectedIds, List.mem_map] at hk
    obtain ⟨v, hv, hvk⟩ := hk
    have hv' := (List.mem_filter.1 hv).1
    refine ⟨hvk ▸ ne_proto_of_inherited_none (hplain v hv'), hvk ▸ hidx v hv', ?_⟩
    simp [JSObject.keys]

/-- For histories without inherited page identifiers `longestViewed` ranks by the rounded
mean: at most five entries, each with the rounded mean of its page, in non-increasing order
of it, and no page left out has a larger rounded mean than a page listed. -/
theorem longestViewed_of_plain_ids (plu : Option Timestamp) (vh : List ViewRecord)
    (hplain : PlainIds plu vh) :
    (longestViewed plu vh).length ≤ 5 ∧
    (∀ e ∈ longestViewed plu vh, e.avgDuration = some (roundedMean vh e.pageId)) ∧
    (longestViewed plu vh).Pairwise
      (fun a b => roundedMean vh b.pageId ≤ roundedMean vh a.pageId) ∧
    (∀ k, positiveViews vh k ≠ [] → k ∉ (longestViewed plu vh).map (fun e => e.pageId) →
      ∀ e ∈ longestViewed plu vh, roundedMean vh k ≤ roundedMean vh e.pageId) := by
  have hval : ∀ x ∈ avgDurations plu vh, x.2 = some (roundedMean vh x.1) :=
    fun x hx => (avgDurations_spec plu vh hplain x hx).2
  have hnum : ∀ x ∈ avgDurations plu vh,
      ∃ n, (fun e : String × Option Int => e.2) x = some n :=
    fun x hx => ⟨_, hval x hx⟩
  have hsorted := sortDescending_sorted (fun e : String × Option Int => e.2)
    (avgDurations plu vh) hnum
  have hmemS : ∀ x, x ∈ sortDescending (fun e : String × Option Int => e.2)
      (avgDurations plu vh) ↔ x ∈ avgDurations plu vh := mem_sortDescending _ _
  have hsorted' : (sortDescending (fun e : String × Option Int => e.2)
      (avgDurations plu vh)).Pairwise (fun a b => roundedMean vh b.1 ≤ roundedMean vh a.1) := by
    refine hsorted.imp_of_mem ?_
    intro a b ha hb hab
    simp only at hab
    rw [hval a ((hmemS a).1 ha), hval b ((hmemS b).1 hb)] at hab
    simpa using hab
  refine ⟨?_, ?_, ?_, ?_⟩
  · simp only [longestViewed, List.length_map]
    exact List.length_take_le _ _
  · intro e he
    simp only [longestViewed, List.mem_map] at he
    obtain ⟨x, hx, rfl⟩ := he
    exact hval x ((hmemS x).1 (List.mem_of_mem_take hx))
  · simp only [longestViewed]
    rw [List.pairwise_map]
    exact List.Pairwise.sublist (List.take_sublist _ _) hsorted'
  · intro k hk hnot e he
    simp only [longestViewed, List.mem_map] at he
    obtain ⟨y, hy, rfl⟩ := he
    obtain ⟨x, hxE, hxk⟩ := List.mem_map.1 (mem_keys_avgDurations plu vh hplain k hk)
    have hxS := (hmemS x).2 hxE
    rw [← List.take_append_drop 5 (sortDescending (fun e : String × Option Int => e.2)
      (avgDurations plu vh)), List.mem_append] at hxS
    rcases hxS with hxT | hxD
    · exfalso
      apply hnot
      simp only [longestViewed, List.map_map, List.mem_map]
      exact ⟨x, hxT, hxk⟩
    · have := List.Sorted.rel_of_mem_take_of_mem_drop (r := fun a b : String × Option Int =>
        roundedMean vh b.1 ≤ roundedMean vh a.1) hsorted' hy hxD
      rw [← hxk]
      exact this

/-- Without array-index identifiers, two pages of `longestViewed` with the same average are
in the order of their first record of positive duration. -/
theorem longestViewed_ties (plu : Option Timestamp) (vh : List ViewRecord)
    (hplain : PlainIds plu vh) (hidx : NoIndexIds vh) :
    (longestViewed plu vh).Pairwise (fun a b => a.avgDuration = b.avgDuration →
      List.indexOf a.pageId (positiveIds vh) < List.indexOf b.pageId (positiveIds vh)) := by
  simp only [longestViewed]
  rw [List.pairwise_map]
  apply List.Pairwise.sublist (List.take_sublist _ _)
  rw [List.pairwise_iff_forall_sublist]
  intro a b hab hv
  simp only at hv
  have hsub := sortDescending_stable (fun e : String × Option Int => e.2) _ a b hab hv
  have hkeys : [a.1, b.1].Sublist (JSObject.keys (avgDurations plu vh)) := by
    have := hsub.map Prod.fst
    simpa [JSObject.keys] using this
  rw [keys_avgDurations plu vh hplain hidx] at hkeys
  obtain ⟨hord, -⟩ := tally_keys_order plu (fun v => decide (v.duration > 0))
    (fun v => v.duration) vh hplain hidx
  exact List.pairwise_iff_forall_sublist.1 hord hkeys

theorem roundedMean_eq_floor (vh : List ViewRecord) (k : String)
    (hne : positiveViews vh k ≠ []) :
    roundedMean vh k = ⌊meanPositiveDuration vh k + 1 / 2⌋ := by
  have hlen : (0 : Int) < ((positiveViews vh k).length : Int) := by
    have := List.length_pos.2 hne
    exact_mod_cast this
  unfold roundedMean
  rw [roundHalfUp_eq_floor _ _ hlen]
  unfold meanPositiveDuration
  push_cast
  rw [List.map_map]
  rfl

/-- C11, as stated, fails twice. With page `a` viewed for 1 second and page `b` for 1, 2 and
1 seconds, `b` has the larger mean (`4/3` against `1`) and is listed after `a`: both averages
round to 1. With page `a` first viewed without a duration, then `b` and `a` for 5 seconds,
the means are equal and `b` is listed first although `a` appears first in the history. -/
theorem longestViewed_not_ordered_by_mean :
    ((getPreferencesSummary (worldWith (prefsWithHistory closeMeans)) ⟨1⟩).longestViewed
        = [{ pageId := "a", avgDuration := some 1 }, { pageId := "b", avgDuration := some 1 }] ∧
      ¬ LargerMeanFirst closeMeans
        (getPreferencesSummary (worldWith (prefsWithHistory closeMeans)) ⟨1⟩).longestViewed) ∧
    ((getPreferencesSummary (worldWith (prefsWithHistory zeroThenFive)) ⟨1⟩).longestViewed
        = [{ pageId := "b", avgDuration := some 5 }, { pageId := "a", avgDuration := some 5 }] ∧
      ¬ MeanTiesFirstSeen zeroThenFive
        (getPreferencesSummary (worldWith (prefsWithHistory zeroThenFive)) ⟨1⟩).longestViewed) := by
  have h1 : (getPreferencesSummary (worldWith (prefsWithHistory closeMeans)) ⟨1⟩).longestViewed
      = [{ pageId := "a", avgDuration := some 1 }, { pageId := "b", avgDuration := some 1 }] := by
    decide
  have h2 : (getPreferencesSummary (worldWith (prefsWithHistory zeroThenFive)) ⟨1⟩).longestViewed
      = [{ pageId := "b", avgDuration := some 5 }, { pageId := "a", avgDuration := some 5 }] := by
    decide
  have ma : meanPositiveDuration closeMeans "a" = 1 := by
    have hp : positiveViews closeMeans "a" = [view "a" 1] := by decide
    unfold meanPositiveDuration
    rw [hp]
    norm_num [view]
  have mb : meanPositiveDuration closeMeans "b" = 4 / 3 := by
    have hp : positiveViews closeMeans "b" = [view "b" 1, view "b" 2, view "b" 1] := by decide
    unfold meanPositiveDuration
    rw [hp]
    norm_num [view]
  have za : meanPositiveDuration zeroThenFive "a" = 5 := by
    have hp : positiveViews zeroThenFive "a" = [view "a" 5] := by decide
    unfold meanPositiveDuration
    rw [hp]
    norm_num [view]
  have zb : meanPositiveDuration zeroThenFive "b" = 5 := by
    have hp : positiveViews zeroThenFive "b" = [view "b" 5] := by decide
    unfold meanPositiveDuration
    rw [hp]
    norm_num [view]
  refine ⟨⟨h1, ?_⟩, ⟨h2, ?_⟩⟩
  · rw [h1]
    unfold LargerMeanFirst
    intro h
    have := List.rel_of_pairwise_cons h (List.mem_singleton_self _)
    apply this
    show meanPositiveDuration closeMeans "a" < meanPositiveDuration closeMeans "b"
    rw [ma, mb]
    norm_num
  · rw [h2]
    unfold MeanTiesFirstSeen
    intro h
    have := List.rel_of_pairwise_cons h (List.mem_singleton_self _)
    have hlt := this (show meanPositiveDuration zeroThenFive "b"
      = meanPositiveDuration zeroThenFive "a" by rw [za, zb])
    revert hlt
    decide

/-- C11, amended. When no page identifier of the history is the name of a property of
`Object.prototype`, `longestViewed` lists at most 5 pages, each with the mean of its
positive durations rounded to the nearest integer (halves upwards) as `avgDuration`, in
non-increasing order of that rounded mean; a page with a record of positive duration that is
left out never has a larger rounded mean than a page listed; and when no identifier is a
canonical array index, listed pages with equal `avgDuration` are in the order of their first
record of positive duration. -/
theorem longestViewed_ranked_by_rounded_mean (w : World) (now : Timestamp)
    (hplain : PlainIds w.protoLastUpdated (loadPreferences w now).prefs.viewHistory) :
    (getPreferencesSummary w now).longestViewed.length ≤ 5 ∧
    (∀ e ∈ (getPreferencesSummary w now).longestViewed,
      e.avgDuration = some (roundedMean (loadPreferences w now).prefs.viewHistory e.pageId) ∧
      roundedMean (loadPreferences w now).prefs.viewHistory e.pageId =
        ⌊meanPositiveDuration (loadPreferences w now).prefs.viewHistory e.pageId + 1 / 2⌋) ∧
    (getPreferencesSummary w now).longestViewed.Pairwise
      (fun a b => roundedMean (loadPreferences w now).prefs.viewHistory b.pageId ≤
        roundedMean (loadPreferences w now).prefs.viewHistory a.pageId) ∧
    (∀ k, positiveViews (loadPreferences w now).prefs.viewHistory k ≠ [] →
      k ∉ (getPreferencesSummary w now).longestViewed.map (fun e => e.pageId) →
      ∀ e ∈ (getPreferencesSummary w now).longestViewed,
        roundedMean (loadPreferences w now).prefs.viewHistory k ≤
          roundedMean (loadPreferences w now).prefs.viewHistory e.pageId) ∧
    (NoIndexIds (loadPreferences w now).prefs.viewHistory →
      (getPreferencesSummary w now).longestViewed.Pairwise
        (fun a b => a.avgDuration = b.avgDuration →
          List.indexOf a.pageId (positiveIds (loadPreferences w now).prefs.viewHistory) <
            List.indexOf b.pageId (positiveIds (loadPreferences w now).prefs.viewHistory))) := by
  obtain ⟨h1, h2, h3, h4⟩ :=
    longestViewed_of_plain_ids w.protoLastUpdated (loadPreferences w now).prefs.viewHistory hplain
  refine ⟨h1, fun e he => ⟨h2 e he, ?_⟩, h3, h4,
    fun hidx => longestViewed_ties _ _ hplain hidx⟩
  have he' := he
  simp only [getPreferencesSummary, longestViewed, List.mem_map] at he'
  obtain ⟨x, hx, rfl⟩ := he'
  have hx' := (mem_sortDescending _ _ x).1 (List.mem_of_mem_take hx)
  exact roundedMean_eq_floor _ _ (avgDurations_spec _ _ hplain x hx').1

/-- Witness for C11, amended: page `a` viewed for 1 second, page `b` for 1, 2 and 1 seconds. -/
theorem longestViewed_ranked_by_rounded_mean_witness :
    PlainIds (worldWith (prefsWithHistory closeMeans)).protoLastUpdated
      (loadPreferences (worldWith (prefsWithHistory closeMeans)) ⟨1⟩).prefs.viewHistory ∧
    (getPreferencesSummary (worldWith (prefsWithHistory closeMeans)) ⟨1⟩).longestViewed.length
      ≤ 5 ∧
    (getPreferencesSummary (worldWith (prefsWithHistory closeMeans)) ⟨1⟩).longestViewed.Pairwise
      (fun a b =>
        roundedMean (loadPreferences (worldWith (prefsWithHistory closeMeans)) ⟨1⟩).prefs.viewHistory
            b.pageId ≤
          roundedMean (loadPreferences (worldWith (prefsWithHistory closeMeans)) ⟨1⟩).prefs.viewHistory
            a.pageId) :=
  ⟨by decide,
    (longestViewed_ranked_by_rounded_mean (worldWith (prefsWithHistory closeMeans)) ⟨1⟩
      (by decide)).1,
    (longestViewed_ranked_by_rounded_mean (worldWith (prefsWithHistory closeMeans)) ⟨1⟩
      (by decide)).2.2.1⟩

/-! ## Top style per category -/

/-- The sort keeps the elements of any one value in their order. -/
theorem sortDescending_filter_eq {α : Type} (value : α → Option Int) (l : List α)
    (v : Option Int) :
    (sortDescending value l).filter (fun x => decide (value x = v))
      = l.filter (fun x => decide (value x = v)) := by
  have hPc : ∀ x ∈ l.filter (fun x => decide (value x = v)), value x = v := by
    intro x hx
    simpa using (List.mem_filter.1 hx).2
  have hpair : (l.filter (fun x => decide (value x = v))).Pairwise
      (fun x y => keepsBefore (value x) (value y) = true) := by
    apply List.pairwise_of_forall_mem_list
    intro x hx y hy
    rw [hPc x hx, hPc y hy]
    exact keepsBefore_self _
  have hsub : (l.filter (fun x => decide (value x = v))).Sublist (sortDescending value l) :=
    List.sublist_insertionSort hpair (List.filter_sublist l)
  have hsub2 := hsub.filter (fun x => decide (value x = v))
  rw [List.filter_filter] at hsub2
  simp only [Bool.and_self] at hsub2
  have hlen : (l.filter (fun x => decide (value x = v))).length
      = ((sortDescending value l).filter (fun x => decide (value x = v))).length :=
    ((List.perm_insertionSort _ l).filter _).length_eq.symm
  exact (hsub2.eq_of_length hlen).symm

theorem topStyles_eq (sp : List (String × JSObject Scalar)) :
    topStyles sp = sp.foldl
      (fun top entry => (topLabel entry.2).elim top (fun l => assignPrimitive top entry.1 l))
      [] := by
  unfold topStyles
  congr 1
  funext top entry
  unfold topLabel
  generalize sortDescending (fun e : String × Scalar => e.2.toNumber?) entry.2 = s
  cases s with
  | nil => rfl
  | cons h t =>
    obtain ⟨label, score⟩ := h
    cases hpos : score.isPositive <;> simp [hpos]

theorem get?_assignPrimitive_of_ne {α : Type} (o : List (String × α)) (k k' : String) (v : α)
    (h : k' ≠ k) : JSObject.get? (assignPrimitive o k v) k' = JSObject.get? o k' := by
  unfold assignPrimitive
  split
  · rw [JSObject.get?_put, if_neg h]
  · split
    · rfl
    · rw [JSObject.get?_put, if_neg h]

theorem get?_foldl_topLabel (l : List (String × JSObject Scalar)) :
    ∀ (acc : List (String × String)) (c : String), c ≠ "__proto__" → (JSObject.keys l).Nodup →
      JSObject.get? (l.foldl
        (fun top entry => (topLabel entry.2).elim top (fun l => assignPrimitive top entry.1 l))
        acc) c
        = ((JSObject.get? l c).bind topLabel).elim (JSObject.get? acc c) some := by
  induction l with
  | nil => intro acc c _ _; rfl
  | cons e rest ih =>
    intro acc c hp hnd
    obtain ⟨k, values⟩ := e
    simp only [JSObject.keys, List.map_cons, List.nodup_cons] at hnd
    rw [List.foldl_cons, ih _ c hp hnd.2]
    by_cases hk : k = c
    · subst hk
      have hrest : JSObject.get? rest k = none :=
        (JSObject.get?_eq_none_iff rest k).2 hnd.1
      have hhead : JSObject.get? ((k, values) :: rest) k = some values := by
        simp [JSObject.get?]
      rw [hrest, hhead]
      cases ht : topLabel values with
      | none => simp [ht]
      | some lab =>
        simp only [Option.bind, Option.elim, ht]
        rw [assignPrimitive_of_ne _ _ _ hp, JSObject.get?_put, if_pos rfl]
    · have hhead : JSObject.get? ((k, values) :: rest) c = JSObject.get? rest c := by
        simp [JSObject.get?, hk]
      have hacc : JSObject.get? ((topLabel values).elim acc
          (fun l => assignPrimitive acc k l)) c = JSObject.get? acc c := by
        cases topLabel values with
        | none => rfl
        | some lab => exact get?_assignPrimitive_of_ne acc k c lab (fun h => hk h.symm)
      rw [hhead]
      simp only at hacc ⊢
      rw [hacc]

/-- The entry of `topStyles` for a category other than `__proto__`. -/
theorem topStyles_get? (sp : List (String × JSObject Scalar)) (c : String)
    (hp : c ≠ "__proto__") (hnd : (JSObject.keys sp).Nodup) :
    JSObject.get? (topStyles sp) c = (JSObject.get? sp c).bind topLabel := by
  rw [topStyles_eq, get?_foldl_topLabel sp [] c hp hnd]
  cases (JSObject.get? sp c).bind topLabel <;> rfl

/-- What one iteration reports for a category whose scores are all numbers: nothing when no
score is positive; otherwise the first label, in enumeration order, among those of the
highest score. -/
theorem topLabel_spec (values : List (String × Scalar))
    (hvn : (JSObject.keys values).Nodup) (hnum : ∀ e ∈ values, ∃ n, e.2 = Scalar.num n) :
    (topLabel values = none → ∀ e ∈ values, e.2.isPositive = false) ∧
    (∀ l, topLabel values = some l →
      ∃ s, (l, Scalar.num s) ∈ values ∧ 0 < s ∧
        (∀ e ∈ values, ∀ n, e.2 = Scalar.num n → n ≤ s) ∧
        (∀ e, [e, (l, Scalar.num s)].Sublist values → e.2 ≠ Scalar.num s)) := by
  have hnum' : ∀ x ∈ values, ∃ n, (fun e : String × Scalar => e.2.toNumber?) x = some n := by
    intro x hx
    obtain ⟨n, hn⟩ := hnum x hx
    exact ⟨n, by simp [hn, Scalar.toNumber?]⟩
  have hsorted := sortDescending_sorted (fun e : String × Scalar => e.2.toNumber?) values hnum'
  have hmemS := mem_sortDescending (fun e : String × Scalar => e.2.toNumber?) values
  have hperm : (sortDescending (fun e : String × Scalar => e.2.toNumber?) values).Perm values :=
    List.perm_insertionSort _ values
  have hnodup : (sortDescending (fun e : String × Scalar => e.2.toNumber?) values).Nodup :=
    hperm.nodup_iff.2 (List.Nodup.of_map _ hvn)
  have hfilter := sortDescending_filter_eq (fun e : String × Scalar => e.2.toNumber?) values
  unfold topLabel
  generalize sortDescending (fun e : String × Scalar => e.2.toNumber?) values = sorted
    at hsorted hmemS hperm hnodup hfilter
  cases sorted with
  | nil =>
    have : values = [] := List.eq_nil_of_length_eq_zero (by rw [← hperm.length_eq]; rfl)
    subst this
    simp
  | cons h t =>
    obtain ⟨label, sc⟩ := h
    obtain ⟨s, hs⟩ := hnum (label, sc) ((hmemS _).1 (List.mem_cons_self _ _))
    simp only at hs
    subst hs
    have hmax : ∀ e ∈ values, ∀ n, e.2 = Scalar.num n → n ≤ s := by
      intro e he n hn
      rcases List.mem_cons.1 ((hmemS e).2 he) with h1 | h1
      · rw [h1] at hn
        cases hn
        exact le_refl _
      · have := List.rel_of_pairwise_cons hsorted h1
        simpa [hn, Scalar.toNumber?] using this
    refine ⟨?_, ?_⟩
    · intro hnone e he
      have hs0 : ¬ 0 < s := by
        intro h0
        simp [Scalar.isPositive, h0] at hnone
      obtain ⟨n, hn⟩ := hnum e he
      have := hmax e he n hn
      rw [hn]
      simp only [Scalar.isPositive, decide_eq_false_iff_not]
      omega
    · intro l hl
      have hs0 : 0 < s := by
        by_contra h0
        simp [Scalar.isPositive, h0] at hl
      have hlab : label = l := by
        simpa [Scalar.isPositive, hs0] using hl
      subst hlab
      refine ⟨s, (hmemS _).1 (List.mem_cons_self _ _), hs0, hmax, ?_⟩
      intro e hsub he
      have hP : [e, (label, Scalar.num s)].filter
          (fun x : String × Scalar => decide (x.2.toNumber? = some s))
          = [e, (label, Scalar.num s)] :=
        List.filter_eq_self.2 (fun x hx => by
          rcases List.mem_cons.1 hx with h1 | h1
          · simp [h1, he, Scalar.toNumber?]
          · have hb : x = (label, Scalar.num s) := by simpa using h1
            simp [hb, Scalar.toNumber?])
      have h1 := hsub.filter (fun x : String × Scalar => decide (x.2.toNumber? = some s))
      rw [hP, ← hfilter (some s)] at h1
      have h2 := h1.trans (List.filter_sublist _)
      have hin : (label, Scalar.num s) ∈ t := by
        rcases List.sublist_cons_iff.1 h2 with h3 | ⟨r, hr, h3⟩
        · exact h3.subset (by simp)
        · have : r = [(label, Scalar.num s)] := by
            simpa using (List.cons.inj hr).2.symm
          rw [this] at h3
          exact h3.subset (by simp)
      exact (List.nodup_cons.1 hnodup).1 hin

/-- C12, as stated, fails: with the scores `dark: 1, light: 1, gradient: 0` the category
`colorSchemes` is reported with the label `dark`, whose score is not strictly higher than
that of `light`. -/
theorem topStylePreferences_not_strictly_highest :
    (getPreferencesSummary (worldWith prefsWithTie) ⟨1⟩).topStylePreferences
      = [("colorSchemes", "dark")] ∧
    JSObject.get? (loadPreferences (worldWith prefsWithTie) ⟨1⟩).prefs.stylePreferences
      "colorSchemes" = some darkLightTie ∧
    ¬ StrictlyHighest darkLightTie "dark" :=
  ⟨by decide, by decide, by decide⟩

/-- C12, amended. For a category other than `__proto__` whose scores are all numbers: the
category appears in `topStylePreferences` if and only if one of its labels has a score
`> 0`; the label reported has a score `> 0` that no label of the category exceeds, and it is
the first label of that score in the enumeration order of the category. -/
theorem topStylePreferences_first_maximum (w : World) (now : Timestamp) (c : String)
    (values : JSObject Scalar)
    (hnd : (JSObject.keys (loadPreferences w now).prefs.stylePreferences).Nodup)
    (hc : JSObject.get? (loadPreferences w now).prefs.stylePreferences c = some values)
    (hp : c ≠ "__proto__")
    (hvn : (JSObject.keys values).Nodup) (hnum : ∀ e ∈ values, ∃ n, e.2 = Scalar.num n) :
    ((∃ l, JSObject.get? (getPreferencesSummary w now).topStylePreferences c = some l) ↔
      ∃ e ∈ values, e.2.isPositive = true) ∧
    (∀ l, JSObject.get? (getPreferencesSummary w now).topStylePreferences c = some l →
      ∃ s, (l, Scalar.num s) ∈ values ∧ 0 < s ∧
        (∀ e ∈ values, ∀ n, e.2 = Scalar.num n → n ≤ s) ∧
        (∀ e, [e, (l, Scalar.num s)].Sublist values → e.2 ≠ Scalar.num s)) := by
  have hget : JSObject.get? (getPreferencesSummary w now).topStylePreferences c
      = topLabel values := by
    show JSObject.get? (topStyles (loadPreferences w now).prefs.stylePreferences) c = _
    rw [topStyles_get? _ c hp hnd, hc]
    rfl
  obtain ⟨h1, h2⟩ := topLabel_spec values hvn hnum
  rw [hget]
  refine ⟨⟨?_, ?_⟩, h2⟩
  · rintro ⟨l, hl⟩
    obtain ⟨s, hmem, hs, -, -⟩ := h2 l hl
    exact ⟨_, hmem, by simp [Scalar.isPositive, hs]⟩
  · rintro ⟨e, he, hpos⟩
    cases ht : topLabel values with
    | some l => exact ⟨l, rfl⟩
    | none =>
      have := h1 ht e he
      rw [this] at hpos
      cases hpos

/-- Witness for C12, amended: the scores `dark: 1, light: 1, gradient: 0` of `colorSchemes`. -/
theorem topStylePreferences_first_maximum_witness :
    JSObject.get? (loadPreferences (worldWith prefsWithTie) ⟨1⟩).prefs.stylePreferences
      "colorSchemes" = some darkLightTie ∧
    ((∃ l, JSObject.get? (getPreferencesSummary (worldWith prefsWithTie) ⟨1⟩).topStylePreferences
        "colorSchemes" = some l) ↔
      ∃ e ∈ darkLightTie, e.2.isPositive = true) :=
  ⟨by decide,
    (topStylePreferences_first_maximum (worldWith prefsWithTie) ⟨1⟩ "colorSchemes" darkLightTie
      (by decide) (by decide) (by decide) (by decide)
      (by
        intro e he
        simp only [darkLightTie, List.mem_cons, List.mem_singleton, List.not_mem_nil,
          or_false] at he
        rcases he with h | h | h <;> subst h <;> exact ⟨_, rfl⟩)).1⟩

/-! ## Recent notes -/

/-- C13, as stated, fails: after the notes `first` and `second`, in this order, `recentNotes`
is `first, second`, the older note first. -/
theorem recentNotes_not_most_recent_first :
    (getPreferencesSummary (worldWith (prefsWithNotes [note "first", note "second"]))
        ⟨1⟩).recentNotes = ["first", "second"] ∧
    mostRecentFirst
        (loadPreferences (worldWith (prefsWithNotes [note "first", note "second"]))
          ⟨1⟩).prefs.userNotes = ["second", "first"] ∧
    (getPreferencesSummary (worldWith (prefsWithNotes [note "first", note "second"]))
        ⟨1⟩).recentNotes ≠
      mostRecentFirst
        (loadPreferences (worldWith (prefsWithNotes [note "first", note "second"]))
          ⟨1⟩).prefs.userNotes :=
  ⟨by decide, by decide, by decide⟩

/-- C13, amended. For every `userNotes` sequence of length `n`, `recentNotes` is the list of
the texts of the `min(5, n)` most recently added notes in chronological order: its element
`i` is the text of note `n - min(5, n) + i`, so that the oldest of them comes first and the
text of the last note comes last; it is the reverse of the list the claim describes. -/
theorem recentNotes_chronological (w : World) (now : Timestamp) :
    (getPreferencesSummary w now).recentNotes.length
        = min 5 (loadPreferences w now).prefs.userNotes.length ∧
    (∀ i, i < min 5 (loadPreferences w now).prefs.userNotes.length →
      (getPreferencesSummary w now).recentNotes[i]? =
        ((loadPreferences w now).prefs.userNotes[
          (loadPreferences w now).prefs.userNotes.length
            - min 5 (loadPreferences w now).prefs.userNotes.length + i]?).map
          (fun n => n.text)) ∧
    (getPreferencesSummary w now).recentNotes
      = (mostRecentFirst (loadPreferences w now).prefs.userNotes).reverse := by
  generalize hn : (loadPreferences w now).prefs.userNotes = notes
  have hrec : (getPreferencesSummary w now).recentNotes
      = (sliceLast 5 notes).map (fun n => n.text) := by
    rw [← hn]; rfl
  rw [hrec]
  refine ⟨?_, ?_, ?_⟩
  · simp only [sliceLast, List.length_map, List.length_drop]
    omega
  · intro i _
    simp only [sliceLast, List.getElem?_map, List.getElem?_drop]
    congr 2
    omega
  · unfold mostRecentFirst sliceLast
    rw [← List.map_reverse, List.take_reverse, List.reverse_reverse]

/-! ## Loading and migrating untyped values -/

theorem takeOver_eq (oldPrefs : Json) (newPrefs : List (String × Json)) (k : String) :
    takeOver oldPrefs newPrefs k = (kept oldPrefs k).elim newPrefs (fun v => JSObject.put newPrefs k v) := by
  unfold takeOver kept
  cases oldPrefs.member k with
  | none => rfl
  | some v => cases h : v.truthy <;> simp [Option.filter, h]

theorem createdOr_eq (oldPrefs : Json) (now : String) :
    createdOr oldPrefs now = (kept oldPrefs "created").getD (.str now) := by
  unfold createdOr kept
  cases oldPrefs.member "created" with
  | none => rfl
  | some v => cases h : v.truthy <;> simp [Option.filter, h]

theorem kept_truthy {oldPrefs : Json} {k : String} {v : Json} (h : kept oldPrefs k = some v) :
    v.truthy = true := by
  unfold kept at h
  cases hm : oldPrefs.member k with
  | none => rw [hm] at h; cases h
  | some x =>
    rw [hm] at h
    cases hx : x.truthy
    · simp [Option.filter, hx] at h
    · simp [Option.filter, hx] at h
      rw [← h]; exact hx

/-- The object `migratePreferences` returns for a value other than `null`, written out. -/
theorem migratePreferencesRaw_eq (d : RawDefaults) (raw : Json) (now : String)
    (h : raw ≠ Json.null) :
    migratePreferencesRaw d raw now = some
      [("version", .str VERSION),
       ("created", (kept raw "created").getD (.str now)),
       ("updated", .str d.updated),
       ("viewHistory", (kept raw "viewHistory").getD (.arr d.viewHistory)),
       ("pageFeedback", (kept raw "pageFeedback").getD (.obj d.pageFeedback)),
       ("stylePreferences", .obj d.stylePreferences),
       ("userNotes", (kept raw "userNotes").getD (.arr d.userNotes)),
       ("favorites", (kept raw "favorites").getD (.arr d.favorites)),
       ("disliked", (kept raw "disliked").getD (.arr d.disliked))] := by
  have hm : migratePreferencesRaw d raw now = some (JSObject.put
      (takeOver raw (takeOver raw (takeOver raw (takeOver raw (takeOver raw d.object
        "viewHistory") "pageFeedback") "favorites") "disliked") "userNotes")
      "created" (createdOr raw now)) := by
    cases raw <;> first | exact absurd rfl h | rfl
  rw [hm, createdOr_eq]
  simp only [takeOver_eq]
  cases kept raw "viewHistory" <;> cases kept raw "pageFeedback" <;>
    cases kept raw "favorites" <;> cases kept raw "disliked" <;>
    cases kept raw "userNotes" <;> rfl

theorem loadPreferencesRaw_json (d : RawDefaults) (v : Json) (now : String)
    (h : v ≠ Json.null) :
    loadPreferencesRaw (.json v) d now =
      if isVersion (v.member "version") then v
      else (migratePreferencesRaw d v now).elim (Json.obj d.object) Json.obj := by
  cases v <;> first
    | exact absurd rfl h
    | (unfold loadPreferencesRaw
       simp only
       split
       · rfl
       · cases migratePreferencesRaw d _ now <;> rfl)

/-- C14. Whatever the slot holds (nothing, the empty string, a text that is not JSON, or the
text of any JSON value, `null` included), `loadPreferences` returns an object whose `version`
is `VERSION`; when there is no text or the text does not parse, the object returned is the
copy of `defaultPreferences`. -/
theorem loadPreferencesRaw_version (slot : RawSlot) (d : RawDefaults) (now : String) :
    (∃ props, loadPreferencesRaw slot d now = Json.obj props ∧
      JSObject.get? props "version" = some (Json.str VERSION)) ∧
    loadPreferencesRaw .absent d now = Json.obj d.object ∧
    loadPreferencesRaw .empty d now = Json.obj d.object ∧
    loadPreferencesRaw .notJson d now = Json.obj d.object := by
  refine ⟨?_, rfl, rfl, rfl⟩
  have hd : ∃ props, Json.obj d.object = Json.obj props ∧
      JSObject.get? props "version" = some (Json.str VERSION) := ⟨_, rfl, rfl⟩
  cases slot with
  | absent => exact hd
  | empty => exact hd
  | notJson => exact hd
  | json v =>
    by_cases hnull : v = Json.null
    · subst hnull
      exact hd
    · rw [loadPreferencesRaw_json d v now hnull]
      by_cases hv : isVersion (v.member "version") = true
      · rw [if_pos hv]
        cases v with
        | obj props =>
          refine ⟨props, rfl, ?_⟩
          simp only [Json.member] at hv
          cases hg : JSObject.get? props "version" with
          | none => rw [hg] at hv; cases hv
          | some x =>
            rw [hg] at hv
            cases x <;> first
              | cases hv
              | (simp only [isVersion, decide_eq_true_eq] at hv
                 rw [hv])
        | _ => cases hv
      · rw [if_neg hv, migratePreferencesRaw_eq d v now hnull]
        exact ⟨_, rfl, rfl⟩

/-- C16, as stated, fails twice: on `null` the call raises a `TypeError`, and a stored
`viewHistory` that is the string `abc` is taken over as it is, so that the state returned
does not conform to the schema. -/
theorem migratePreferences_keeps_wrong_types :
    migratePreferencesRaw rawDefaults Json.null "2024-06-01T00:00:00.000Z" = none ∧
    ∃ state, migratePreferencesRaw rawDefaults textHistory "2024-06-01T00:00:00.000Z"
        = some state ∧
      JSObject.get? state "viewHistory" = some (Json.str "abc") ∧
      conformsToSchema state = false :=
  ⟨rfl, _, rfl, rfl, rfl⟩

/-- C16, amended. For every JSON value other than `null`, `migratePreferences` returns a
state with the nine keys of `defaultPreferences`: each of `viewHistory`, `pageFeedback`,
`favorites`, `disliked` and `userNotes` is the stored value when that is truthy, whatever
its type, and the value of `defaultPreferences` otherwise; `created` is the stored value
when truthy, else the current time; `version`, `updated` and `stylePreferences` are those
of `defaultPreferences`. -/
theorem migratePreferences_copies_truthy_fields (d : RawDefaults) (raw : Json) (now : String)
    (h : raw ≠ Json.null) :
    ∃ state, migratePreferencesRaw d raw now = some state ∧
      JSObject.keys state = ["version", "created", "updated", "viewHistory", "pageFeedback",
        "stylePreferences", "userNotes", "favorites", "disliked"] ∧
      JSObject.get? state "version" = some (Json.str VERSION) ∧
      JSObject.get? state "updated" = some (Json.str d.updated) ∧
      JSObject.get? state "stylePreferences" = some (Json.obj d.stylePreferences) ∧
      JSObject.get? state "created" = some ((kept raw "created").getD (Json.str now)) ∧
      JSObject.get? state "viewHistory"
        = some ((kept raw "viewHistory").getD (Json.arr d.viewHistory)) ∧
      JSObject.get? state "pageFeedback"
        = some ((kept raw "pageFeedback").getD (Json.obj d.pageFeedback)) ∧
      JSObject.get? state "favorites"
        = some ((kept raw "favorites").getD (Json.arr d.favorites)) ∧
      JSObject.get? state "disliked"
        = some ((kept raw "disliked").getD (Json.arr d.disliked)) ∧
      JSObject.get? state "userNotes"
        = some ((kept raw "userNotes").getD (Json.arr d.userNotes)) :=
  ⟨_, migratePreferencesRaw_eq d raw now h, rfl, rfl, rfl, rfl, rfl, rfl, rfl, rfl, rfl, rfl⟩

/-- Witness for C16, amended: a stored value whose `viewHistory` is a string. -/
theorem migratePreferences_copies_truthy_fields_witness :
    textHistory ≠ Json.null ∧
    ∃ state, migratePreferencesRaw rawDefaults textHistory "2024-06-01T00:00:00.000Z"
        = some state ∧
      JSObject.get? state "viewHistory"
        = some ((kept textHistory "viewHistory").getD (Json.arr rawDefaults.viewHistory)) := by
  have hne : textHistory ≠ Json.null := by
    intro h
    cases h
  obtain ⟨state, h1, -, -, -, -, -, h2, -⟩ :=
    migratePreferences_copies_truthy_fields rawDefaults textHistory
      "2024-06-01T00:00:00.000Z" hne
  exact ⟨hne, state, h1, h2⟩

theorem truthy_getD_kept (raw : Json) (k : String) (dflt : Json) (hd : dflt.truthy = true) :
    ((kept raw k).getD dflt).truthy = true := by
  cases hk : kept raw k with
  | none => exact hd
  | some v => exact kept_truthy hk

theorem kept_obj_of_get? {props : List (String × Json)} {k : String} {v : Json}
    (hg : JSObject.get? props k = some v) (hv : v.truthy = true) :
    kept (Json.obj props) k = some v := by
  simp [kept, Json.member, hg, Option.filter, hv]

/-- A state whose six copied fields are truthy is migrated to itself. -/
theorem migratePreferencesRaw_fixed (d : RawDefaults) (now : String)
    (c vh pf un fav dis : Json) (hc : c.truthy = true) (hvh : vh.truthy = true)
    (hpf : pf.truthy = true) (hun : un.truthy = true) (hfav : fav.truthy = true)
    (hdis : dis.truthy = true) :
    migratePreferencesRaw d
      (Json.obj [("version", .str VERSION), ("created", c), ("updated", .str d.updated),
        ("viewHistory", vh), ("pageFeedback", pf), ("stylePreferences", .obj d.stylePreferences),
        ("userNotes", un), ("favorites", fav), ("disliked", dis)]) now
      = some [("version", .str VERSION), ("created", c), ("updated", .str d.updated),
        ("viewHistory", vh), ("pageFeedback", pf), ("stylePreferences", .obj d.stylePreferences),
        ("userNotes", un), ("favorites", fav), ("disliked", dis)] := by
  rw [migratePreferencesRaw_eq d _ now (fun h => Json.noConfusion h)]
  simp [kept, Json.member, JSObject.get?, Option.filter, hc, hvh, hpf, hun, hfav, hdis]

/-- C17. Migration is idempotent: when the current time is not rendered as the empty string
and `migratePreferences` is defined on `raw` (it is not `null`), migrating the state it
returns gives that state again, in every field, `created` and `updated` included. -/
theorem migratePreferences_idempotent (d : RawDefaults) (raw : Json) (now1 now2 : String)
    (hnow : now1 ≠ "") (h : raw ≠ Json.null) :
    ∃ state, migratePreferencesRaw d raw now1 = some state ∧
      migratePreferencesRaw d (Json.obj state) now2 = some state := by
  refine ⟨_, migratePreferencesRaw_eq d raw now1 h, ?_⟩
  have hstr : (Json.str now1).truthy = true := by
    simp [Json.truthy, hnow]
  exact migratePreferencesRaw_fixed d now2 _ _ _ _ _ _
    (truthy_getD_kept raw "created" _ hstr) (truthy_getD_kept raw "viewHistory" _ rfl)
    (truthy_getD_kept raw "pageFeedback" _ rfl) (truthy_getD_kept raw "userNotes" _ rfl)
    (truthy_getD_kept raw "favorites" _ rfl) (truthy_getD_kept raw "disliked" _ rfl)

/-- Witness for C17: a stored value without `created`, migrated twice at different times. -/
theorem migratePreferences_idempotent_witness :
    ("2024-06-01T00:00:00.000Z" ≠ "" ∧ textHistory ≠ Json.null) ∧
    ∃ state, migratePreferencesRaw rawDefaults textHistory "2024-06-01T00:00:00.000Z"
        = some state ∧
      migratePreferencesRaw rawDefaults (Json.obj state) "2024-07-01T00:00:00.000Z"
        = some state :=
  ⟨⟨by decide, fun h => Json.noConfusion h⟩,
    migratePreferences_idempotent rawDefaults textHistory "2024-06-01T00:00:00.000Z"
      "2024-07-01T00:00:00.000Z" (by decide) (fun h => Json.noConfusion h)⟩

/-! ## Migration and reset within a session -/

/-- What `migratePreferences` does by value: the five fields and `created` are the stored
ones when present, and `stylePreferences` is the object of `defaultPreferences`, whatever
the stored value has. -/
theorem migratePreferences_fields (d : Defaults) (oldPrefs : LegacyPrefs) (now : Timestamp) :
    (migratePreferences d oldPrefs now).prefs.viewHistory
      = oldPrefs.viewHistory.getD d.viewHistory ∧
    (migratePreferences d oldPrefs now).prefs.pageFeedback
      = oldPrefs.pageFeedback.getD d.pageFeedback ∧
    (migratePreferences d oldPrefs now).prefs.favorites = oldPrefs.favorites.getD d.favorites ∧
    (migratePreferences d oldPrefs now).prefs.disliked = oldPrefs.disliked.getD d.disliked ∧
    (migratePreferences d oldPrefs now).prefs.userNotes = oldPrefs.userNotes.getD d.userNotes ∧
    (migratePreferences d oldPrefs now).prefs.created = oldPrefs.created.getD now ∧
    (migratePreferences d oldPrefs now).prefs.stylePreferences = d.stylePreferences :=
  ⟨rfl, rfl, rfl, rfl, rfl, rfl, rfl⟩

/-- C15, failing input. The slot holds a value of an older version and the storage rejects
writes; `recordFeedback("p1", {liked: true, styles: {colorSchemes: "dark"}})` returns, the
slot is as before, and the migration run by the next `loadPreferences` returns the score `1`
for `dark`, where the claim has `0`: the call has raised the score in `defaultPreferences`
itself. Before the call the same migration returns `0`. -/
theorem migratePreferences_keeps_session_scores :
    score (migratePreferences blockedLegacyWorld.defaults legacyEmpty ⟨2⟩).prefs.stylePreferences
      "colorSchemes" "dark" = some (.num 0) ∧
    ∃ w1, recordFeedback blockedLegacyWorld "p1"
        (styledFeedback (some true) "colorSchemes" "dark") ⟨1⟩ = .returned w1 ∧
      w1.slot = .legacy legacyEmpty ∧
      loadPreferences w1 ⟨2⟩ = migratePreferences w1.defaults legacyEmpty ⟨2⟩ ∧
      score (migratePreferences w1.defaults legacyEmpty ⟨2⟩).prefs.stylePreferences
        "colorSchemes" "dark" = some (.num 1) :=
  ⟨by decide, _, rfl, by decide, by decide, by decide⟩

/-- C18, failing input. On a first visit `recordPageView("a", "A")` appends its record to the
`viewHistory` array of `defaultPreferences` itself; after `resetPreferences()` the slot is
empty and the next `loadPreferences()` returns a `viewHistory` with that record, where the
claim has the empty sequence. -/
theorem reset_keeps_first_visit_views :
    (loadPreferences freshWorld ⟨1⟩).prefs.viewHistory = [] ∧
    ∃ w1, recordPageView freshWorld "a" "A" ⟨1⟩ = .returned w1 ∧
      (resetPreferences w1).slot = .absent ∧
      (loadPreferences (resetPreferences w1) ⟨2⟩).prefs.viewHistory
        = [newView "a" "A" ⟨1⟩] :=
  ⟨by decide, _, rfl, by decide, by decide⟩

/-! ## JSON text: numerals -/

theorem digitValue_digitChar (d : Nat) (h : d < 10) : digitValue (digitChar d) = some d := by
  revert d; decide

theorem isDigit_digitChar (d : Nat) (h : d < 10) : isDigit (digitChar d) = true := by
  simp [isDigit, digitValue_digitChar d h]

theorem digitChar_ne_zero (d : Nat) (h : d < 10) (h0 : d ≠ 0) : digitChar d ≠ '0' := by
  revert d; decide

theorem decimalValue_append (l : List Char) (c : Char) (a d : Nat)
    (hl : decimalValue l = some a) (hc : digitValue c = some d) :
    decimalValue (l ++ [c]) = some (a * 10 + d) := by
  induction l generalizing a with
  | nil =>
    simp only [decimalValue] at hl
    cases hl
    simp [decimalValue, hc]
  | cons x xs ih =>
    rw [List.cons_append]
    simp only [decimalValue] at hl ⊢
    cases hx : digitValue x with
    | none => simp [hx] at hl
    | some dx =>
      cases hxs : decimalValue xs with
      | none => simp [hx, hxs] at hl
      | some r =>
        simp only [hx, hxs, Option.some.injEq] at hl
        rw [ih r hxs]
        simp only [List.length_append, List.length_singleton, Option.some.injEq]
        rw [← hl]
        ring

theorem numeral_spec : ∀ (fuel n : Nat), n < fuel →
    decimalValue (numeral fuel n) = some n ∧ (∀ c ∈ numeral fuel n, isDigit c = true) ∧
      numeral fuel n ≠ [] ∧ (n ≠ 0 → (numeral fuel n).head? ≠ some '0') ∧
      (n = 0 → numeral fuel n = ['0'])
  | 0, n, h => absurd h (Nat.not_lt_zero n)
  | fuel + 1, n, h => by
    unfold numeral
    by_cases h10 : n < 10
    · rw [if_pos h10]
      refine ⟨?_, ?_, by simp, ?_, ?_⟩
      · simp [decimalValue, digitValue_digitChar n h10]
      · intro c hc
        simp only [List.mem_singleton] at hc
        rw [hc]; exact isDigit_digitChar n h10
      · intro h0
        simp only [List.head?_cons, ne_eq, Option.some.injEq]
        exact digitChar_ne_zero n h10 h0
      · intro h0; subst h0; rfl
    · rw [if_neg h10]
      have hlt : n / 10 < fuel := by omega
      obtain ⟨h1, h2, h3, h4, -⟩ := numeral_spec fuel (n / 10) hlt
      have hmod : n % 10 < 10 := Nat.mod_lt _ (by decide)
      refine ⟨?_, ?_, by simp, ?_, ?_⟩
      · rw [decimalValue_append _ _ _ _ h1 (digitValue_digitChar _ hmod)]
        congr 1; omega
      · intro c hc
        simp only [List.mem_append, List.mem_singleton] at hc
        rcases hc with hc | hc
        · exact h2 c hc
        · rw [hc]; exact isDigit_digitChar _ hmod
      · intro _
        have hne : n / 10 ≠ 0 := by omega
        have := h4 hne
        cases hnum : numeral fuel (n / 10) with
        | nil => exact absurd hnum h3
        | cons a as => rw [hnum] at this; simpa using this
      · intro h0; omega

theorem takeWhile_append_stop {α : Type} (p : α → Bool) (l rest : List α)
    (hl : ∀ c ∈ l, p c = true) (hr : ∀ c, rest.head? = some c → p c = false) :
    (l ++ rest).takeWhile p = l ∧ (l ++ rest).dropWhile p = rest := by
  induction l with
  | nil =>
    cases rest with
    | nil => simp
    | cons c cs => simp [List.takeWhile, List.dropWhile, hr c rfl]
  | cons a as ih =>
    have ha := hl a (List.mem_cons_self _ _)
    have := ih (fun c hc => hl c (List.mem_cons_of_mem _ hc))
    simp [List.takeWhile, List.dropWhile, ha, this.1, this.2]

theorem Follows.not_digit {rest : List Char} (h : Follows rest) :
    ∀ c, rest.head? = some c → isDigit c = false := by
  intro c hc
  rcases h c hc with h | h <;> subst h <;> decide

theorem parseNumber_numberText (n : Int) (rest : List Char) (hf : Follows rest)
    (hn : -9007199254740992 < n ∧ n < 9007199254740992) :
    parseNumber (numberText n ++ rest) = some (n, rest) := by
  have hstop : ¬ (rest.head? = some '.' ∨ rest.head? = some 'e' ∨ rest.head? = some 'E') := by
    rintro (h | h | h) <;> rcases hf _ h with h2 | h2 <;> revert h2 <;> decide
  cases n with
  | ofNat m =>
    obtain ⟨h1, h2, h3, h4, h5⟩ := numeral_spec (m + 1) m (Nat.lt_succ_self m)
    obtain ⟨ht, hd⟩ := takeWhile_append_stop isDigit _ rest h2 hf.not_digit
    have hhead : (numeral (m + 1) m ++ rest).head? ≠ some '-' := by
      cases hnum : numeral (m + 1) m with
      | nil => exact absurd hnum h3
      | cons a as =>
        have ha := h2 a (by rw [hnum]; exact List.mem_cons_self _ _)
        simp only [List.cons_append, List.head?_cons, ne_eq, Option.some.injEq]
        intro h; rw [h] at ha; revert ha; decide
    have hlead : ¬ ((numeral (m + 1) m).head? = some '0' ∧ (numeral (m + 1) m).length ≠ 1) := by
      rintro ⟨hz, hlen⟩
      by_cases h0 : m = 0
      · rw [h5 h0] at hlen; simp at hlen
      · exact h4 h0 hz
    have hm : m < 9007199254740992 := by
      have := hn.2
      simp only [Int.ofNat_eq_coe] at this
      omega
    unfold parseNumber numberText
    simp only [hhead, decide_False, Bool.false_eq_true, if_false, ht, hd, hlead, hstop, h1]
    cases hnum : numeral (m + 1) m with
    | nil => exact absurd hnum h3
    | cons a as =>
      simp only [Nat.not_le.2 hm, if_false]
      rfl
  | negSucc m =>
    obtain ⟨h1, h2, h3, h4, -⟩ := numeral_spec (m + 2) (m + 1) (Nat.lt_succ_self _)
    obtain ⟨ht, hd⟩ := takeWhile_append_stop isDigit _ rest h2 hf.not_digit
    have hlead : ¬ ((numeral (m + 2) (m + 1)).head? = some '0' ∧
        (numeral (m + 2) (m + 1)).length ≠ 1) := by
      rintro ⟨hz, -⟩
      exact h4 (Nat.succ_ne_zero m) hz
    have hm : m + 1 < 9007199254740992 := by
      have := hn.1
      simp only [Int.negSucc_eq] at this
      omega
    unfold parseNumber numberText
    simp only [List.cons_append, List.head?_cons, decide_True, if_true, List.tail_cons, ht, hd,
      hlead, hstop, h1, if_false]
    cases hnum : numeral (m + 2) (m + 1) with
    | nil => exact absurd hnum h3
    | cons a as =>
      simp only [Nat.not_le.2 hm, if_false, Nat.succ_ne_zero, if_true]
      simp [Int.negSucc_eq]

/-! ## JSON text: strings -/

theorem codeUnit_control : ∀ n, n < 32 →
    codeUnit '0' '0' (hexDigit (n / 16)) (hexDigit (n % 16)) = some (Char.ofNat n) := by
  decide

theorem parseChars_cons (c : Char) (rest : List Char) :
    parseChars (c :: rest) =
      if c = '"' then some ([], rest)
      else if c = '\\' then
        match rest with
        | [] => none
        | e :: rest1 =>
          if e = 'u' then
            match rest1 with
            | a :: b :: c2 :: d :: rest2 =>
              match codeUnit a b c2 d with
              | some ch => (parseChars rest2).map (fun r => (ch :: r.1, r.2))
              | none => none
            | _ => none
          else
            match unescape e with
            | some ch => (parseChars rest1).map (fun r => (ch :: r.1, r.2))
            | none => none
      else if c.toNat < 32 then none
      else (parseChars rest).map (fun r => (c :: r.1, r.2)) := by
  conv_lhs => unfold parseChars

theorem parseChars_escape (e ch : Char) (tail : List Char) (he : e ≠ 'u')
    (hu : unescape e = some ch) :
    parseChars ('\\' :: e :: tail) = (parseChars tail).map (fun r => (ch :: r.1, r.2)) := by
  rw [parseChars_cons]
  have e1 : ('\\' : Char) ≠ '"' := by decide
  simp only [e1, he, hu, if_false, if_true]

theorem parseChars_escapeChar (c : Char) (tail : List Char) :
    parseChars (escapeChar c ++ tail) = (parseChars tail).map (fun r => (c :: r.1, r.2)) := by
  unfold escapeChar
  by_cases h1 : c = '"'
  · subst h1; exact parseChars_escape _ _ tail (by decide) (by decide)
  by_cases h2 : c = '\\'
  · subst h2; exact parseChars_escape _ _ tail (by decide) (by decide)
  by_cases h3 : c = '\x08'
  · subst h3; exact parseChars_escape _ _ tail (by decide) (by decide)
  by_cases h4 : c = '\x0c'
  · subst h4; exact parseChars_escape _ _ tail (by decide) (by decide)
  by_cases h5 : c = '\n'
  · subst h5; exact parseChars_escape _ _ tail (by decide) (by decide)
  by_cases h6 : c = '\r'
  · subst h6; exact parseChars_escape _ _ tail (by decide) (by decide)
  by_cases h7 : c = '\t'
  · subst h7; exact parseChars_escape _ _ tail (by decide) (by decide)
  simp only [h1, h2, h3, h4, h5, h6, h7, if_false]
  by_cases h8 : c.toNat < 32
  · simp only [h8, if_true, List.cons_append, List.nil_append]
    have hu := codeUnit_control c.toNat h8
    rw [Char.ofNat_toNat] at hu
    have e1 : ('\\' : Char) ≠ '"' := by decide
    rw [parseChars_cons]
    simp only [e1, if_false, if_true, hu]
  · simp only [h8, if_false, List.cons_append, List.nil_append]
    rw [parseChars_cons]
    simp only [h1, h2, h8, if_false]

theorem parseChars_quote (s : List Char) (rest : List Char) :
    parseChars (s.flatMap escapeChar ++ '"' :: rest) = some (s, rest) := by
  induction s with
  | nil => simp [parseChars_cons]
  | cons c cs ih =>
    rw [List.flatMap_cons, List.append_assoc, parseChars_escapeChar, ih]
    rfl

/-! ## JSON text: white space -/

theorem skipWhitespace_append (ws cs : List Char) (h : ∀ c ∈ ws, isWhitespace c = true) :
    skipWhitespace (ws ++ cs) = skipWhitespace cs := by
  induction ws with
  | nil => rfl
  | cons a as ih =>
    rw [List.cons_append, skipWhitespace, if_pos (h a (List.mem_cons_self _ _))]
    exact ih (fun c hc => h c (List.mem_cons_of_mem _ hc))

theorem skipWhitespace_cons (c : Char) (cs : List Char) (h : isWhitespace c = false) :
    skipWhitespace (c :: cs) = c :: cs := by
  rw [skipWhitespace]
  simp [h]

theorem isWhitespace_spaces (n : Nat) : ∀ c ∈ spaces n, isWhitespace c = true := by
  intro c hc
  rw [List.eq_of_mem_replicate hc]
  rfl

theorem isWhitespace_break (n : Nat) : ∀ c ∈ '\n' :: spaces n, isWhitespace c = true := by
  intro c hc
  rcases List.mem_cons.1 hc with h | h
  · rw [h]; rfl
  · exact isWhitespace_spaces n c h

theorem length_quote_pos (k : String) : 2 ≤ (quote k).length := by
  simp [quote]

theorem numberText_head (n : Int) : ∃ c cs, numberText n = c :: cs ∧ Opens c ∧
    (c = '-' ∨ isDigit c = true) := by
  cases n with
  | ofNat m =>
    obtain ⟨-, h2, h3, -, -⟩ := numeral_spec (m + 1) m (Nat.lt_succ_self m)
    show ∃ c cs, numeral (m + 1) m = c :: cs ∧ _
    cases hnum : numeral (m + 1) m with
    | nil => exact absurd hnum h3
    | cons a as =>
      have ha := h2 a (by rw [hnum]; exact List.mem_cons_self _ _)
      refine ⟨a, as, rfl, ?_, Or.inr ha⟩
      simp only [isDigit, digitValue] at ha
      split at ha
      · rename_i hr
        refine ⟨?_, ?_, ?_, ?_⟩
        · by_contra hw
          simp only [isWhitespace, Bool.or_eq_true, decide_eq_true_eq, Bool.not_eq_false] at hw
          rcases hw with ((hw | hw) | hw) | hw <;> subst hw <;> revert hr <;> decide
        · intro hw; subst hw; revert hr; decide
        · intro hw; subst hw; revert hr; decide
        · intro hw; subst hw; revert hr; decide
      · simp at ha
  | negSucc m =>
    exact ⟨'-', _, rfl, by decide, Or.inl rfl⟩

theorem stringifyValue_head (ind : Nat) (v : Json) :
    ∃ c cs, stringifyValue ind v = c :: cs ∧ Opens c := by
  cases v with
  | null => simp only [stringifyValue]; exact ⟨_, _, rfl, by decide⟩
  | bool b => cases b <;> simp only [stringifyValue] <;> exact ⟨_, _, rfl, by decide⟩
  | num n =>
    obtain ⟨c, cs, h, ho, -⟩ := numberText_head n
    exact ⟨c, cs, by simp only [stringifyValue, h], ho⟩
  | str s => simp only [stringifyValue, quote]; exact ⟨_, _, rfl, by decide⟩
  | arr xs =>
    cases xs with
    | nil => simp only [stringifyValue]; exact ⟨_, _, rfl, by decide⟩
    | cons x xs => simp only [stringifyValue]; exact ⟨_, _, rfl, by decide⟩
  | obj ps =>
    cases ps with
    | nil => simp only [stringifyValue]; exact ⟨_, _, rfl, by decide⟩
    | cons p ps =>
      obtain ⟨k, x⟩ := p
      simp only [stringifyValue]; exact ⟨_, _, rfl, by decide⟩

/-! ## JSON text: members in `Object.entries` order -/

theorem entriesOrder_snoc (ks : List String) (k : String)
    (h : entriesOrder (ks ++ [k]) = true) :
    entriesOrder ks = true ∧ k ∉ ks ∧ ∀ k2 ∈ ks, keyBefore k2 k = true := by
  induction ks with
  | nil => exact ⟨rfl, List.not_mem_nil _, fun _ h => absurd h (List.not_mem_nil _)⟩
  | cons a as ih =>
    rw [List.cons_append] at h
    simp only [entriesOrder, Bool.and_eq_true, Bool.not_eq_true', List.all_eq_true,
      List.mem_append, List.mem_singleton] at h
    obtain ⟨⟨hnot, hall⟩, hrest⟩ := h
    obtain ⟨ih0, ih1, ih2⟩ := ih hrest
    have hnot2 : a ∉ as ∧ a ≠ k := by
      constructor
      · intro hm
        have : (as ++ [k]).contains a = true := by simp [hm]
        rw [this] at hnot; cases hnot
      · intro he
        have : (as ++ [k]).contains a = true := by simp [he]
        rw [this] at hnot; cases hnot
    refine ⟨?_, ?_, ?_⟩
    · simp only [entriesOrder, Bool.and_eq_true, Bool.not_eq_true', List.all_eq_true]
      refine ⟨⟨?_, fun x hx => hall x (Or.inl hx)⟩, ih0⟩
      simpa using hnot2.1
    · intro hm
      rcases List.mem_cons.1 hm with h1 | h1
      · exact hnot2.2 h1.symm
      · exact ih1 h1
    · intro k2 hk2
      rcases List.mem_cons.1 hk2 with h1 | h1
      · rw [h1]; exact hall k (Or.inr rfl)
      · exact ih2 k2 h1

theorem get?_eq_none_of_not_mem {α : Type} (o : JSObject α) (k : String)
    (h : k ∉ JSObject.keys o) : JSObject.get? o k = none := by
  induction o with
  | nil => rfl
  | cons e rest ih =>
    obtain ⟨k2, v2⟩ := e
    simp only [JSObject.keys, List.map_cons, List.mem_cons, not_or] at h
    simp only [JSObject.get?, Ne.symm h.1, if_false]
    exact ih h.2

theorem insertIndex_last {α : Type} (o : JSObject α) (k : String) (v : α) (n : Nat)
    (hn : arrayIndex? k = some n) (h : ∀ k2 ∈ JSObject.keys o, keyBefore k2 k = true) :
    JSObject.insertIndex n k v o = o ++ [(k, v)] := by
  induction o with
  | nil => rfl
  | cons e rest ih =>
    obtain ⟨k2, v2⟩ := e
    have hb := h k2 (List.mem_cons_self _ _)
    unfold keyBefore at hb
    rw [hn] at hb
    cases hk2 : arrayIndex? k2 with
    | none => rw [hk2] at hb; cases hb
    | some m =>
      rw [hk2] at hb
      simp only [decide_eq_true_eq] at hb
      simp only [JSObject.insertIndex, hk2, hb, if_true]
      rw [ih (fun k3 hk3 => h k3 (List.mem_cons_of_mem _ hk3))]
      rfl

theorem put_of_entriesOrder (done : JSObject Json) (k : String) (v : Json)
    (h : entriesOrder (JSObject.keys done ++ [k]) = true) :
    JSObject.put done k v = done ++ [(k, v)] := by
  obtain ⟨-, h1, h2⟩ := entriesOrder_snoc _ _ h
  unfold JSObject.put
  rw [get?_eq_none_of_not_mem done k h1]
  cases hk : arrayIndex? k with
  | none => rfl
  | some n => exact insertIndex_last done k v n hk h2

/-! ## JSON text: the round trip -/

theorem parseValue_succ (fuel : Nat) (cs : List Char) :
    parseValue (fuel + 1) cs =
      match skipWhitespace cs with
      | [] => none
      | c :: rest =>
        if c = '{' then
          if (skipWhitespace rest).head? = some '}' then
            some (.obj [], (skipWhitespace rest).tail)
          else parseMembers fuel [] rest
        else if c = '[' then
          if (skipWhitespace rest).head? = some ']' then
            some (.arr [], (skipWhitespace rest).tail)
          else parseItems fuel [] rest
        else if c = '"' then (parseChars rest).map (fun r => (.str (String.mk r.1), r.2))
        else if c = 'n' then (afterWord ['u', 'l', 'l'] rest).map (fun r => (.null, r))
        else if c = 't' then (afterWord ['r', 'u', 'e'] rest).map (fun r => (.bool true, r))
        else if c = 'f' then
          (afterWord ['a', 'l', 's', 'e'] rest).map (fun r => (.bool false, r))
        else (parseNumber (c :: rest)).map (fun r => (.num r.1, r.2)) := by
  rw [parseValue]

theorem parseItems_succ (fuel : Nat) (done : List Json) (cs : List Char) :
    parseItems (fuel + 1) done cs =
      match parseValue fuel cs with
      | none => none
      | some (v, rest) =>
        match skipWhitespace rest with
        | [] => none
        | c :: rest1 =>
          if c = ',' then parseItems fuel (done ++ [v]) rest1
          else if c = ']' then some (.arr (done ++ [v]), rest1)
          else none := by
  rw [parseItems]

theorem parseMembers_succ (fuel : Nat) (done : JSObject Json) (cs : List Char) :
    parseMembers (fuel + 1) done cs =
      match skipWhitespace cs with
      | [] => none
      | q :: rest =>
        if q = '"' then
          match parseChars rest with
          | none => none
          | some (k, rest1) =>
            match skipWhitespace rest1 with
            | [] => none
            | c :: rest2 =>
              if c = ':' then
                match parseValue fuel rest2 with
                | none => none
                | some (v, rest3) =>
                  match skipWhitespace rest3 with
                  | [] => none
                  | c1 :: rest4 =>
                    if c1 = ',' then parseMembers fuel (JSObject.put done (String.mk k) v) rest4
                    else if c1 = '}' then
                      some (.obj (JSObject.put done (String.mk k) v), rest4)
                    else none
              else none
        else none := by
  rw [parseMembers]

theorem parseValue_skip (fuel : Nat) (ws cs : List Char)
    (h : ∀ c ∈ ws, isWhitespace c = true) :
    parseValue fuel (ws ++ cs) = parseValue fuel cs := by
  cases fuel with
  | zero => simp only [parseValue]
  | succ f => rw [parseValue_succ, parseValue_succ, skipWhitespace_append ws cs h]

theorem parseMembers_skip (fuel : Nat) (done : JSObject Json) (ws cs : List Char)
    (h : ∀ c ∈ ws, isWhitespace c = true) :
    parseMembers fuel done (ws ++ cs) = parseMembers fuel done cs := by
  cases fuel with
  | zero => simp only [parseMembers]
  | succ f => rw [parseMembers_succ, parseMembers_succ, skipWhitespace_append ws cs h]

theorem follows_items (ind ind0 : Nat) (xs : List Json) (rest : List Char) :
    Follows (stringifyItems ind xs ++ '\n' :: (spaces ind0 ++ rest)) := by
  intro c hc
  cases xs with
  | nil =>
    simp only [stringifyItems, List.nil_append, List.head?_cons, Option.some.injEq] at hc
    exact Or.inr hc.symm
  | cons y ys =>
    simp only [stringifyItems, List.cons_append, List.head?_cons, Option.some.injEq] at hc
    exact Or.inl hc.symm

theorem follows_members (ind ind0 : Nat) (ps : List (String × Json)) (rest : List Char) :
    Follows (stringifyMembers ind ps ++ '\n' :: (spaces ind0 ++ rest)) := by
  intro c hc
  cases ps with
  | nil =>
    simp only [stringifyMembers, List.nil_append, List.head?_cons, Option.some.injEq] at hc
    exact Or.inr hc.symm
  | cons p qs =>
    obtain ⟨k, y⟩ := p
    simp only [stringifyMembers, List.cons_append, List.head?_cons, Option.some.injEq] at hc
    exact Or.inl hc.symm

theorem entriesOrder_left (a b : List String) (h : entriesOrder (a ++ b) = true) :
    entriesOrder a = true := by
  induction b using List.reverseRecOn with
  | nil => simpa using h
  | append_singleton bs k ih =>
    rw [← List.append_assoc] at h
    exact ih (entriesOrder_snoc _ _ h).1

theorem parseValue_array (f : Nat) (rest : List Char) (c0 : Char) (cs0 : List Char)
    (h : skipWhitespace rest = c0 :: cs0) (hc0 : c0 ≠ ']') :
    parseValue (f + 1) ('[' :: rest) = parseItems f [] rest := by
  have e1 : ('[' : Char) ≠ '{' := by decide
  rw [parseValue_succ, skipWhitespace_cons _ _ (by decide)]
  simp only [e1, if_false, if_true, h, List.head?_cons, Option.some.injEq, hc0]

theorem parseValue_object (f : Nat) (rest : List Char) (c0 : Char) (cs0 : List Char)
    (h : skipWhitespace rest = c0 :: cs0) (hc0 : c0 ≠ '}') :
    parseValue (f + 1) ('{' :: rest) = parseMembers f [] rest := by
  rw [parseValue_succ, skipWhitespace_cons _ _ (by decide)]
  simp only [if_true, h, List.head?_cons, Option.some.injEq, hc0, if_false]

theorem parseItems_more (f : Nat) (done : List Json) (cs rest rest1 : List Char) (v : Json)
    (hv : parseValue f cs = some (v, rest)) (hr : skipWhitespace rest = ',' :: rest1) :
    parseItems (f + 1) done cs = parseItems f (done ++ [v]) rest1 := by
  rw [parseItems_succ, hv]
  simp only [hr, if_true]

theorem parseItems_last (f : Nat) (done : List Json) (cs rest rest1 : List Char) (v : Json)
    (hv : parseValue f cs = some (v, rest)) (hr : skipWhitespace rest = ']' :: rest1) :
    parseItems (f + 1) done cs = some (.arr (done ++ [v]), rest1) := by
  have e1 : (']' : Char) ≠ ',' := by decide
  rw [parseItems_succ, hv]
  simp only [hr, e1, if_false, if_true]

theorem parseMembers_key (f : Nat) (done : JSObject Json) (k : String) (tail : List Char) :
    parseMembers (f + 1) done (quote k ++ ':' :: tail) =
      match parseValue f tail with
      | none => none
      | some (v, rest3) =>
        match skipWhitespace rest3 with
        | [] => none
        | c1 :: rest4 =>
          if c1 = ',' then parseMembers f (JSObject.put done k v) rest4
          else if c1 = '}' then some (.obj (JSObject.put done k v), rest4)
          else none := by
  rw [parseMembers_succ]
  simp only [quote, List.cons_append, List.append_assoc, List.nil_append]
  rw [skipWhitespace_cons _ _ (by decide)]
  simp only [if_true, parseChars_quote]
  rw [skipWhitespace_cons _ _ (by decide)]
  simp only [if_true]

theorem parseMembers_more (f : Nat) (done : JSObject Json) (k : String)
    (tail rest rest1 : List Char) (v : Json)
    (hv : parseValue f tail = some (v, rest)) (hr : skipWhitespace rest = ',' :: rest1) :
    parseMembers (f + 1) done (quote k ++ ':' :: tail) =
      parseMembers f (JSObject.put done k v) rest1 := by
  rw [parseMembers_key, hv]
  simp only [hr, if_true]

theorem parseMembers_last (f : Nat) (done : JSObject Json) (k : String)
    (tail rest rest1 : List Char) (v : Json)
    (hv : parseValue f tail = some (v, rest)) (hr : skipWhitespace rest = '}' :: rest1) :
    parseMembers (f + 1) done (quote k ++ ':' :: tail) =
      some (.obj (JSObject.put done k v), rest1) := by
  have e1 : ('}' : Char) ≠ ',' := by decide
  rw [parseMembers_key, hv]
  simp only [hr, e1, if_false, if_true]

theorem number_head_ne {c : Char} (h : c = '-' ∨ isDigit c = true) :
    c ≠ '{' ∧ c ≠ '[' ∧ c ≠ '"' ∧ c ≠ 'n' ∧ c ≠ 't' ∧ c ≠ 'f' := by
  refine ⟨?_, ?_, ?_, ?_, ?_, ?_⟩ <;> intro he <;> subst he <;> revert h <;> decide

theorem length_stringifyValue_pos (ind : Nat) (v : Json) : 0 < (stringifyValue ind v).length := by
  obtain ⟨c, cs, h, -⟩ := stringifyValue_head ind v
  rw [h]; simp

theorem skipWhitespace_value (ind : Nat) (v : Json) (ws tail : List Char)
    (h : ∀ c ∈ ws, isWhitespace c = true) :
    ∃ c cs, skipWhitespace (ws ++ (stringifyValue ind v ++ tail)) = c :: cs ∧ Opens c := by
  obtain ⟨c, cs, hv, ho⟩ := stringifyValue_head ind v
  refine ⟨c, cs ++ tail, ?_, ho⟩
  rw [skipWhitespace_append _ _ h, hv, List.cons_append, skipWhitespace_cons _ _ ho.1]

theorem skipWhitespace_quote (k : String) (ws tail : List Char)
    (h : ∀ c ∈ ws, isWhitespace c = true) :
    ∃ cs, skipWhitespace (ws ++ (quote k ++ tail)) = '"' :: cs := by
  refine ⟨k.data.flatMap escapeChar ++ ['"'] ++ tail, ?_⟩
  rw [skipWhitespace_append _ _ h, quote, List.cons_append, skipWhitespace_cons _ _ (by decide)]

mutual
theorem parseValue_stringifyValue : ∀ (v : Json) (ind fuel : Nat) (rest : List Char),
    v.canonical = true → Follows rest → 2 * (stringifyValue ind v).length ≤ fuel →
    parseValue fuel (stringifyValue ind v ++ rest) = some (v, rest)
  | .null, ind, fuel, rest, _, _, hfuel => by
    simp only [stringifyValue, List.length_cons, List.length_nil] at hfuel
    obtain ⟨f, rfl⟩ : ∃ f, fuel = f + 1 := ⟨fuel - 1, by omega⟩
    simp only [stringifyValue, List.cons_append, List.nil_append]
    rw [parseValue_succ, skipWhitespace_cons _ _ (by decide)]
    simp [afterWord]
  | .bool true, ind, fuel, rest, _, _, hfuel => by
    simp only [stringifyValue, List.length_cons, List.length_nil] at hfuel
    obtain ⟨f, rfl⟩ : ∃ f, fuel = f + 1 := ⟨fuel - 1, by omega⟩
    simp only [stringifyValue, List.cons_append, List.nil_append]
    rw [parseValue_succ, skipWhitespace_cons _ _ (by decide)]
    simp [afterWord]
  | .bool false, ind, fuel, rest, _, _, hfuel => by
    simp only [stringifyValue, List.length_cons, List.length_nil] at hfuel
    obtain ⟨f, rfl⟩ : ∃ f, fuel = f + 1 := ⟨fuel - 1, by omega⟩
    simp only [stringifyValue, List.cons_append, List.nil_append]
    rw [parseValue_succ, skipWhitespace_cons _ _ (by decide)]
    simp [afterWord]
  | .num n, ind, fuel, rest, hc, hf, hfuel => by
    have hpos := length_stringifyValue_pos ind (.num n)
    obtain ⟨f, rfl⟩ : ∃ f, fuel = f + 1 := ⟨fuel - 1, by omega⟩
    simp only [Json.canonical, decide_eq_true_eq] at hc
    have hnum := parseNumber_numberText n rest hf hc
    obtain ⟨c, cs, h, ho, hd⟩ := numberText_head n
    obtain ⟨e1, e2, e3, e4, e5, e6⟩ := number_head_ne hd
    simp only [stringifyValue]
    rw [h] at hnum ⊢
    rw [List.cons_append] at hnum ⊢
    rw [parseValue_succ, skipWhitespace_cons _ _ ho.1]
    simp only [e1, e2, e3, e4, e5, e6, if_false, hnum, Option.map_some']
  | .str s, ind, fuel, rest, _, _, hfuel => by
    have hpos := length_stringifyValue_pos ind (.str s)
    obtain ⟨f, rfl⟩ : ∃ f, fuel = f + 1 := ⟨fuel - 1, by omega⟩
    have e1 : ('"' : Char) ≠ '{' := by decide
    have e2 : ('"' : Char) ≠ '[' := by decide
    simp only [stringifyValue, quote, List.cons_append, List.append_assoc, List.nil_append]
    rw [parseValue_succ, skipWhitespace_cons _ _ (by decide)]
    simp only [e1, e2, if_false, if_true, parseChars_quote, Option.map_some']
  | .arr [], ind, fuel, rest, _, _, hfuel => by
    simp only [stringifyValue, List.length_cons, List.length_nil] at hfuel
    obtain ⟨f, rfl⟩ : ∃ f, fuel = f + 1 := ⟨fuel - 1, by omega⟩
    have e1 : ('[' : Char) ≠ '{' := by decide
    simp only [stringifyValue, List.cons_append, List.nil_append]
    rw [parseValue_succ, skipWhitespace_cons _ _ (by decide)]
    simp only [e1, if_false, if_true, skipWhitespace_cons ']' rest (by decide), List.head?_cons,
      List.tail_cons]
  | .arr (x :: xs), ind, fuel, rest, hc, _, hfuel => by
    simp only [stringifyValue, List.length_cons, List.length_append] at hfuel
    obtain ⟨f, rfl⟩ : ∃ f, fuel = f + 1 := ⟨fuel - 1, by omega⟩
    simp only [Json.canonical] at hc
    simp only [stringifyValue, List.cons_append, List.append_assoc, List.nil_append]
    obtain ⟨c0, cs0, hskip, ho⟩ := skipWhitespace_value (ind + 2) x ('\n' :: spaces (ind + 2))
      (stringifyItems (ind + 2) xs ++ '\n' :: (spaces ind ++ ']' :: rest))
      (isWhitespace_break _)
    rw [List.cons_append] at hskip
    rw [parseValue_array f _ c0 cs0 hskip ho.2.1]
    have := parseItems_stringifyItems (x :: xs) x xs rfl (ind + 2) ind f []
      ('\n' :: spaces (ind + 2)) rest hc (isWhitespace_break _) (by omega)
    rw [List.cons_append] at this
    exact this
  | .obj [], ind, fuel, rest, _, _, hfuel => by
    simp only [stringifyValue, List.length_cons, List.length_nil] at hfuel
    obtain ⟨f, rfl⟩ : ∃ f, fuel = f + 1 := ⟨fuel - 1, by omega⟩
    simp only [stringifyValue, List.cons_append, List.nil_append]
    rw [parseValue_succ, skipWhitespace_cons _ _ (by decide)]
    simp only [if_true, skipWhitespace_cons '}' rest (by decide), List.head?_cons,
      List.tail_cons]
  | .obj ((k, x) :: ps), ind, fuel, rest, hc, _, hfuel => by
    simp only [stringifyValue, List.length_cons, List.length_append] at hfuel
    obtain ⟨f, rfl⟩ : ∃ f, fuel = f + 1 := ⟨fuel - 1, by omega⟩
    simp only [Json.canonical, Bool.and_eq_true] at hc
    simp only [stringifyValue, List.cons_append, List.append_assoc, List.nil_append]
    obtain ⟨cs0, hskip⟩ := skipWhitespace_quote k ('\n' :: spaces (ind + 2))
      (':' :: ' ' :: (stringifyValue (ind + 2) x ++ (stringifyMembers (ind + 2) ps ++
        '\n' :: (spaces ind ++ '}' :: rest)))) (isWhitespace_break _)
    rw [List.cons_append] at hskip
    rw [parseValue_object f _ '"' cs0 hskip (by decide)]
    have := parseMembers_stringifyMembers ((k, x) :: ps) k x ps rfl (ind + 2) ind f []
      ('\n' :: spaces (ind + 2)) rest hc.2 (by simpa using hc.1) (isWhitespace_break _)
      (by omega)
    rw [List.cons_append] at this
    exact this
theorem parseItems_stringifyItems : ∀ (l : List Json) (x : Json) (xs : List Json),
    l = x :: xs → ∀ (ind ind0 fuel : Nat) (done : List Json) (ws rest : List Char),
    canonicalItems l = true → (∀ c ∈ ws, isWhitespace c = true) →
    2 * ((stringifyValue ind x).length + (stringifyItems ind xs).length) + 1 ≤ fuel →
    parseItems fuel done (ws ++ (stringifyValue ind x ++ (stringifyItems ind xs ++
      '\n' :: (spaces ind0 ++ ']' :: rest)))) = some (.arr (done ++ l), rest)
  | [], _, _, h => by cases h
  | y :: ys, x, xs, h => by
    cases h
    intro ind ind0 fuel done ws rest hc hws hfuel
    obtain ⟨f, rfl⟩ : ∃ f, fuel = f + 1 := ⟨fuel - 1, by omega⟩
    simp only [canonicalItems, Bool.and_eq_true] at hc
    have hv : parseValue f (ws ++ (stringifyValue ind y ++ (stringifyItems ind ys ++
        '\n' :: (spaces ind0 ++ ']' :: rest)))) =
        some (y, stringifyItems ind ys ++ '\n' :: (spaces ind0 ++ ']' :: rest)) := by
      rw [parseValue_skip _ _ _ hws]
      exact parseValue_stringifyValue y ind f _ hc.1 (follows_items ind ind0 ys _) (by omega)
    cases ys with
    | nil =>
      refine parseItems_last f done _ _ rest y hv ?_
      simp only [stringifyItems, List.nil_append]
      have := skipWhitespace_append ('\n' :: spaces ind0) (']' :: rest) (isWhitespace_break _)
      rw [List.cons_append] at this
      rw [this, skipWhitespace_cons _ _ (by decide)]
    | cons z zs =>
      have hstep := parseItems_more f done _ _
        ('\n' :: (spaces ind ++ (stringifyValue ind z ++ (stringifyItems ind zs ++
          '\n' :: (spaces ind0 ++ ']' :: rest))))) y hv (by
        simp only [stringifyItems, List.cons_append, List.append_assoc]
        rw [skipWhitespace_cons _ _ (by decide)])
      rw [hstep]
      have hlen : (stringifyItems ind (z :: zs)).length =
          2 + ind + (stringifyValue ind z).length + (stringifyItems ind zs).length := by
        simp only [stringifyItems, List.length_cons, List.length_append, spaces,
          List.length_replicate]
        omega
      have := parseItems_stringifyItems (z :: zs) z zs rfl ind ind0 f (done ++ [y])
        ('\n' :: spaces ind) rest hc.2 (isWhitespace_break _) (by omega)
      rw [List.cons_append] at this
      rw [this, List.append_assoc]
      rfl
theorem parseMembers_stringifyMembers : ∀ (l : List (String × Json)) (k : String) (x : Json)
    (ps : List (String × Json)),
    l = (k, x) :: ps → ∀ (ind ind0 fuel : Nat) (done : JSObject Json) (ws rest : List Char),
    canonicalMembers l = true → entriesOrder (JSObject.keys done ++ JSObject.keys l) = true →
    (∀ c ∈ ws, isWhitespace c = true) →
    2 * ((stringifyValue ind x).length + (stringifyMembers ind ps).length) + 1 ≤ fuel →
    parseMembers fuel done (ws ++ (quote k ++ ':' :: ' ' :: (stringifyValue ind x ++
      (stringifyMembers ind ps ++ '\n' :: (spaces ind0 ++ '}' :: rest))))) =
      some (.obj (done ++ l), rest)
  | [], _, _, _, h => by cases h
  | (k2, y) :: qs, k, x, ps, h => by
    cases h
    intro ind ind0 fuel done ws rest hc hord hws hfuel
    obtain ⟨f, rfl⟩ : ∃ f, fuel = f + 1 := ⟨fuel - 1, by omega⟩
    simp only [canonicalMembers, Bool.and_eq_true] at hc
    have hput : JSObject.put done k2 y = done ++ [(k2, y)] := by
      apply put_of_entriesOrder
      apply entriesOrder_left _ (JSObject.keys qs)
      simpa [JSObject.keys] using hord
    have hv : parseValue f (' ' :: (stringifyValue ind y ++ (stringifyMembers ind qs ++
        '\n' :: (spaces ind0 ++ '}' :: rest)))) =
        some (y, stringifyMembers ind qs ++ '\n' :: (spaces ind0 ++ '}' :: rest)) := by
      have := parseValue_skip f [' '] (stringifyValue ind y ++ (stringifyMembers ind qs ++
        '\n' :: (spaces ind0 ++ '}' :: rest))) (by simp [isWhitespace])
      rw [List.singleton_append] at this
      rw [this]
      exact parseValue_stringifyValue y ind f _ hc.1 (follows_members ind ind0 qs _) (by omega)
    rw [parseMembers_skip _ _ _ _ hws]
    cases qs with
    | nil =>
      rw [parseMembers_last f done k2 _ _ rest y hv, hput]
      simp only [stringifyMembers, List.nil_append]
      have := skipWhitespace_append ('\n' :: spaces ind0) ('}' :: rest) (isWhitespace_break _)
      rw [List.cons_append] at this
      rw [this, skipWhitespace_cons _ _ (by decide)]
    | cons q rs =>
      obtain ⟨k3, z⟩ := q
      have hstep := parseMembers_more f done k2 _ _
        ('\n' :: (spaces ind ++ (quote k3 ++ ':' :: ' ' :: (stringifyValue ind z ++
          (stringifyMembers ind rs ++ '\n' :: (spaces ind0 ++ '}' :: rest)))))) y hv (by
        simp only [stringifyMembers, List.cons_append, List.append_assoc]
        rw [skipWhitespace_cons _ _ (by decide)])
      rw [hstep, hput]
      have hlen : (stringifyMembers ind ((k3, z) :: rs)).length =
          4 + ind + (quote k3).length + (stringifyValue ind z).length +
            (stringifyMembers ind rs).length := by
        simp only [stringifyMembers, List.length_cons, List.length_append, spaces,
          List.length_replicate]
        omega
      have := parseMembers_stringifyMembers ((k3, z) :: rs) k3 z rs rfl ind ind0 f
        (done ++ [(k2, y)]) ('\n' :: spaces ind) rest hc.2
        (by simpa [JSObject.keys] using hord) (isWhitespace_break _) (by omega)
      rw [List.cons_append] at this
      rw [this, List.append_assoc]
      rfl
end

/-- The text of a small object, with the indentation of two spaces. -/
theorem stringify_example :
    (Json.obj [("a", .arr [.num 1, .num (-20)]), ("b", .obj []), ("c", .str "x\"y\n")]).stringify
      = "\x7b\n  \"a\": [\n    1,\n    -20\n  ],\n  \"b\": \x7b\x7d,\n  \"c\": \"x\\\"y\\n\"\n\x7d" := by
  rfl

/-- A text with a repeated key and an array-index key: the repeated key takes the later
value, the array index is enumerated first. -/
theorem parse_example :
    Json.parse "\x7b\"b\": [1, -20], \"1\": null, \"b\": true\x7d"
      = some (.obj [("1", .null), ("b", .bool true)]) := by
  rfl

/-- Texts that are not JSON, or hold a number outside the embedding, do not parse. -/
theorem parse_rejects :
    Json.parse "[1,]" = none ∧ Json.parse "01" = none ∧ Json.parse "1.5" = none ∧
      Json.parse "9007199254740992" = none ∧ Json.parse "" = none := by
  refine ⟨?_, ?_, ?_, ?_, ?_⟩ <;> rfl

/-- `JSON.parse` undoes `JSON.stringify(value, null, 2)` on every canonical value. -/
theorem parse_stringify (v : Json) (h : v.canonical = true) :
    Json.parse v.stringify = some v := by
  unfold Json.parse Json.stringify
  have := parseValue_stringifyValue v 0 (2 * (stringifyValue 0 v).length) [] h
    (fun c hc => by cases hc) (le_refl _)
  rw [List.append_nil] at this
  simp only [this]
  rfl

/-! ## Export -/

theorem canonical_get? (props : List (String × Json)) (k : String) (v : Json)
    (h : canonicalMembers props = true) (hg : JSObject.get? props k = some v) :
    v.canonical = true := by
  induction props with
  | nil => cases hg
  | cons e rest ih =>
    obtain ⟨k2, x⟩ := e
    simp only [canonicalMembers, Bool.and_eq_true] at h
    simp only [JSObject.get?] at hg
    split at hg
    · cases hg; exact h.1
    · exact ih h.2 hg

theorem kept_canonical (raw : Json) (k : String) (v : Json) (h : raw.canonical = true)
    (hk : kept raw k = some v) : v.canonical = true := by
  cases raw with
  | obj props =>
    simp only [Json.canonical, Bool.and_eq_true] at h
    unfold kept at hk
    simp only [Json.member] at hk
    cases hg : JSObject.get? props k with
    | none => rw [hg] at hk; cases hk
    | some x =>
      rw [hg] at hk
      cases hx : x.truthy
      · simp [Option.filter, hx] at hk
      · simp only [Option.filter, hx, if_true, Option.some.injEq] at hk
        rw [← hk]
        exact canonical_get? props k x h.2 hg
  | null => cases hk
  | bool b => cases hk
  | num n => cases hk
  | str s => cases hk
  | arr xs => cases hk

theorem getD_kept_canonical (raw : Json) (k : String) (dflt : Json) (h : raw.canonical = true)
    (hd : dflt.canonical = true) : ((kept raw k).getD dflt).canonical = true := by
  cases hk : kept raw k with
  | none => exact hd
  | some v => exact kept_canonical raw k v h hk

/-- The state `loadPreferences` returns is canonical when the stored value and the defaults
are. -/
theorem loadPreferencesRaw_canonical (slot : RawSlot) (d : RawDefaults) (now : String)
    (hd : (Json.obj d.object).canonical = true)
    (hs : ∀ v, slot = .json v → v.canonical = true) :
    (loadPreferencesRaw slot d now).canonical = true := by
  cases slot with
  | absent => exact hd
  | empty => exact hd
  | notJson => exact hd
  | json v =>
    have hv := hs v rfl
    by_cases hnull : v = Json.null
    · subst hnull; exact hd
    · rw [loadPreferencesRaw_json d v now hnull]
      split
      · exact hv
      · rw [migratePreferencesRaw_eq d v now hnull]
        have hm : canonicalMembers d.object = true := by
          simp only [Json.canonical, Bool.and_eq_true] at hd
          exact hd.2
        have h1 := canonical_get? d.object "viewHistory" _ hm rfl
        have h2 := canonical_get? d.object "pageFeedback" _ hm rfl
        have h3 := canonical_get? d.object "stylePreferences" _ hm rfl
        have h4 := canonical_get? d.object "userNotes" _ hm rfl
        have h5 := canonical_get? d.object "favorites" _ hm rfl
        have h6 := canonical_get? d.object "disliked" _ hm rfl
        have c0 : (Json.str VERSION).canonical = true := rfl
        have c1 := getD_kept_canonical v "created" (.str now) hv rfl
        have c2 : (Json.str d.updated).canonical = true := rfl
        have c3 := getD_kept_canonical v "viewHistory" _ hv h1
        have c4 := getD_kept_canonical v "pageFeedback" _ hv h2
        have c6 := getD_kept_canonical v "userNotes" _ hv h4
        have c7 := getD_kept_canonical v "favorites" _ hv h5
        have c8 := getD_kept_canonical v "disliked" _ hv h6
        show (Json.obj _).canonical = true
        rw [Json.canonical, Bool.and_eq_true]
        refine ⟨rfl, ?_⟩
        simp only [canonicalMembers, c0, c1, c2, c3, c4, h3, c6, c7, c8, Bool.and_self]

/-- The text exported parses to the state loaded at the time of the export. -/
theorem parse_exportPreferences (slot : RawSlot) (d : RawDefaults) (now : String)
    (hd : (Json.obj d.object).canonical = true)
    (hs : ∀ v, slot = .json v → v.canonical = true) :
    Json.parse (exportPreferences slot d now) = some (loadPreferencesRaw slot d now) :=
  parse_stringify _ (loadPreferencesRaw_canonical slot d now hd hs)

/-- The state loaded from a value of an older version that is not `null`. -/
theorem loadPreferencesRaw_legacy (d : RawDefaults) (v : Json) (now : String)
    (hnull : v ≠ Json.null) (hver : isVersion (v.member "version") = false) :
    loadPreferencesRaw (.json v) d now = .obj
      [("version", .str VERSION),
       ("created", (kept v "created").getD (.str now)),
       ("updated", .str d.updated),
       ("viewHistory", (kept v "viewHistory").getD (.arr d.viewHistory)),
       ("pageFeedback", (kept v "pageFeedback").getD (.obj d.pageFeedback)),
       ("stylePreferences", .obj d.stylePreferences),
       ("userNotes", (kept v "userNotes").getD (.arr d.userNotes)),
       ("favorites", (kept v "favorites").getD (.arr d.favorites)),
       ("disliked", (kept v "disliked").getD (.arr d.disliked))] := by
  rw [loadPreferencesRaw_json d v now hnull, hver, migratePreferencesRaw_eq d v now hnull]
  rfl

/-- C19, as stated, fails for a stored value of an older version whose `created` is absent
or falsy, here the empty string: the text exported a millisecond before the next
`loadPreferences()` parses to a state whose `created` is the time of the export, and the
state loaded next has the time of that load. -/
theorem export_differs_without_created :
    (∃ v, Json.parse (exportPreferences (.json legacyWithoutCreated) rawDefaults
          "2024-01-02T00:00:00.000Z") = some v ∧
        v.member "created" = some (.str "2024-01-02T00:00:00.000Z") ∧
        (loadPreferencesRaw (.json legacyWithoutCreated) rawDefaults
          "2024-01-02T00:00:00.001Z").member "created"
          = some (.str "2024-01-02T00:00:00.001Z")) ∧
    (∃ v, Json.parse (exportPreferences (.json legacyEmptyCreated) rawDefaults
          "2024-01-02T00:00:00.000Z") = some v ∧
        v.member "created" = some (.str "2024-01-02T00:00:00.000Z") ∧
        (loadPreferencesRaw (.json legacyEmptyCreated) rawDefaults
          "2024-01-02T00:00:00.001Z").member "created"
          = some (.str "2024-01-02T00:00:00.001Z")) :=
  ⟨⟨_, parse_exportPreferences _ _ _ rfl (fun v h => by cases h; rfl), rfl, rfl⟩,
    ⟨_, parse_exportPreferences _ _ _ rfl (fun v h => by cases h; rfl), rfl, rfl⟩⟩

/-- C19, amended. Let the stored value and the defaults be canonical: numbers are integers
below `2^53` in absolute value, object keys are in `Object.entries` order.  Whatever the
slot holds, the text `exportPreferences()` returns parses to the state `loadPreferences()`
returns at the time of the export.  It parses to the state the next `loadPreferences()`
returns if every stored value of an older version other than `null` has a truthy `created`;
and for a stored value of an older version other than `null` whose `created` is absent or
falsy it does not, once the time of the next call is rendered differently. -/
theorem export_round_trip (slot : RawSlot) (d : RawDefaults) (now1 now2 : String)
    (hd : (Json.obj d.object).canonical = true)
    (hs : ∀ v, slot = .json v → v.canonical = true) :
    Json.parse (exportPreferences slot d now1) = some (loadPreferencesRaw slot d now1) ∧
    ((∀ v, slot = .json v → v ≠ Json.null → isVersion (v.member "version") = false →
        (kept v "created").isSome = true) →
      Json.parse (exportPreferences slot d now1) = some (loadPreferencesRaw slot d now2)) ∧
    (∀ v, slot = .json v → v ≠ Json.null → isVersion (v.member "version") = false →
      kept v "created" = none → now1 ≠ now2 →
      Json.parse (exportPreferences slot d now1) ≠ some (loadPreferencesRaw slot d now2)) := by
  have h1 := parse_exportPreferences slot d now1 hd hs
  refine ⟨h1, fun hkeep => ?_, fun v hv hnull hver hk hne => ?_⟩
  · rw [h1]
    congr 1
    cases slot with
    | absent => rfl
    | empty => rfl
    | notJson => rfl
    | json v =>
      by_cases hnull : v = Json.null
      · subst hnull; rfl
      · cases hver : isVersion (v.member "version") with
        | true => rw [loadPreferencesRaw_json d v now1 hnull,
            loadPreferencesRaw_json d v now2 hnull, hver]; rfl
        | false =>
          have hc := hkeep v rfl hnull hver
          rw [loadPreferencesRaw_legacy d v now1 hnull hver,
            loadPreferencesRaw_legacy d v now2 hnull hver]
          cases hk : kept v "created" with
          | none => rw [hk] at hc; cases hc
          | some c => rfl
  · subst hv
    rw [h1, loadPreferencesRaw_legacy d v now1 hnull hver,
      loadPreferencesRaw_legacy d v now2 hnull hver, hk]
    intro h
    simp only [Option.getD_none, Option.some.injEq, Json.obj.injEq, List.cons.injEq,
      Prod.mk.injEq, Json.str.injEq, true_and, and_true] at h
    exact hne h

/-- Witness for C19, amended: a stored value of an older version with `created`. -/
theorem export_round_trip_witness :
    ((Json.obj rawDefaults.object).canonical = true ∧ legacyWithCreated.canonical = true ∧
      (kept legacyWithCreated "created").isSome = true) ∧
    Json.parse (exportPreferences (.json legacyWithCreated) rawDefaults
        "2024-01-02T00:00:00.000Z")
      = some (loadPreferencesRaw (.json legacyWithCreated) rawDefaults
        "2024-01-02T00:00:00.001Z") :=
  ⟨⟨rfl, rfl, rfl⟩,
    (export_round_trip (.json legacyWithCreated) rawDefaults "2024-01-02T00:00:00.000Z"
      "2024-01-02T00:00:00.001Z" rfl (fun v h => by cases h; rfl)).2.1
      (fun v h _ _ => by cases h; rfl)⟩

/-! ## Sessions without storage -/

/-- With style names that are not names of properties of `Object.prototype`, the style loop
completes and leaves built-in objects as they are. -/
theorem applyStyles_plain (plu : Option Timestamp) (k : Work) (feedback : Feedback)
    (hs : PlainStyles plu (feedback.styles.getD [])) :
    (applyStyles plu k feedback).raised = false ∧
      (applyStyles plu k feedback).log = HostLog.empty := by
  cases hst : feedback.styles with
  | none =>
    unfold applyStyles
    rw [hst]
    exact ⟨rfl, rfl⟩
  | some styles =>
    rw [hst] at hs
    obtain ⟨sp', hsp, -⟩ := updateStylePreferences_plain plu styles (styleWeight feedback.liked)
      hs k.prefs.stylePreferences
    rw [applyStyles_of_updateStylePreferences plu k feedback styles sp' hst hsp]
    exact ⟨rfl, rfl⟩

/-- With a page identifier and style names that are not names of properties of
`Object.prototype`, `recordFeedback` returns after its save. -/
theorem recordFeedback_plain_returns (w : World) (pageId : String) (feedback : Feedback)
    (now : Timestamp) (hp : inherited w.protoLastUpdated pageId = none)
    (hs : PlainStyles w.protoLastUpdated (feedback.styles.getD [])) :
    ∃ k, recordFeedback w pageId feedback now = .returned (savePreferences w k now) := by
  unfold recordFeedback
  have hres := resolveFeedback_plain w.protoLastUpdated (loadPreferences w now) pageId hp
  generalize resolveFeedback w.protoLastUpdated (loadPreferences w now) pageId = r at hres
  obtain ⟨k0, target⟩ := r
  obtain ⟨k', e, heq, -⟩ := hres
  cases heq
  simp only
  generalize hk1 : applyLiked _ pageId feedback.liked = k1
  obtain ⟨h1, h2⟩ := applyStyles_plain w.protoLastUpdated k1 feedback hs
  generalize applyStyles w.protoLastUpdated k1 feedback = s at h1 h2
  simp only [h1, Styled.outcome_intact s h2, Bool.false_eq_true, if_false]
  exact ⟨_, rfl⟩

/-- One plain operation on a page whose storage rejects writes and holds nothing: it
returns, and the slot still holds nothing. -/
theorem Op.run_blocked (w : World) (now : Timestamp) (op : Op) (hw : w.writable = false)
    (hslot : w.slot = .absent) (hplu : w.protoLastUpdated = none) (hp : op.Plain) :
    ∃ w', op.run w now = .returned w' ∧ w'.writable = false ∧ w'.slot = .absent ∧
      w'.protoLastUpdated = none := by
  have hsave : ∀ k, (savePreferences w k now).writable = false ∧
      (savePreferences w k now).slot = .absent ∧
      (savePreferences w k now).protoLastUpdated = none := by
    intro k
    refine ⟨hw, ?_, hplu⟩
    rw [savePreferences_slot, hw]
    exact hslot
  cases op with
  | view pageId pageName =>
    obtain ⟨k, hk, -, -⟩ := recordPageView_eq w pageId pageName now
    exact ⟨_, hk, (hsave k).1, (hsave k).2.1, (hsave k).2.2⟩
  | note text context =>
    obtain ⟨k, hk, -, -⟩ := addUserNote_eq w text context now
    exact ⟨_, hk, hsave k⟩
  | feedback pageId fb =>
    obtain ⟨hp1, hp2⟩ := hp
    rw [← hplu] at hp1 hp2
    obtain ⟨k, hk⟩ := recordFeedback_plain_returns w pageId fb now hp1 hp2
    exact ⟨_, hk, hsave k⟩

theorem runOps_blocked (ops : List (Op × Timestamp)) :
    ∀ w : World, w.writable = false → w.slot = .absent → w.protoLastUpdated = none →
      (∀ op ∈ ops, op.1.Plain) →
      ∃ w', runOps w ops = some w' ∧ w'.writable = false ∧ w'.slot = .absent ∧
        w'.protoLastUpdated = none := by
  induction ops with
  | nil => intro w hw hs hplu _; exact ⟨w, rfl, hw, hs, hplu⟩
  | cons e rest ih =>
    intro w hw hs hplu hp
    obtain ⟨op, now⟩ := e
    obtain ⟨w1, h1, hw1, hs1, hplu1⟩ :=
      Op.run_blocked w now op hw hs hplu (hp (op, now) (List.mem_cons_self _ _))
    obtain ⟨w', h', hrest⟩ := ih w1 hw1 hs1 hplu1
      (fun o ho => hp o (List.mem_cons_of_mem _ ho))
    refine ⟨w', ?_, hrest⟩
    simp only [runOps, h1]
    exact h'

/-- C20, failing input: page `p` liked and then disliked. With the storage rejecting
writes both calls return, and the state seen afterwards has `p` in `favorites` and in
`disliked`; with a working storage, from an empty slot, it has `p` in `disliked` only. -/
theorem blocked_storage_differs_from_working :
    ∃ wb wf, runOps blockedWorld likeThenDislike = some wb ∧
      runOps freshWorld likeThenDislike = some wf ∧
      (loadPreferences wb ⟨3⟩).prefs.favorites = ["p"] ∧
      (loadPreferences wb ⟨3⟩).prefs.disliked = ["p"] ∧
      (loadPreferences wf ⟨3⟩).prefs.favorites = [] ∧
      (loadPreferences wf ⟨3⟩).prefs.disliked = ["p"] :=
  ⟨_, _, rfl, rfl, by decide, by decide, by decide, by decide⟩

/-- With a storage that rejects every write and an empty slot, every sequence of recording
operations whose page identifiers and style names are not names of properties of
`Object.prototype` returns normally and leaves the slot empty, and the state seen by the
next `loadPreferences()` is the copy of `defaultPreferences` as the calls have left that
object; after `recordFeedback("p1", {rating: 5})` on a fresh page this state has the
rating 5. -/
theorem blocked_storage_session (w : World) (ops : List (Op × Timestamp))
    (hw : w.writable = false) (hslot : w.slot = .absent) (hplu : w.protoLastUpdated = none)
    (hp : ∀ op ∈ ops, op.1.Plain) :
    (∃ w', runOps w ops = some w' ∧ w'.slot = .absent ∧
      ∀ now, loadPreferences w' now = Work.ofDefaults w'.defaults) ∧
    (∃ w1, recordFeedback blockedWorld "p1" (ratingOnly 5) ⟨1⟩ = .returned w1 ∧
      (JSObject.get? (loadPreferences w1 ⟨2⟩).prefs.pageFeedback "p1").map
        (fun e => e.ratings.map (fun r => r.value)) = some [5]) := by
  refine ⟨?_, _, rfl, by decide⟩
  obtain ⟨w', h', -, hs', -⟩ := runOps_blocked ops w hw hslot hplu hp
  refine ⟨w', h', hs', fun now => ?_⟩
  unfold loadPreferences
  rw [hs']

/-- Page `p` liked and then disliked, without storage. -/
theorem blocked_storage_session_witness :
    (blockedWorld.writable = false ∧ blockedWorld.slot = .absent ∧
      blockedWorld.protoLastUpdated = none ∧ ∀ op ∈ likeThenDislike, op.1.Plain) ∧
    ∃ w', runOps blockedWorld likeThenDislike = some w' ∧ w'.slot = .absent ∧
      ∀ now, loadPreferences w' now = Work.ofDefaults w'.defaults :=
  ⟨⟨rfl, rfl, rfl, by
      intro op hop
      simp only [likeThenDislike, List.mem_cons, List.mem_singleton, List.not_mem_nil,
        or_false] at hop
      rcases hop with h | h <;> subst h <;> exact ⟨by decide, by decide⟩⟩,
    (blocked_storage_session blockedWorld likeThenDislike rfl rfl rfl (by
      intro op hop
      simp only [likeThenDislike, List.mem_cons, List.mem_singleton, List.not_mem_nil,
        or_false] at hop
      rcases hop with h | h <;> subst h <;> exact ⟨by decide, by decide⟩)).1⟩

/-! ## The duration patch -/

theorem setLastDuration_append (d : Int) (init : List ViewRecord) (r : ViewRecord) :
    setLastDuration d (init ++ [r]) = init ++ [{ r with duration := d }] := by
  induction init with
  | nil => rfl
  | cons a rest ih =>
    cases rest with
    | nil => rfl
    | cons b rest2 =>
      simp only [List.cons_append, setLastDuration] at ih ⊢
      exact congrArg (List.cons a) ih

/-- The world `updateLastViewDuration` leaves, in terms of the state it loads. -/
theorem updateLastViewDuration_eq (w : World) (d : Int) (now : Timestamp) :
    updateLastViewDuration w d now =
      if (loadPreferences w now).prefs.viewHistory = [] then .returned w
      else .returned (savePreferences w
        ((loadPreferences w now).mutViewHistory
          (setLastDuration d (loadPreferences w now).prefs.viewHistory)) now) := by
  unfold updateLastViewDuration
  by_cases h : (loadPreferences w now).prefs.viewHistory = []
  · simp [h]
  · have hpos : (loadPreferences w now).prefs.viewHistory.length > 0 :=
      List.length_pos.2 h
    simp only [if_neg h, if_pos hpos]

/-- C23, as stated, fails for a persisted state of an older version.  The slot holds one view
record, the style vector `{ colorSchemes: { dark: 3 } }` and no `created`: the call
`updateLastViewDuration(7)` persists the record with the duration 7, and also the style
vector of `defaultPreferences` in place of the stored one and a `created` that the stored
state did not have. -/
theorem updateLastViewDuration_rewrites_legacy_state :
    legacyStyledWorld.slot = .legacy legacyStyled ∧
    legacyStyled.stylePreferences = some [("colorSchemes", [("dark", .num 3)])] ∧
    legacyStyled.created = none ∧
    ∃ w' p, updateLastViewDuration legacyStyledWorld 7 ⟨5⟩ = .returned w' ∧
      w'.slot = .current p ∧
      p.viewHistory = [{ view "a" 1 with duration := 7 }] ∧
      p.stylePreferences = defaultStylePreferences ∧
      p.stylePreferences ≠ [("colorSchemes", [("dark", .num 3)])] ∧
      p.created = ⟨5⟩ :=
  ⟨rfl, rfl, rfl, _, _, rfl, rfl, by decide, by decide, by decide, by decide⟩

/-- C23, amended. `updateLastViewDuration(d)` acts on the state `loadPreferences()` returns:
the stored state when it has the current version, the migrated state when it is of an older
version.  On a non-empty `viewHistory` of that state the call returns and, with a working
storage, persists that state with the `duration` of the last record set to `d`, `updated`
set to the current time and nothing else changed (the same records in the same order); when
the storage rejects the write the slot stays as it was.  On an empty `viewHistory` the call
returns and leaves everything, the slot included, as it was. -/
theorem updateLastViewDuration_patches_last (w : World) (d : Int) (now : Timestamp) :
    (∀ init r, (loadPreferences w now).prefs.viewHistory = init ++ [r] →
      ∃ w', updateLastViewDuration w d now = .returned w' ∧
        w'.slot = if w.writable = true then .current
          { (loadPreferences w now).prefs with
            viewHistory := init ++ [{ r with duration := d }], updated := now }
          else w.slot) ∧
    ((loadPreferences w now).prefs.viewHistory = [] →
      updateLastViewDuration w d now = .returned w) ∧
    (∀ p, w.slot = .current p → (loadPreferences w now).prefs = p) ∧
    (∀ o, w.slot = .legacy o →
      (loadPreferences w now).prefs = (migratePreferences w.defaults o now).prefs) := by
  refine ⟨fun init r hv => ?_, fun hv => ?_, fun p hp => loadPreferences_current now hp,
    fun o ho => ?_⟩
  · have hne : (loadPreferences w now).prefs.viewHistory ≠ [] := by
      rw [hv]; simp
    rw [updateLastViewDuration_eq, if_neg hne]
    refine ⟨_, rfl, ?_⟩
    rw [savePreferences_slot, hv, setLastDuration_append]
    cases hw : w.writable
    · simp
    · simp only [if_true, Work.mutViewHistory]
  · rw [updateLastViewDuration_eq, if_pos hv]
  · unfold loadPreferences
    rw [ho]

/-- Witness for C23, amended: a stored history of two views, patched with 7 seconds. -/
theorem updateLastViewDuration_patches_last_witness :
    (loadPreferences (worldWith (prefsWithHistory oneAndTwoSeconds)) ⟨5⟩).prefs.viewHistory
      = [view "a" 1] ++ [view "a" 2] ∧
    ∃ w', updateLastViewDuration (worldWith (prefsWithHistory oneAndTwoSeconds)) 7 ⟨5⟩
        = .returned w' ∧
      w'.slot = .current
        { prefsWithHistory oneAndTwoSeconds with
          viewHistory := [view "a" 1] ++ [{ view "a" 2 with duration := 7 }],
          updated := ⟨5⟩ } :=
  ⟨rfl,
    (updateLastViewDuration_patches_last (worldWith (prefsWithHistory oneAndTwoSeconds))
      7 ⟨5⟩).1 [view "a" 1] (view "a" 2) rfl⟩

/-! ## Feedback logs -/

theorem logFeedback_eq (e : PageFeedback) (feedback : Feedback) (now : Timestamp) :
    logFeedback e feedback now =
      { ratings := e.ratings ++ newRatings feedback now,
        comments := e.comments ++ newComments feedback now,
        lastUpdated := e.lastUpdated } := by
  unfold logFeedback newRatings newComments
  cases feedback.rating <;> cases feedback.commentText <;> simp

theorem applyLiked_pageFeedback (k : Work) (pageId : String) (liked : Option Bool) :
    (applyLiked k pageId liked).prefs.pageFeedback = k.prefs.pageFeedback := by
  rcases liked with _ | _ | _ <;> simp only [applyLiked]
  · split <;> rfl
  · split <;> rfl

theorem applyStyles_pageFeedback (plu : Option Timestamp) (k : Work) (feedback : Feedback) :
    (applyStyles plu k feedback).work.prefs.pageFeedback = k.prefs.pageFeedback := by
  unfold applyStyles
  cases feedback.styles with
  | none => rfl
  | some styles =>
    simp only
    cases styleLoop plu HostLog.empty k.prefs.stylePreferences styles
      (styleWeight feedback.liked) <;> rfl

/-- For a page identifier that is not the name of a property of `Object.prototype`, lines
161-169 find the own entry of the page or create the empty one, and touch no other entry. -/
theorem resolveFeedback_plain_entry (plu : Option Timestamp) (k : Work) (pageId : String)
    (h : inherited plu pageId = none) :
    ∃ k', resolveFeedback plu k pageId = (k', .own (entryOf k.prefs.pageFeedback pageId)) ∧
      ∀ q, q ≠ pageId →
        JSObject.get? k'.prefs.pageFeedback q = JSObject.get? k.prefs.pageFeedback q := by
  unfold resolveFeedback entryOf
  cases hget : JSObject.get? k.prefs.pageFeedback pageId with
  | some e => exact ⟨k, rfl, fun _ _ => rfl⟩
  | none =>
    simp only [h]
    refine ⟨_, rfl, fun q hq => ?_⟩
    show JSObject.get? (JSObject.put k.prefs.pageFeedback pageId _) q = _
    rw [JSObject.get?_put, if_neg hq]

/-- The feedback entries a call of `recordFeedback` saves, for a page identifier and style
names that are not names of properties of `Object.prototype`: the entry of the page with
the new rating and the new comment appended and `lastUpdated` set; every other entry as
loaded. -/
theorem recordFeedback_plain_entries (w : World) (pageId : String) (feedback : Feedback)
    (now : Timestamp) (hp : inherited w.protoLastUpdated pageId = none)
    (hs : PlainStyles w.protoLastUpdated (feedback.styles.getD [])) :
    ∃ k, recordFeedback w pageId feedback now = .returned (savePreferences w k now) ∧
      JSObject.get? k.prefs.pageFeedback pageId = some
        { ratings := (entryOf (loadPreferences w now).prefs.pageFeedback pageId).ratings
            ++ newRatings feedback now,
          comments := (entryOf (loadPreferences w now).prefs.pageFeedback pageId).comments
            ++ newComments feedback now,
          lastUpdated := some now } ∧
      ∀ q, q ≠ pageId → JSObject.get? k.prefs.pageFeedback q
        = JSObject.get? (loadPreferences w now).prefs.pageFeedback q := by
  unfold recordFeedback
  have hres := resolveFeedback_plain_entry w.protoLastUpdated (loadPreferences w now) pageId hp
  generalize resolveFeedback w.protoLastUpdated (loadPreferences w now) pageId = r at hres
  obtain ⟨k0, target⟩ := r
  obtain ⟨k', heq, hother⟩ := hres
  cases heq
  simp only
  generalize hk1 : applyLiked _ pageId feedback.liked = k1
  obtain ⟨h1, h2⟩ := applyStyles_plain w.protoLastUpdated k1 feedback hs
  have hpf := applyStyles_pageFeedback w.protoLastUpdated k1 feedback
  have hk1pf := congrArg (fun k : Work => k.prefs.pageFeedback) hk1
  simp only [applyLiked_pageFeedback] at hk1pf
  rw [← hk1pf] at hpf
  generalize applyStyles w.protoLastUpdated k1 feedback = s at h1 h2 hpf
  simp only [h1, Styled.outcome_intact s h2, Bool.false_eq_true, if_false]
  refine ⟨_, rfl, ?_, fun q hq => ?_⟩
  · show JSObject.get? (JSObject.put s.work.prefs.pageFeedback pageId _) pageId = _
    rw [JSObject.get?_put, if_pos rfl, logFeedback_eq]
  · show JSObject.get? (JSObject.put s.work.prefs.pageFeedback pageId _) q = _
    rw [JSObject.get?_put, if_neg hq, hpf]
    show JSObject.get? (JSObject.put k0.prefs.pageFeedback pageId _) q = _
    rw [JSObject.get?_put, if_neg hq, hother q hq]

/-- The feedback entries `recordFeedback` persists, for a stored state of the current
version, a working storage, and a page identifier and style names that are not names of
properties of `Object.prototype`: the ratings and comments of the page are the previous
ones followed by the new rating (if `feedback.rating` is present) and the new comment (if
`feedback.comment` is a non-empty string); the entry of every other page is as before. -/
theorem recordFeedback_appends_plain (w : World) (p : Prefs) (pageId : String)
    (feedback : Feedback) (now : Timestamp) (hw : w.writable = true) (hs : w.slot = .current p)
    (hp : inherited w.protoLastUpdated pageId = none)
    (hst : PlainStyles w.protoLastUpdated (feedback.styles.getD [])) :
    ∃ w' p', recordFeedback w pageId feedback now = .returned w' ∧ w'.slot = .current p' ∧
      JSObject.get? p'.pageFeedback pageId = some
        { ratings := (entryOf p.pageFeedback pageId).ratings ++ newRatings feedback now,
          comments := (entryOf p.pageFeedback pageId).comments ++ newComments feedback now,
          lastUpdated := some now } ∧
      ∀ q, q ≠ pageId → JSObject.get? p'.pageFeedback q = JSObject.get? p.pageFeedback q := by
  obtain ⟨k, hk, hentry, hother⟩ := recordFeedback_plain_entries w pageId feedback now hp hst
  rw [loadPreferences_current now hs] at hentry hother
  refine ⟨_, { k.prefs with updated := now }, hk, ?_, hentry, hother⟩
  rw [savePreferences_slot, hw, if_pos rfl]

/-- C25, failing input. On the persisted default state
`recordFeedback("constructor", {rating: 5})` raises a `TypeError` and leaves the slot as it
was: no rating has been appended for the page, where the claim has the ratings of the page
grow by one entry of value 5. -/
theorem recordFeedback_drops_rating_of_inherited_page_id :
    recordFeedback (worldWith defaultPrefs) "constructor" (ratingOnly 5) ⟨1⟩
      = .threw (worldWith defaultPrefs) ∧
    (worldWith defaultPrefs).slot = .current defaultPrefs ∧
    JSObject.get? defaultPrefs.pageFeedback "constructor" = none ∧
    newRatings (ratingOnly 5) ⟨1⟩ = [{ value := 5, timestamp := ⟨1⟩ }] :=
  ⟨by decide, rfl, by decide, rfl⟩

/-! ## Empty page identifiers -/

theorem inherited_empty (plu : Option Timestamp) : inherited plu "" = none := by
  unfold inherited
  rw [if_neg (by decide), if_neg (by decide), if_neg (by decide)]

/-- C22, as stated, fails: on the persisted default state `recordPageView("", "x")`
persists a view record with the empty page identifier, and
`recordFeedback("", {liked: true})` persists a feedback entry under the empty key and the
empty identifier in `favorites`. -/
theorem empty_pageId_is_not_ignored :
    defaultPrefs.viewHistory = [] ∧ defaultPrefs.pageFeedback = [] ∧
    defaultPrefs.favorites = [] ∧
    (∃ w' p', recordPageView (worldWith defaultPrefs) "" "x" ⟨1⟩ = .returned w' ∧
      w'.slot = .current p' ∧ p'.viewHistory = [newView "" "x" ⟨1⟩]) ∧
    (∃ w' p', recordFeedback (worldWith defaultPrefs) "" (likedOnly true) ⟨1⟩ = .returned w' ∧
      w'.slot = .current p' ∧
      p'.pageFeedback = [("", { ratings := [], comments := [], lastUpdated := some ⟨1⟩ })] ∧
      p'.favorites = [""]) :=
  ⟨rfl, rfl, rfl, ⟨_, _, rfl, rfl, by decide⟩, ⟨_, _, rfl, rfl, by decide, by decide⟩⟩

/-- C22, amended. With a working storage and a stored state of the current version, the
calls with the empty page identifier do not raise and are recorded like those of any other
page: `recordPageView("", pageName)` persists the history with the new record appended
(the last 100 of them), and `recordFeedback("", feedback)`, for style names that are not
names of properties of `Object.prototype`, persists the feedback entry of the key `""`
with the new rating and comment appended and `lastUpdated` set. -/
theorem empty_pageId_is_recorded (w : World) (p : Prefs) (pageName : String)
    (feedback : Feedback) (now : Timestamp) (hw : w.writable = true) (hs : w.slot = .current p)
    (hst : PlainStyles w.protoLastUpdated (feedback.styles.getD [])) :
    (∃ w' p', recordPageView w "" pageName now = .returned w' ∧ w'.slot = .current p' ∧
      p'.viewHistory = sliceLast 100 (p.viewHistory ++ [newView "" pageName now])) ∧
    (∃ w' p', recordFeedback w "" feedback now = .returned w' ∧ w'.slot = .current p' ∧
      JSObject.get? p'.pageFeedback "" = some
        { ratings := (entryOf p.pageFeedback "").ratings ++ newRatings feedback now,
          comments := (entryOf p.pageFeedback "").comments ++ newComments feedback now,
          lastUpdated := some now }) := by
  constructor
  · obtain ⟨k, hk, hvh, -⟩ := recordPageView_eq w "" pageName now
    rw [loadPreferences_current now hs] at hvh
    refine ⟨_, { k.prefs with updated := now }, hk, ?_, hvh⟩
    show (savePreferences w k now).slot = _
    rw [savePreferences_slot, hw, if_pos rfl]
  · obtain ⟨w', p', h1, h2, h3, -⟩ :=
      recordFeedback_appends_plain w p "" feedback now hw hs (inherited_empty _) hst
    exact ⟨w', p', h1, h2, h3⟩

/-- Witness for C22, amended: the persisted default state and the feedback `{ liked: true }`. -/
theorem empty_pageId_is_recorded_witness :
    ((worldWith defaultPrefs).writable = true ∧
      (worldWith defaultPrefs).slot = .current defaultPrefs ∧
      PlainStyles (worldWith defaultPrefs).protoLastUpdated ((likedOnly true).styles.getD [])) ∧
    ∃ w' p', recordPageView (worldWith defaultPrefs) "" "x" ⟨1⟩ = .returned w' ∧
      w'.slot = .current p' ∧
      p'.viewHistory = sliceLast 100 (defaultPrefs.viewHistory ++ [newView "" "x" ⟨1⟩]) :=
  ⟨⟨rfl, rfl, by decide⟩,
    (empty_pageId_is_recorded (worldWith defaultPrefs) defaultPrefs "x" (likedOnly true) ⟨1⟩
      rfl rfl (by decide)).1⟩

/-! ## Unload -/

/-- C24, failing input. Two calls of `recordPageView` in one page session, for the pages `a`
and `b` at 0 s and 1 s, arm two listeners; at the unload event at 3 s both run and both write
the last record: the record of `b` is written twice (3, then 2) and the record of `a` is
never patched, where the claim has each record written at most once. -/
theorem unload_writes_last_record_twice :
    ∃ w2 w3, recordPageViews freshWorld twoViews = some w2 ∧
      w2.armed = [⟨0⟩, ⟨1000⟩] ∧
      persistedDurations w2 = [0, 0] ∧
      durationWrites w2 w2.armed ⟨3000⟩ = [(1, 3), (1, 2)] ∧
      unload w2 ⟨3000⟩ = some w3 ∧
      persistedDurations w3 = [0, 2] :=
  ⟨_, _, rfl, by decide, by decide, by decide, rfl, by decide⟩

theorem durationWrites_single (w1 : World) (p1 : Prefs) (t now : Timestamp)
    (hs : w1.slot = .current p1) (hne : p1.viewHistory ≠ []) :
    durationWrites w1 [t] now = [(p1.viewHistory.length - 1, observedDuration t now)] := by
  have hload : (loadPreferences w1 now).prefs = p1 := loadPreferences_current now hs
  have hpos : p1.viewHistory.length > 0 := List.length_pos.2 hne
  simp only [durationWrites, hload, if_pos hpos, updateLastViewDuration_eq, if_neg hne,
    List.append_nil]

/-- With one call of `recordPageView` in the page session (no listener armed before it) and
a working storage, the unload event writes once, to the record the call appended. -/
theorem unload_single_view (w : World) (pageId pageName : String) (t now : Timestamp)
    (hw : w.writable = true) (ha : w.armed = []) :
    ∃ w1 p1, recordPageView w pageId pageName t = .returned w1 ∧ w1.slot = .current p1 ∧
      p1.viewHistory.getLast? = some (newView pageId pageName t) ∧
      durationWrites w1 w1.armed now = [(p1.viewHistory.length - 1, observedDuration t now)] := by
  obtain ⟨k, hk, hvh, -⟩ := recordPageView_eq w pageId pageName t
  have hslot : ({ savePreferences w k t with armed := w.armed ++ [t] } : World).slot
      = .current { k.prefs with updated := t } := by
    show (savePreferences w k t).slot = _
    rw [savePreferences_slot, hw, if_pos rfl]
  have hlast : k.prefs.viewHistory.getLast? = some (newView pageId pageName t) := by
    rw [hvh, sliceLast]
    rw [List.getLast?_drop]
    simp
    omega
  have hne : k.prefs.viewHistory ≠ [] := by
    intro h
    rw [h] at hlast
    cases hlast
  refine ⟨_, _, hk, hslot, hlast, ?_⟩
  show durationWrites _ (w.armed ++ [t]) now = _
  rw [ha]
  exact durationWrites_single _ _ t now hslot hne

/-! ## Recording on an untyped state -/

/-- C21, failing inputs. The slot holds `{"version": "1.0.0"}`: `loadPreferences` returns
that object as it is, and `recordPageView("a", "A")` raises the `TypeError` of
`prefs.viewHistory.push`; on an empty slot the same call returns. And on a fresh page
`recordFeedback("constructor", {rating: 5})` raises a `TypeError`. -/
theorem recordPageView_raises_on_partial_state :
    (∃ props, loadPreferencesRaw (.json versionOnly) rawDefaults "2024-06-01T00:00:00.000Z"
        = Json.obj props ∧ JSObject.get? props "viewHistory" = none) ∧
    recordPageViewRaw (.json versionOnly) rawDefaults "a" "A" "2024-06-01T00:00:00.000Z"
      = none ∧
    (recordPageViewRaw .absent rawDefaults "a" "A" "2024-06-01T00:00:00.000Z").isSome = true ∧
    recordFeedback freshWorld "constructor" (ratingOnly 5) ⟨1⟩ = .threw freshWorld :=
  ⟨⟨_, rfl, rfl⟩, rfl, rfl, by decide⟩

/-! ## Order of style updates -/

/-- C26, failing input. On the default vector, the update `{colorSchemes: "toString"}` with
weight `1` followed by the same with weight `-1` gives `colorSchemes.toString` the text of
the inherited function followed by `1-1`; in the other order the text ends in `-11`. The
two orders differ, and a like followed by a dislike does not restore the vector: it has
created the label `toString`. -/
theorem updateStylePreferences_order_matters :
    (updateTwice none defaultStylePreferences [("colorSchemes", "toString")] 1
        [("colorSchemes", "toString")] (-1)).bind
      (fun sp => score sp "colorSchemes" "toString")
      = some (.text (.nativeFn "toString") [1, -1]) ∧
    (updateTwice none defaultStylePreferences [("colorSchemes", "toString")] (-1)
        [("colorSchemes", "toString")] 1).bind
      (fun sp => score sp "colorSchemes" "toString")
      = some (.text (.nativeFn "toString") [-1, 1]) ∧
    updateTwice none defaultStylePreferences [("colorSchemes", "toString")] 1
        [("colorSchemes", "toString")] (-1)
      ≠ updateTwice none defaultStylePreferences [("colorSchemes", "toString")] (-1)
        [("colorSchemes", "toString")] 1 ∧
    updateTwice none defaultStylePreferences [("colorSchemes", "toString")] 1
        [("colorSchemes", "toString")] (-1)
      ≠ some defaultStylePreferences :=
  ⟨by decide, by decide, by decide, by decide⟩

/-- An object is determined by the order of its keys and the value of each key. -/
theorem JSObject.ext_of_get? {α : Type} :
    ∀ (a b : List (String × α)), JSObject.keys a = JSObject.keys b → (JSObject.keys a).Nodup →
      (∀ k, JSObject.get? a k = JSObject.get? b k) → a = b := by
  intro a
  induction a with
  | nil =>
    intro b hk _ _
    cases b with
    | nil => rfl
    | cons e rest => simp [JSObject.keys] at hk
  | cons e ra ih =>
    intro b hk hnd hget
    cases b with
    | nil => simp [JSObject.keys] at hk
    | cons e' rb =>
      obtain ⟨k, v⟩ := e
      obtain ⟨k', v'⟩ := e'
      simp only [JSObject.keys, List.map_cons, List.cons.injEq] at hk
      obtain ⟨hkk, hrest⟩ := hk
      subst hkk
      simp only [JSObject.keys, List.map_cons, List.nodup_cons] at hnd
      have hv : v = v' := by
        have := hget k
        simpa [JSObject.get?] using this
      subst hv
      congr 1
      apply ih rb hrest hnd.2
      intro q
      by_cases hq : k = q
      · subst hq
        rw [(JSObject.get?_eq_none_iff ra k).2 hnd.1,
          (JSObject.get?_eq_none_iff rb k).2 (by
            show k ∉ List.map Prod.fst rb
            rw [← hrest]; exact hnd.1)]
      · have := hget q
        simpa [JSObject.get?, hq] using this

theorem addEach_num (styles : List (String × String)) (c l : String) (weight n : Int) :
    addEach styles c l weight (.num n)
      = .num (n + ((styles.filter (fun e => decide (e = (c, l)))).length : Int) * weight) := by
  unfold addEach
  generalize styles.filter (fun e => decide (e = (c, l))) = hits
  induction hits generalizing n with
  | nil => simp
  | cons h t ih =>
    rw [List.foldl_cons]
    show List.foldl (fun s _ => s.add weight) (Scalar.num (n + weight)) t = _
    rw [ih]
    congr 1
    rw [List.length_cons]
    push_cast
    ring

theorem score_numeric {sp : List (String × JSObject Scalar)} (hnum : NumericScores sp)
    {c l : String} {s : Scalar} (h : score sp c l = some s) : ∃ n, s = Scalar.num n := by
  unfold score at h
  cases hc : JSObject.get? sp c with
  | none => rw [hc] at h; cases h
  | some cat =>
    rw [hc] at h
    exact hnum _ (JSObject.mem_of_get? hc) _ (JSObject.mem_of_get? h)

/-- Two style vectors with the same categories, the same labels and the same scores are
equal. -/
theorem styles_ext (a b : List (String × JSObject Scalar))
    (hk : JSObject.keys a = JSObject.keys b) (hwf : WellFormedStyles a)
    (hl : ∀ c, labelsOf a c = labelsOf b c) (hs : ∀ c l, score a c l = score b c l) :
    a = b := by
  apply JSObject.ext_of_get? a b hk hwf.1
  intro c
  have hlc := hl c
  have hsc := hs c
  unfold labelsOf at hlc
  unfold score at hsc
  cases ha : JSObject.get? a c with
  | none =>
    rw [ha] at hlc
    cases hb : JSObject.get? b c with
    | none => rfl
    | some catB => rw [hb] at hlc; cases hlc
  | some catA =>
    rw [ha] at hlc hsc
    cases hb : JSObject.get? b c with
    | none => rw [hb] at hlc; cases hlc
    | some catB =>
      rw [hb] at hlc hsc
      have hkeys : JSObject.keys catA = JSObject.keys catB := Option.some.inj hlc
      have hnd : (JSObject.keys catA).Nodup := hwf.2 _ (JSObject.mem_of_get? ha)
      rw [JSObject.ext_of_get? catA catB hkeys hnd hsc]

/-- An update with plain names keeps a style vector well-formed. -/
theorem wellFormed_of_same_labels (sp sp' : List (String × JSObject Scalar))
    (hwf : WellFormedStyles sp) (hk : JSObject.keys sp' = JSObject.keys sp)
    (hl : ∀ c, labelsOf sp' c = labelsOf sp c) : WellFormedStyles sp' := by
  refine ⟨hk ▸ hwf.1, fun e he => ?_⟩
  have hnd' : (JSObject.keys sp').Nodup := hk ▸ hwf.1
  have hget : JSObject.get? sp' e.1 = some e.2 := JSObject.get?_of_mem hnd' he
  have hle := hl e.1
  unfold labelsOf at hle
  rw [hget] at hle
  cases hc : JSObject.get? sp e.1 with
  | none => rw [hc] at hle; cases hle
  | some cat =>
    rw [hc] at hle
    have : JSObject.keys e.2 = JSObject.keys cat := Option.some.inj hle
    rw [this]
    exact hwf.2 _ (JSObject.mem_of_get? hc)

/-- What two updates with plain names do to a well-formed vector of numeric scores. -/
theorem updateTwice_plain (plu : Option Timestamp) (sp : List (String × JSObject Scalar))
    (s1 s2 : List (String × String)) (w1 w2 : Int)
    (h1 : PlainStyles plu s1) (h2 : PlainStyles plu s2) (hnum : NumericScores sp) :
    ∃ r, updateTwice plu sp s1 w1 s2 w2 = some r ∧
      JSObject.keys r = JSObject.keys sp ∧
      (∀ c, labelsOf r c = labelsOf sp c) ∧
      ∀ c l, score r c l = (score sp c l).map (fun s =>
        s.add (((s1.filter (fun e => decide (e = (c, l)))).length : Int) * w1
          + ((s2.filter (fun e => decide (e = (c, l)))).length : Int) * w2)) := by
  obtain ⟨sp1, e1, k1, l1, sc1⟩ := updateStylePreferences_plain plu s1 w1 h1 sp
  obtain ⟨sp2, e2, k2, l2, sc2⟩ := updateStylePreferences_plain plu s2 w2 h2 sp1
  refine ⟨sp2, ?_, k2.trans k1, fun c => (l2 c).trans (l1 c), fun c l => ?_⟩
  · unfold updateTwice
    rw [e1]
    exact e2
  · rw [sc2, sc1, Option.map_map]
    cases hs : score sp c l with
    | none => rfl
    | some s =>
      obtain ⟨n, rfl⟩ := score_numeric hnum hs
      simp only [Option.map_some', Function.comp, addEach_num, Scalar.add]
      congr 2
      ring

/-- Order independence for plain names: on a well-formed vector of numeric scores, two
updates whose categories and labels are not names of properties of `Object.prototype` give
the same vector in either order, and an update with weight `1` followed by the same with
weight `-1` restores the vector. -/
theorem updateStylePreferences_commutes_plain (plu : Option Timestamp)
    (sp : List (String × JSObject Scalar)) (s1 s2 : List (String × String)) (w1 w2 : Int)
    (h1 : PlainStyles plu s1) (h2 : PlainStyles plu s2) (hwf : WellFormedStyles sp)
    (hnum : NumericScores sp) :
    (∃ r, updateTwice plu sp s1 w1 s2 w2 = some r ∧ updateTwice plu sp s2 w2 s1 w1 = some r) ∧
    updateTwice plu sp s1 1 s1 (-1) = some sp := by
  constructor
  · obtain ⟨a, ha, ka, la, sa⟩ := updateTwice_plain plu sp s1 s2 w1 w2 h1 h2 hnum
    obtain ⟨b, hb, kb, lb, sb⟩ := updateTwice_plain plu sp s2 s1 w2 w1 h2 h1 hnum
    refine ⟨a, ha, ?_⟩
    rw [hb]
    congr 1
    apply styles_ext b a (kb.trans ka.symm) (wellFormed_of_same_labels sp b hwf kb lb)
      (fun c => (lb c).trans (la c).symm)
    intro c l
    rw [sa, sb]
    congr 1
    funext s
    congr 1
    ring
  · obtain ⟨a, ha, ka, la, sa⟩ := updateTwice_plain plu sp s1 s1 1 (-1) h1 h1 hnum
    rw [ha]
    congr 1
    apply styles_ext a sp ka (wellFormed_of_same_labels sp a hwf ka la) la
    intro c l
    rw [sa]
    cases hs : score sp c l with
    | none => rfl
    | some s =>
      obtain ⟨n, rfl⟩ := score_numeric hnum hs
      simp [Scalar.add]

theorem updateStylePreferences_commutes_example :
    updateTwice none defaultStylePreferences [("colorSchemes", "dark")] 1
        [("layouts", "minimal"), ("colorSchemes", "dark")] (-1)
      = updateTwice none defaultStylePreferences
        [("layouts", "minimal"), ("colorSchemes", "dark")] (-1) [("colorSchemes", "dark")] 1 := by
  decide

end LandingPreferences
